import Mathlib

/-!
# TAXICode: the stacked-window axion search simulator `search001`

A shallow embedding of `src/search/search001.C`.

* C++ `double` arithmetic is idealised as exact arithmetic in a linearly ordered field `α`
  with a floor function (`ℚ` for executable runs, `ℝ` for the analytic statements).
* The library collaborators are explicit parameters: `sqrt` and `TF1::Integral` come in a
  `Numerics` record, the generator `TRandom3` is a state machine `Rng`.
* A ROOT histogram `TH1F` is its axis (`nbins`, `xmin`, `xmax`) and its cell contents, cell `0`
  being the underflow cell and cell `nbins + 1` the overflow cell.
* `cout` and the output file are explicit parts of the state (`Env`).
-/

namespace TAXI

set_option linter.unusedSectionVars false

/-! ## Constants of `search001.C` -/

section Constants

variable (α : Type) [LinearOrderedField α] [FloorRing α]

/-- Speed of light in km/s: `const double c = 3e5`. -/
def c : α := 300000

/-- Source: `const double eta = 1`. -/
def eta : α := 1

/-- Source: `const double baseline = 3.0`. -/
def baseline : α := 3

/-- Source: `const double QL = 70000`. -/
def QL : α := 70000

/-- Source: `const double S11 = 0`. -/
def S11 : α := 0

/-- Source: `const double Tsys = 5.6`. -/
def Tsys : α := 56 / 10

/-- Source: `const double bandwidth = 125e-6` (MHz). -/
def bandwidth : α := 125 / 1000000

/-- Source: `const double kB = 1.38e-1`. -/
def kB : α := 138 / 1000

/-- Source: `const int N_integral = 10000`. -/
def N_integral : ℤ := 10000

/-- Source: `const double rangeSpec = 50e-3` (MHz). -/
def rangeSpec : α := 50 / 1000

/-- Source: `const double step_size = 2e-3` (MHz). -/
def step_size : α := 2 / 1000

/-- Source: `const int nBins = rangeSpec/bandwidth`, the conversion to `int` truncating. -/
def nBins : ℕ := Int.toNat ⌊rangeSpec α / bandwidth α⌋

end Constants

/-! ## Library collaborators -/

/-- The two numeric library routines the simulator calls on `double`s: `sqrt` and the
definite integral `fspeed->Integral(a, b)` of the speed density. -/
structure Numerics (α : Type) where
  sqrt : α → α
  integral : α → α → α

/-- The random generator `TRandom3` as a state machine: `Rndm()` and `Gaus(mean, sigma)` each
return a value and the next generator state. -/
structure Rng (σ α : Type) where
  rndm : σ → α × σ
  gaus : α → α → σ → α × σ

/-- One line sent to `cout`: the text of the line and the numbers printed in it. -/
structure Msg (α : Type) where
  label : String
  vals : List α

/-! ## Histograms -/

/-- A one-dimensional fixed-bin ROOT histogram. -/
structure TH1F (α : Type) where
  name : String
  nbins : ℕ
  xmin : α
  xmax : α
  content : ℕ → α

namespace TH1F

variable {α : Type} [LinearOrderedField α] [FloorRing α]

/-- Constructor `new TH1F(name, title, nbins, xmin, xmax)`: every cell is empty. -/
def mk0 (name : String) (nbins : ℕ) (xmin xmax : α) : TH1F α :=
  { name := name, nbins := nbins, xmin := xmin, xmax := xmax, content := fun _ => 0 }

/-- ROOT `Clone(newname)`: a copy under another name. -/
def Clone (h : TH1F α) (newname : String) : TH1F α :=
  { h with name := newname }

/-- ROOT `TAxis::FindBin` for fixed bins: `0` below the axis, `nbins + 1` at or above its upper
end, else `1 + int(nbins * (x - xmin) / (xmax - xmin))`. -/
def FindBin (h : TH1F α) (x : α) : ℕ :=
  if x < h.xmin then 0
  else if ¬ (x < h.xmax) then h.nbins + 1
  else 1 + Int.toNat ⌊(h.nbins : α) * (x - h.xmin) / (h.xmax - h.xmin)⌋

/-- ROOT `TAxis::GetBinLowEdge` for fixed bins: `xmin + (bin - 1) * binwidth`. -/
def GetBinLowEdge (h : TH1F α) (bin : ℤ) : α :=
  h.xmin + ((bin : α) - 1) * ((h.xmax - h.xmin) / (h.nbins : α))

/-- ROOT `TH1::SetBinContent`: cells `0 .. nbins + 1` are stored, a cell index beyond the
overflow cell is ignored (the axis cannot be extended). -/
def SetBinContent (h : TH1F α) (bin : ℕ) (x : α) : TH1F α :=
  if bin ≤ h.nbins + 1 then { h with content := Function.update h.content bin x } else h

/-- ROOT `TH1::Add(h1, h2)` with unit weights: every cell becomes the sum of the two cells. -/
def Add (h h1 h2 : TH1F α) : TH1F α :=
  { h with content := fun b => h1.content b + h2.content b }

end TH1F

/-! ## The lineshape and the speed density -/

section Lineshape

variable {α : Type} [LinearOrderedField α] [FloorRing α]

/-- Source `P_exp(x, par)` with `f_vary = x[0]`, `f0 = par[0]` (frequencies in MHz). -/
def P_exp (f_vary f0 : α) : α :=
  baseline α * (f0 / 750) * (1 - 2 * S11 α) / (1 - S11 α) *
    (1 / (1 + 4 * QL α * QL α * (f_vary / f0 - 1) ^ 2)) * eta α

/-- Source: `sigma_noise = kB*Tsys*bandwidth*1e6/sqrt(N_integral)`. -/
def sigma_noise (N : Numerics α) : α :=
  kB α * Tsys α * bandwidth α * 1000000 / N.sqrt (N_integral : α)

end Lineshape

/-- Source `maxwell_boltzmann(x)`, the Maxwell-Boltzmann speed density with `v = 226` km/s,
over the reals. -/
noncomputable def maxwell_boltzmann (x : ℝ) : ℝ :=
  4 * Real.pi * x * x / (226 * 226 * Real.pi) ^ (1.5 : ℝ) * Real.exp (-x * x / 226 / 226)

/-- The exact real-number collaborators: the real square root and the exact integral of
`maxwell_boltzmann`, which `fspeed->Integral` approximates. -/
noncomputable def realNumerics : Numerics ℝ where
  sqrt := Real.sqrt
  integral := fun a b => ∫ x in a..b, maxwell_boltzmann x

/-! ## The simulator state -/

/-- ROOT `Form("<pre>%02d%04d", itrial, istep)`: decimal digits padded with zeros to at least
the given width. -/
def zeroPad (width n : ℕ) : String :=
  String.mk (List.replicate (width - (toString n).length) '0') ++ toString n

/-- The histogram key `Form("<pre>%02d%04d", itrial, istep)`. -/
def Form (pre : String) (itrial istep : ℕ) : String :=
  pre ++ zeroPad 2 itrial ++ zeroPad 4 istep

/-- Mutable surroundings of the run: the generator, the lines sent to `cout`, and the objects
written to the output file `sim_search001.root`, oldest first. -/
structure Env (σ α : Type) where
  rng : σ
  cout : List (Msg α)
  file : List (TH1F α)

/-- A line is printed only under `if(debug)`. -/
def Env.debugPrint {σ α : Type} (e : Env σ α) (debug : Bool) (m : Msg α) : Env σ α :=
  if debug then { e with cout := e.cout ++ [m] } else e

/-- The three histograms `hsig[itrial][istep]`, `hbkg[itrial][istep]`, `hmea[itrial][istep]`. -/
structure Window (α : Type) where
  hsig : TH1F α
  hbkg : TH1F α
  hmea : TH1F α

/-- State of the Maxwell-Boltzmann bin loop: the signal histogram and the two running sums. -/
structure SigState (α : Type) where
  hsig : TH1F α
  sum_prob : α
  sum_signal_power : α
  cout : List (Msg α)

/-- State of the loop over frequency steps inside one trial. -/
structure ScanState (σ α : Type) where
  env : Env σ α
  nSpectra : ℕ
  startStepBin : ℤ
  windows : List (Window α)

/-- One trial: the drawn signal frequency and the windows of all its steps, in step order. -/
structure Trial (α : Type) where
  f_axion : α
  nSpectra : ℕ
  startStepBin : ℤ
  windows : List (Window α)

/-- What a run leaves behind: the trials and the final surroundings. -/
structure Result (σ α : Type) where
  trials : List (Trial α)
  env : Env σ α

/-! ## `search001` -/

section Search

variable {σ α : Type} [LinearOrderedField α] [FloorRing α]

/-- Body of `for(int ib=binStart+1; ib <= nBins; ib++)`: the power of bin `ib`. -/
def sigBinBody (N : Numerics α) (debug : Bool) (f_axion power_sig : α)
    (st : SigState α) (ib : ℕ) : SigState α :=
  let binlo := st.hsig.GetBinLowEdge ib
  let binhi := st.hsig.GetBinLowEdge (ib + 1)
  let out1 := if debug then st.cout ++ [⟨"binlo binhi", [binlo, binhi]⟩] else st.cout
  let vlo := c α * N.sqrt (binlo / f_axion - 1)
  let vhi := c α * N.sqrt (binhi / f_axion - 1)
  let out2 := if debug then out1 ++ [⟨"vlo vhi", [vlo, vhi]⟩] else out1
  let prob := N.integral vlo vhi
  let power_for_this_bin := power_sig * prob
  { hsig := st.hsig.SetBinContent ib power_for_this_bin
    sum_prob := st.sum_prob + prob
    sum_signal_power := st.sum_signal_power + power_for_this_bin
    cout := out2 }

/-- The `else` branch "if assuming a maxwell distribution": the starting bin's probability
enters the running sums only, then bins `binStart + 1 .. nBins` are filled. -/
def sigMaxwell (N : Numerics α) (debug : Bool) (f_axion power_sig : α) (binStart : ℕ)
    (binhi : α) (hsig : TH1F α) (cout : List (Msg α)) : SigState α :=
  let vlo : α := 0
  let vhi := c α * N.sqrt (binhi / f_axion - 1)
  let out1 := if debug then cout ++ [⟨"vlo vhi", [vlo, vhi]⟩] else cout
  let prob := N.integral vlo vhi
  let st0 : SigState α :=
    { hsig := hsig, sum_prob := prob, sum_signal_power := power_sig * prob, cout := out1 }
  let st1 := (List.range' (binStart + 1) (nBins α - binStart)).foldl
    (sigBinBody N debug f_axion power_sig) st0
  let out2 := if debug then st1.cout ++ [⟨"sum of probability is", [st1.sum_prob]⟩] else st1.cout
  let out3 :=
    if debug then out2 ++ [⟨"sum of signal power is", [st1.sum_signal_power]⟩] else out2
  { st1 with cout := out3 }

/-- Body of the background loop `for(int ib=1; ib <= nBins; ib++)`: one Gaussian draw per bin. -/
def bkgBinBody (N : Numerics α) (R : Rng σ α) (st : TH1F α × σ) (ib : ℕ) : TH1F α × σ :=
  let d := R.gaus 0 (sigma_noise N) st.2
  (st.1.SetBinContent ib d.1, d.2)

/-- Source: `start_freq = freq_lo + istep*step_size`. -/
def start_freq (freq_lo : α) (istep : ℕ) : α := freq_lo + (istep : α) * step_size α

/-- Source: `end_freq = start_freq + rangeSpec`. -/
def end_freq (freq_lo : α) (istep : ℕ) : α := start_freq freq_lo istep + rangeSpec α

/-- Body of the loop over frequency steps, for step `istep` of trial `itrial`. The `continue`
of a window below the signal frequency leaves the three fresh clones untouched and unwritten. -/
def stepBody (N : Numerics α) (R : Rng σ α) (narrow debug : Bool) (freq_lo f_axion : α)
    (itrial : ℕ) (st : ScanState σ α) (istep : ℕ) : ScanState σ α :=
  let e1 := st.env.debugPrint debug
    ⟨"start:end frequencies = ", [start_freq freq_lo istep, end_freq freq_lo istep]⟩
  let htemp : TH1F α :=
    TH1F.mk0 "htemp" (nBins α) (start_freq freq_lo istep) (end_freq freq_lo istep)
  let hsig := htemp.Clone (Form "hsig" itrial istep)
  let hbkg := htemp.Clone (Form "hbkg" itrial istep)
  let hmea := htemp.Clone (Form "hmea" itrial istep)
  if f_axion > end_freq freq_lo istep then
    { st with env := e1, windows := st.windows ++ [⟨hsig, hbkg, hmea⟩] }
  else
    let startStepBin := if st.startStepBin < 0 then (istep : ℤ) else st.startStepBin
    let nSpectra := st.nSpectra + 1
    let resFreq := start_freq freq_lo istep + (5 / 10) * rangeSpec α
    let e2 := e1.debugPrint debug ⟨"resonance frequency = ", [resFreq]⟩
    let power_sig := P_exp f_axion resFreq
    let e3 := e2.debugPrint debug ⟨"power signal ", [power_sig]⟩
    let binStart := hsig.FindBin f_axion
    let e4 := e3.debugPrint debug ⟨"binStart = ", [(binStart : α)]⟩
    let binlo := f_axion
    let binhi := hsig.GetBinLowEdge (binStart + 1)
    let e5 := e4.debugPrint debug ⟨"binlo binhi", [binlo, binhi]⟩
    let sg : TH1F α × List (Msg α) :=
      if narrow then (hsig.SetBinContent binStart power_sig, e5.cout)
      else
        let s := sigMaxwell N debug f_axion power_sig binStart binhi hsig e5.cout
        (s.hsig, s.cout)
    let bk := (List.range' 1 (nBins α)).foldl (bkgBinBody N R) (hbkg, e5.rng)
    let hmea1 := hmea.Add sg.1 bk.1
    { env := { rng := bk.2, cout := sg.2, file := e5.file ++ [sg.1, bk.1, hmea1] }
      nSpectra := nSpectra
      startStepBin := startStepBin
      windows := st.windows ++ [⟨sg.1, bk.1, hmea1⟩] }

/-- Body of the loop over trials: draw `f_axion`, then scan all `nSteps` steps. -/
def trialBody (N : Numerics α) (R : Rng σ α) (lo hi : α) (narrow debug : Bool) (freq_lo : α)
    (nSteps : ℕ) (r : Result σ α) (itrial : ℕ) : Result σ α :=
  let d := R.rndm r.env.rng
  let f_axion := lo + (hi - lo) * d.1
  let e1 := ({ r.env with rng := d.2 } : Env σ α).debugPrint debug
    ⟨"search for a signal with frequency = ", [f_axion]⟩
  let st := (List.range nSteps).foldl (stepBody N R narrow debug freq_lo f_axion itrial)
    { env := e1, nSpectra := 0, startStepBin := -1, windows := [] }
  { trials := r.trials ++ [⟨f_axion, st.nSpectra, st.startStepBin, st.windows⟩]
    env := st.env }

/-- Source: `const unsigned int nSteps = (hi-lo)/step_size`, the conversion truncating. -/
def nSteps (lo hi : α) : ℕ := Int.toNat ⌊(hi - lo) / step_size α⌋

/-- Source: `freq_lo = lo - 0.5*rangeSpec`. -/
def freq_lo (lo : α) : α := lo - (5 / 10) * rangeSpec α

/-- Source: `freq_hi = hi + 0.5*rangeSpec`. -/
def freq_hi (hi : α) : α := hi + (5 / 10) * rangeSpec α

/-- Source `search001(lo, hi, narrow, nTrials, debug)`, started with generator state `s0`.
`FATAL` ends the process: the run then has no result. The histogram `hGrand` and `nTotalBins`
are never used after their construction and are left out. -/
def search001 (N : Numerics α) (R : Rng σ α) (lo hi : α) (narrow : Bool) (nTrials : ℕ)
    (debug : Bool) (s0 : σ) : Except String (Result σ α) :=
  if S11 α > 1 ∨ |S11 α - 1| < 1 / 1000000 ∨ S11 α < 0 then
    Except.error "S11 should be between 0 and 1"
  else
    let header : List (Msg α) :=
      [⟨"Preparing a study with trials and steps of frequency changes",
          [(nTrials : α), (nSteps lo hi : α)]⟩,
        ⟨"sigma of noise is ", [sigma_noise N]⟩,
        ⟨"Grand spectrum frequency range is ", [freq_lo lo, freq_hi hi]⟩]
    Except.ok ((List.range nTrials).foldl
      (trialBody N R lo hi narrow debug (freq_lo lo) (nSteps lo hi))
      { trials := [], env := { rng := s0, cout := header, file := [] } })

end Search

/-- A generator whose every `Rndm()` is `u` and whose every `Gaus` is `g`: the simplest
random stream, used to pin a run down to concrete numbers. -/
def constRng {α : Type} (u g : α) : Rng Unit α where
  rndm := fun _ => (u, ())
  gaus := fun _ _ _ => (g, ())

/-! ## Notions used to state the claims -/

/-- The three objects of a window in the order of the calls `hsig->Write()`, `hbkg->Write()`,
`hmea->Write()`. -/
def Window.triple {α : Type} (W : Window α) : List (TH1F α) := [W.hsig, W.hbkg, W.hmea]

/-- The number of steps `istep < n` that pass the guard `if(f_axion > end_freq) continue`,
that is, the steps whose window is processed and written. -/
def processedCount {α : Type} [LinearOrderedField α] (fl f_axion : α) (n : ℕ) : ℕ :=
  ((List.range n).filter (fun istep => decide (¬ f_axion > end_freq fl istep))).length

/-- The number of steps `istep < n` whose window `[start_freq, end_freq)` covers the
frequency `f`. -/
def coverCount {α : Type} [LinearOrderedField α] (fl f : α) (n : ℕ) : ℕ :=
  ((List.range n).filter
    (fun istep => decide (start_freq fl istep ≤ f ∧ f < end_freq fl istep))).length

/-! ## The program for another value of the constant `S11`

`S11` is a compile-time constant of `search001.C`. To speak about the check of line 77 for
values other than `0`, the same program is written once more with the constant as a
parameter `s11`; at `s11 = S11` it is `search001` itself. -/

section WithS11

variable {σ α : Type} [LinearOrderedField α] [FloorRing α]

/-- Source `P_exp(x, par)`, the constant `S11` read as `s11`. -/
def P_expWith (s11 f_vary f0 : α) : α :=
  baseline α * (f0 / 750) * (1 - 2 * s11) / (1 - s11) *
    (1 / (1 + 4 * QL α * QL α * (f_vary / f0 - 1) ^ 2)) * eta α

/-- Body of the loop over frequency steps, the constant `S11` read as `s11`. -/
def stepBodyWith (s11 : α) (N : Numerics α) (R : Rng σ α) (narrow debug : Bool)
    (freq_lo f_axion : α) (itrial : ℕ) (st : ScanState σ α) (istep : ℕ) : ScanState σ α :=
  let e1 := st.env.debugPrint debug
    ⟨"start:end frequencies = ", [start_freq freq_lo istep, end_freq freq_lo istep]⟩
  let htemp : TH1F α :=
    TH1F.mk0 "htemp" (nBins α) (start_freq freq_lo istep) (end_freq freq_lo istep)
  let hsig := htemp.Clone (Form "hsig" itrial istep)
  let hbkg := htemp.Clone (Form "hbkg" itrial istep)
  let hmea := htemp.Clone (Form "hmea" itrial istep)
  if f_axion > end_freq freq_lo istep then
    { st with env := e1, windows := st.windows ++ [⟨hsig, hbkg, hmea⟩] }
  else
    let startStepBin := if st.startStepBin < 0 then (istep : ℤ) else st.startStepBin
    let nSpectra := st.nSpectra + 1
    let resFreq := start_freq freq_lo istep + (5 / 10) * rangeSpec α
    let e2 := e1.debugPrint debug ⟨"resonance frequency = ", [resFreq]⟩
    let power_sig := P_expWith s11 f_axion resFreq
    let e3 := e2.debugPrint debug ⟨"power signal ", [power_sig]⟩
    let binStart := hsig.FindBin f_axion
    let e4 := e3.debugPrint debug ⟨"binStart = ", [(binStart : α)]⟩
    let binlo := f_axion
    let binhi := hsig.GetBinLowEdge (binStart + 1)
    let e5 := e4.debugPrint debug ⟨"binlo binhi", [binlo, binhi]⟩
    let sg : TH1F α × List (Msg α) :=
      if narrow then (hsig.SetBinContent binStart power_sig, e5.cout)
      else
        let s := sigMaxwell N debug f_axion power_sig binStart binhi hsig e5.cout
        (s.hsig, s.cout)
    let bk := (List.range' 1 (nBins α)).foldl (bkgBinBody N R) (hbkg, e5.rng)
    let hmea1 := hmea.Add sg.1 bk.1
    { env := { rng := bk.2, cout := sg.2, file := e5.file ++ [sg.1, bk.1, hmea1] }
      nSpectra := nSpectra
      startStepBin := startStepBin
      windows := st.windows ++ [⟨sg.1, bk.1, hmea1⟩] }

/-- Body of the loop over trials, the constant `S11` read as `s11`. -/
def trialBodyWith (s11 : α) (N : Numerics α) (R : Rng σ α) (lo hi : α) (narrow debug : Bool)
    (freq_lo : α) (nSteps : ℕ) (r : Result σ α) (itrial : ℕ) : Result σ α :=
  let d := R.rndm r.env.rng
  let f_axion := lo + (hi - lo) * d.1
  let e1 := ({ r.env with rng := d.2 } : Env σ α).debugPrint debug
    ⟨"search for a signal with frequency = ", [f_axion]⟩
  let st := (List.range nSteps).foldl (stepBodyWith s11 N R narrow debug freq_lo f_axion itrial)
    { env := e1, nSpectra := 0, startStepBin := -1, windows := [] }
  { trials := r.trials ++ [⟨f_axion, st.nSpectra, st.startStepBin, st.windows⟩]
    env := st.env }

/-- Source `search001(lo, hi, narrow, nTrials, debug)`, the constant `S11` read as `s11`. The
check of `s11` is the first statement; `FATAL` prints its message and ends the process, so
that nothing after it is executed. -/
def search001With (s11 : α) (N : Numerics α) (R : Rng σ α) (lo hi : α) (narrow : Bool)
    (nTrials : ℕ) (debug : Bool) (s0 : σ) : Except String (Result σ α) :=
  if s11 > 1 ∨ |s11 - 1| < 1 / 1000000 ∨ s11 < 0 then
    Except.error "S11 should be between 0 and 1"
  else
    let header : List (Msg α) :=
      [⟨"Preparing a study with trials and steps of frequency changes",
          [(nTrials : α), (nSteps lo hi : α)]⟩,
        ⟨"sigma of noise is ", [sigma_noise N]⟩,
        ⟨"Grand spectrum frequency range is ", [freq_lo lo, freq_hi hi]⟩]
    Except.ok ((List.range nTrials).foldl
      (trialBodyWith s11 N R lo hi narrow debug (freq_lo lo) (nSteps lo hi))
      { trials := [], env := { rng := s0, cout := header, file := [] } })

end WithS11

/-- Two scan states agree in everything except the lines sent to `cout`. -/
def ScanState.agree {σ α : Type} (a b : ScanState σ α) : Prop :=
  a.env.rng = b.env.rng ∧ a.env.file = b.env.file ∧ a.nSpectra = b.nSpectra ∧
    a.startStepBin = b.startStepBin ∧ a.windows = b.windows

/-- Two runs agree in everything except the lines sent to `cout`: the same trials (signal
frequency, counters and the three histograms of every window), the same objects in the file
and the same generator state at the end. -/
def Result.agree {σ α : Type} (a b : Result σ α) : Prop :=
  a.trials = b.trials ∧ a.env.file = b.env.file ∧ a.env.rng = b.env.rng

/-- The number a string of decimal digits stands for, the most significant digit first. -/
def decVal : List Char → ℕ
  | [] => 0
  | ch :: l => (ch.toNat - 48) * 10 ^ l.length + decVal l

/-! ## The formula calculator `src/limits/compute.C`

Its `double`s are read as real numbers, `sqrt` as the real square root and `TMath::Pi()` as
`π`. The functions that only print are given by the values they compute. -/

namespace compute

/-- Source: `const double kB=1.380649e-23` (J/K). -/
noncomputable def kB : ℝ := 1380649 / 10 ^ 29

/-- Source: `const double h = 6.626e-34` (J s). -/
noncomputable def h : ℝ := 6626 / 10 ^ 37

/-- Source: `const double hbarc= 197.327e-9` (eV m). -/
noncomputable def hbarc : ℝ := 197327 / 10 ^ 12

/-- Source: `const double alpha= 1.0/137.036`. -/
noncomputable def alpha : ℝ := 1 / (137036 / 1000)

/-- Source: `const double lambda = 78e6` (eV). -/
noncomputable def lambda : ℝ := 78000000

/-- Source: `const double rhoDM = 0.45e15` (eV/m^3). -/
noncomputable def rhoDM : ℝ := 45 * 10 ^ 13

/-- Source: `const double pi= TMath::Pi()`. -/
noncomputable def pi : ℝ := Real.pi

/-- Source: `const double inverse_mu0pi = 0.5e7`. -/
noncomputable def inverse_mu0pi : ℝ := 5000000

/-- Source: `const double jouelToeV=1/1.6e-19`. -/
noncomputable def jouelToeV : ℝ := 1 / (16 / 10 ^ 20)

/-- Source `computegAgg`, the local `gAgammagamma` as first assigned (in 1/eV):
`fabs(gGamma)*alpha/pi/lambda/lambda*ma`. -/
noncomputable def computegAgg.gAgammagamma (ma gGamma : ℝ) : ℝ :=
  |gGamma| * alpha / pi / lambda / lambda * ma

/-- Source `computegAgg(ma, gGamma)`: the printed coupling in 1/GeV, after
`gAgammagamma *= 1e9`. -/
noncomputable def computegAgg (ma gGamma : ℝ) : ℝ :=
  computegAgg.gAgammagamma ma gGamma * 1000000000

/-- Source `computePs(f0, beta, B, V, Cmnl, QL, gGamma)`: the returned `Psig`. -/
noncomputable def computePs (f0 beta B V Cmnl QL gGamma : ℝ) : ℝ :=
  (gGamma * alpha / pi / lambda / lambda) ^ 2
    * hbarc ^ 3 * rhoDM * beta / (1 + beta) * f0 * inverse_mu0pi
    * B * B * V * Cmnl * QL

/-- Source `computeLimit`: `noise_power = Tsys>0? kB*Tsys: h*f0`. -/
noncomputable def computeLimit.noise_power (f0 Tsys : ℝ) : ℝ :=
  if Tsys > 0 then kB * Tsys else h * f0

/-- Source `computeLimit`:
`sigmaN = noise_power*(nspec>0? bandwidth/sqrt(nspec): sqrt(bandwidth/intT))`. -/
noncomputable def computeLimit.sigmaN (f0 Tsys bandwidth intT : ℝ) (nspec : ℤ) : ℝ :=
  computeLimit.noise_power f0 Tsys *
    (if nspec > 0 then bandwidth / Real.sqrt (nspec : ℝ) else Real.sqrt (bandwidth / intT))

/-- Source `computeLimit`: `upperLimit_power = sigmaN*significance`. -/
noncomputable def computeLimit.upperLimit_power (significance f0 Tsys bandwidth intT : ℝ)
    (nspec : ℤ) : ℝ :=
  computeLimit.sigmaN f0 Tsys bandwidth intT nspec * significance

/-- Source `computeLimit`: `ma = h*f0*jouelToeV`. -/
noncomputable def computeLimit.ma (f0 : ℝ) : ℝ := h * f0 * jouelToeV

/-- Source `computeLimit`: `factor_signal_power = 1/pow(ma,2) *pow(hbarc,3)*rhoDM*beta/(1+beta)
*f0*inverse_mu0pi *B*B*V*Cmnl*QL`. -/
noncomputable def computeLimit.factor_signal_power (f0 beta B V Cmnl QL : ℝ) : ℝ :=
  1 / (computeLimit.ma f0) ^ 2
    * hbarc ^ 3 * rhoDM * beta / (1 + beta) * f0 * inverse_mu0pi
    * B * B * V * Cmnl * QL

/-- Source `computeLimit`: `gAgammagamma = sqrt(upperLimit_power/factor_signal_power)`, the
limit on the coupling in 1/eV. -/
noncomputable def computeLimit.gAgammagamma (significance f0 Tsys beta B V Cmnl QL bandwidth
    intT : ℝ) (nspec : ℤ) : ℝ :=
  Real.sqrt (computeLimit.upperLimit_power significance f0 Tsys bandwidth intT nspec /
    computeLimit.factor_signal_power f0 beta B V Cmnl QL)

/-- Source `computeLimit(...)`: the printed limit in 1/GeV, `gAgammagamma*1e9`. -/
noncomputable def computeLimit (significance f0 Tsys beta B V Cmnl QL bandwidth intT : ℝ)
    (nspec : ℤ) : ℝ :=
  computeLimit.gAgammagamma significance f0 Tsys beta B V Cmnl QL bandwidth intT nspec *
    1000000000

end compute

/-- The velocity transform of the Maxwell branch, `c*sqrt(f/f_axion-1)` (km/s). -/
def vel {α : Type} [LinearOrderedField α] (N : Numerics α) (f_axion f : α) : α :=
  c α * N.sqrt (f / f_axion - 1)

/-- The probability `fspeed->Integral(vlo, vhi)` of bin `ib` in the loop of the Maxwell branch:
`vlo` and `vhi` are the velocities of the lower and the upper edge of the bin. -/
def binProb {α : Type} [LinearOrderedField α] (N : Numerics α) (h : TH1F α) (f_axion : α)
    (ib : ℕ) : α :=
  N.integral (vel N f_axion (h.GetBinLowEdge ib)) (vel N f_axion (h.GetBinLowEdge (ib + 1)))

/-! ## Basic facts -/

section Basic

variable {σ α : Type} [LinearOrderedField α] [FloorRing α]

theorem nBins_eq : nBins α = 400 := by
  have h : rangeSpec α / bandwidth α = ((400 : ℤ) : α) := by
    simp only [rangeSpec, bandwidth]; norm_num
  simp only [nBins, h, Int.floor_intCast]
  rfl

theorem search001_eq (N : Numerics α) (R : Rng σ α) (lo hi : α) (narrow : Bool) (nTrials : ℕ)
    (debug : Bool) (s0 : σ) :
    search001 N R lo hi narrow nTrials debug s0 =
      Except.ok ((List.range nTrials).foldl
        (trialBody N R lo hi narrow debug (freq_lo lo) (nSteps lo hi))
        { trials := [],
          env := { rng := s0,
                   cout :=
                    [⟨"Preparing a study with trials and steps of frequency changes",
                        [(nTrials : α), (nSteps lo hi : α)]⟩,
                      ⟨"sigma of noise is ", [sigma_noise N]⟩,
                      ⟨"Grand spectrum frequency range is ", [freq_lo lo, freq_hi hi]⟩],
                   file := [] } }) := by
  unfold search001
  rw [if_neg]
  simp only [S11]
  norm_num

/-- Every step appends exactly one window. -/
theorem stepBody_append (N : Numerics α) (R : Rng σ α) (narrow debug : Bool) (fl fa : α)
    (itrial : ℕ) (st : ScanState σ α) (istep : ℕ) :
    ∃ W, (stepBody N R narrow debug fl fa itrial st istep).windows = st.windows ++ [W] := by
  unfold stepBody
  split_ifs <;> exact ⟨_, rfl⟩

/-- What the window appended by a step is: three empty clones when the step is skipped, else
the filled signal histogram, some background histogram, and their cell-wise sum. -/
theorem stepBody_window (N : Numerics α) (R : Rng σ α) (narrow debug : Bool) (fl fa : α)
    (itrial : ℕ) (st : ScanState σ α) (istep : ℕ) (W : Window α)
    (h : (stepBody N R narrow debug fl fa itrial st istep).windows = st.windows ++ [W]) :
    (fa > end_freq fl istep ∧
      W.hsig = (TH1F.mk0 "htemp" (nBins α) (start_freq fl istep) (end_freq fl istep)).Clone
        (Form "hsig" itrial istep) ∧
      W.hbkg = (TH1F.mk0 "htemp" (nBins α) (start_freq fl istep) (end_freq fl istep)).Clone
        (Form "hbkg" itrial istep) ∧
      W.hmea = (TH1F.mk0 "htemp" (nBins α) (start_freq fl istep) (end_freq fl istep)).Clone
        (Form "hmea" itrial istep)) ∨
    (¬ fa > end_freq fl istep ∧
      (∃ cout,
        W.hsig =
          if narrow then
            ((TH1F.mk0 "htemp" (nBins α) (start_freq fl istep) (end_freq fl istep)).Clone
              (Form "hsig" itrial istep)).SetBinContent
              (((TH1F.mk0 "htemp" (nBins α) (start_freq fl istep) (end_freq fl istep)).Clone
                (Form "hsig" itrial istep)).FindBin fa)
              (P_exp fa (start_freq fl istep + (5 / 10) * rangeSpec α))
          else
            (sigMaxwell N debug fa (P_exp fa (start_freq fl istep + (5 / 10) * rangeSpec α))
              (((TH1F.mk0 "htemp" (nBins α) (start_freq fl istep) (end_freq fl istep)).Clone
                (Form "hsig" itrial istep)).FindBin fa)
              (((TH1F.mk0 "htemp" (nBins α) (start_freq fl istep) (end_freq fl istep)).Clone
                (Form "hsig" itrial istep)).GetBinLowEdge
                  ((((TH1F.mk0 "htemp" (nBins α) (start_freq fl istep) (end_freq fl istep)).Clone
                    (Form "hsig" itrial istep)).FindBin fa : ℕ) + 1))
              ((TH1F.mk0 "htemp" (nBins α) (start_freq fl istep) (end_freq fl istep)).Clone
                (Form "hsig" itrial istep)) cout).hsig) ∧
      W.hmea = ((TH1F.mk0 "htemp" (nBins α) (start_freq fl istep) (end_freq fl istep)).Clone
        (Form "hmea" itrial istep)).Add W.hsig W.hbkg) := by
  unfold stepBody at h
  by_cases hskip : fa > end_freq fl istep
  · rw [if_pos hskip] at h
    have hWeq := List.append_cancel_left h
    simp only [List.cons.injEq, and_true] at hWeq
    subst hWeq
    exact Or.inl ⟨hskip, rfl, rfl, rfl⟩
  · rw [if_neg hskip] at h
    have hWeq := List.append_cancel_left h
    simp only [List.cons.injEq, and_true] at hWeq
    subst hWeq
    refine Or.inr ⟨hskip, ?_, rfl⟩
    cases narrow
    · exact ⟨_, rfl⟩
    · exact ⟨[], rfl⟩

/-- The windows of a scan: as many as steps, the window at index `i` built by step `i`. -/
theorem stepLoop_windows (N : Numerics α) (R : Rng σ α) (narrow debug : Bool) (fl fa : α)
    (itrial : ℕ) (st0 : ScanState σ α) (h0 : st0.windows = []) (n : ℕ) :
    ((List.range n).foldl (stepBody N R narrow debug fl fa itrial) st0).windows.length = n ∧
    ∀ i W, ((List.range n).foldl (stepBody N R narrow debug fl fa itrial) st0).windows[i]?
        = some W →
      i < n ∧ ∃ st, (stepBody N R narrow debug fl fa itrial st i).windows = st.windows ++ [W] := by
  induction n with
  | zero => simp [h0]
  | succ n ih =>
    obtain ⟨hlen, hget⟩ := ih
    rw [List.range_succ, List.foldl_append]
    simp only [List.foldl_cons, List.foldl_nil]
    obtain ⟨W0, hW0⟩ := stepBody_append N R narrow debug fl fa itrial
      ((List.range n).foldl (stepBody N R narrow debug fl fa itrial) st0) n
    rw [hW0]
    refine ⟨by simp [hlen], ?_⟩
    intro i W hi
    by_cases hin : i < n
    · rw [List.getElem?_append_left (by omega)] at hi
      obtain ⟨_, st, hst⟩ := hget i W hi
      exact ⟨by omega, st, hst⟩
    · have hlt : i < (((List.range n).foldl (stepBody N R narrow debug fl fa itrial)
          st0).windows ++ [W0]).length := by
        by_contra hcon
        rw [List.getElem?_eq_none (by omega)] at hi
        exact Option.noConfusion hi
      simp only [List.length_append, List.length_singleton, hlen] at hlt
      have hie : i = n := by omega
      subst hie
      rw [List.getElem?_append_right (by omega)] at hi
      simp only [hlen, Nat.sub_self, List.getElem?_cons_zero, Option.some.injEq] at hi
      subst hi
      exact ⟨by omega, _, hW0⟩

/-- Every trial appends exactly one trial record, whose windows come from the scan. -/
theorem trialBody_trials (N : Numerics α) (R : Rng σ α) (lo hi : α) (narrow debug : Bool)
    (fl : α) (n : ℕ) (r : Result σ α) (itrial : ℕ) :
    ∃ T, (trialBody N R lo hi narrow debug fl n r itrial).trials = r.trials ++ [T] ∧
      T.f_axion = lo + (hi - lo) * (R.rndm r.env.rng).1 ∧
      T.windows.length = n ∧
      ∀ i W, T.windows[i]? = some W →
        i < n ∧ ∃ st, (stepBody N R narrow debug fl T.f_axion itrial st i).windows
          = st.windows ++ [W] := by
  refine ⟨_, rfl, rfl, ?_, ?_⟩
  · exact (stepLoop_windows N R narrow debug fl _ itrial _ rfl n).1
  · exact (stepLoop_windows N R narrow debug fl _ itrial _ rfl n).2

/-- The trials of a run: as many as requested, each built by `trialBody`. -/
theorem trialLoop_trials (N : Numerics α) (R : Rng σ α) (lo hi : α) (narrow debug : Bool)
    (fl : α) (n : ℕ) (r0 : Result σ α) (h0 : r0.trials = []) (m : ℕ) :
    ((List.range m).foldl (trialBody N R lo hi narrow debug fl n) r0).trials.length = m ∧
    ∀ t T, ((List.range m).foldl (trialBody N R lo hi narrow debug fl n) r0).trials[t]?
        = some T →
      t < m ∧ T.windows.length = n ∧ (∃ s, T.f_axion = lo + (hi - lo) * (R.rndm s).1) ∧
      ∀ i W, T.windows[i]? = some W →
        i < n ∧ ∃ st, (stepBody N R narrow debug fl T.f_axion t st i).windows
          = st.windows ++ [W] := by
  induction m with
  | zero => simp [h0]
  | succ m ih =>
    obtain ⟨hlen, hget⟩ := ih
    rw [List.range_succ, List.foldl_append]
    simp only [List.foldl_cons, List.foldl_nil]
    obtain ⟨T0, hT0, hT0f, hT0len, hT0w⟩ := trialBody_trials N R lo hi narrow debug fl n
      ((List.range m).foldl (trialBody N R lo hi narrow debug fl n) r0) m
    rw [hT0]
    refine ⟨by simp [hlen], ?_⟩
    intro t T ht
    by_cases htm : t < m
    · rw [List.getElem?_append_left (by omega)] at ht
      obtain ⟨_, h2, h3, h4⟩ := hget t T ht
      exact ⟨by omega, h2, h3, h4⟩
    · have hlt : t < (((List.range m).foldl (trialBody N R lo hi narrow debug fl n)
          r0).trials ++ [T0]).length := by
        by_contra hcon
        rw [List.getElem?_eq_none (by omega)] at ht
        exact Option.noConfusion ht
      simp only [List.length_append, List.length_singleton, hlen] at hlt
      have hte : t = m := by omega
      subst hte
      rw [List.getElem?_append_right (by omega)] at ht
      simp only [hlen, Nat.sub_self, List.getElem?_cons_zero, Option.some.injEq] at ht
      subst ht
      exact ⟨by omega, hT0len, ⟨_, hT0f⟩, hT0w⟩

/-- Every window a run of `search001` holds was built by `stepBody` for its own trial and step,
with the signal frequency of its trial. -/
theorem search001_window (N : Numerics α) (R : Rng σ α) (lo hi : α) (narrow : Bool)
    (nTrials : ℕ) (debug : Bool) (s0 : σ) (res : Result σ α)
    (hres : search001 N R lo hi narrow nTrials debug s0 = Except.ok res)
    (itrial istep : ℕ) (T : Trial α) (W : Window α)
    (hT : res.trials[itrial]? = some T) (hW : T.windows[istep]? = some W) :
    itrial < nTrials ∧ istep < nSteps lo hi ∧
      ∃ st, (stepBody N R narrow debug (freq_lo lo) T.f_axion itrial st istep).windows
        = st.windows ++ [W] := by
  rw [search001_eq] at hres
  injection hres with hres
  subst hres
  obtain ⟨h1, -, -, h3⟩ := (trialLoop_trials N R lo hi narrow debug (freq_lo lo)
    (nSteps lo hi) _ rfl nTrials).2 itrial T hT
  obtain ⟨h4, h5⟩ := h3 istep W hW
  exact ⟨h1, h4, h5⟩

/-- A run holds a trial for every trial index and a window for every step of it. -/
theorem search001_shape (N : Numerics α) (R : Rng σ α) (lo hi : α) (narrow : Bool)
    (nTrials : ℕ) (debug : Bool) (s0 : σ) (res : Result σ α)
    (hres : search001 N R lo hi narrow nTrials debug s0 = Except.ok res) :
    res.trials.length = nTrials ∧ ∀ T ∈ res.trials, T.windows.length = nSteps lo hi := by
  rw [search001_eq] at hres
  injection hres with hres
  subst hres
  refine ⟨(trialLoop_trials N R lo hi narrow debug (freq_lo lo) (nSteps lo hi) _ rfl
    nTrials).1, ?_⟩
  intro T hT
  obtain ⟨t, ht, hget⟩ := List.getElem_of_mem hT
  have key := List.getElem?_eq_getElem ht
  rw [hget] at key
  exact ((trialLoop_trials N R lo hi narrow debug (freq_lo lo) (nSteps lo hi) _ rfl
    nTrials).2 t T key).2.1

/-- The signal frequency of every trial is `lo + (hi - lo) * u` for a draw `u` of `Rndm()`. -/
theorem search001_f_axion (N : Numerics α) (R : Rng σ α) (lo hi : α) (narrow : Bool)
    (nTrials : ℕ) (debug : Bool) (s0 : σ) (res : Result σ α)
    (hres : search001 N R lo hi narrow nTrials debug s0 = Except.ok res)
    (itrial : ℕ) (T : Trial α) (hT : res.trials[itrial]? = some T) :
    ∃ s, T.f_axion = lo + (hi - lo) * (R.rndm s).1 := by
  rw [search001_eq] at hres
  injection hres with hres
  subst hres
  exact ((trialLoop_trials N R lo hi narrow debug (freq_lo lo) (nSteps lo hi)
    _ rfl nTrials).2 itrial T hT).2.2.1

/-- A run has a result, with a trial at every trial index and a window at every step. -/
theorem search001_exists (N : Numerics α) (R : Rng σ α) (lo hi : α) (narrow : Bool)
    (nTrials : ℕ) (debug : Bool) (s0 : σ) (itrial istep : ℕ)
    (h1 : itrial < nTrials) (h2 : istep < nSteps lo hi) :
    ∃ res T W, search001 N R lo hi narrow nTrials debug s0 = Except.ok res ∧
      res.trials[itrial]? = some T ∧ T.windows[istep]? = some W := by
  obtain ⟨hlen, hw⟩ := search001_shape N R lo hi narrow nTrials debug s0 _
    (search001_eq N R lo hi narrow nTrials debug s0)
  rw [← hlen] at h1
  refine ⟨_, _, _, search001_eq N R lo hi narrow nTrials debug s0,
    List.getElem?_eq_getElem h1, List.getElem?_eq_getElem ?_⟩
  rw [hw _ (List.getElem_mem _)]
  exact h2

theorem nSteps_default : nSteps (749 : α) 751 = 1000 := by
  have h : ((751 : α) - 749) / step_size α = ((1000 : ℤ) : α) := by
    simp only [step_size]; norm_num
  simp only [nSteps, h, Int.floor_intCast]
  rfl

end Basic

/-! ## Facts about the lineshape -/

section LineshapeFacts

variable {α : Type} [LinearOrderedField α]

theorem P_exp_eq (f f0 : α) :
    P_exp f f0 = 3 * (f0 / 750) * (1 / (1 + 4 * 70000 * 70000 * (f / f0 - 1) ^ 2)) := by
  simp only [P_exp, baseline, S11, QL, eta]
  norm_num

theorem P_exp_den_pos (f f0 : α) : 0 < 1 + 4 * 70000 * 70000 * (f / f0 - 1) ^ 2 := by
  have h := sq_nonneg (f / f0 - 1)
  nlinarith

theorem P_exp_den_ge_one (f f0 : α) : 1 ≤ 1 + 4 * 70000 * 70000 * (f / f0 - 1) ^ 2 := by
  have h := sq_nonneg (f / f0 - 1)
  nlinarith

/-- The lineshape factor `1/(1 + 4 QL^2 (f/f0 - 1)^2)` lies in `(0, 1]`. -/
theorem P_exp_factor (f f0 : α) :
    0 < 1 / (1 + 4 * 70000 * 70000 * (f / f0 - 1) ^ 2) ∧
      1 / (1 + 4 * 70000 * 70000 * (f / f0 - 1) ^ 2) ≤ 1 := by
  refine ⟨one_div_pos.mpr (P_exp_den_pos f f0), ?_⟩
  rw [div_le_one (P_exp_den_pos f f0)]
  exact P_exp_den_ge_one f f0

/-- The lineshape has the sign of the resonance frequency. -/
theorem P_exp_pos (f f0 : α) (h : 0 < f0) : 0 < P_exp f f0 := by
  rw [P_exp_eq]
  have h1 := (P_exp_factor f f0).1
  positivity

theorem P_exp_nonneg (f f0 : α) (h : 0 ≤ f0) : 0 ≤ P_exp f f0 := by
  rw [P_exp_eq]
  have h1 := (P_exp_factor f f0).1
  positivity

theorem P_exp_le (f f0 : α) (h : 0 ≤ f0) : P_exp f f0 ≤ 3 * (f0 / 750) := by
  rw [P_exp_eq]
  have h1 := (P_exp_factor f f0).2
  have h2 : (0 : α) ≤ 3 * (f0 / 750) := by positivity
  calc 3 * (f0 / 750) * (1 / (1 + 4 * 70000 * 70000 * (f / f0 - 1) ^ 2))
      ≤ 3 * (f0 / 750) * 1 := mul_le_mul_of_nonneg_left h1 h2
    _ = 3 * (f0 / 750) := mul_one _

theorem P_exp_self (f0 : α) (h : f0 ≠ 0) : P_exp f0 f0 = 3 * (f0 / 750) := by
  rw [P_exp_eq, div_self h]
  norm_num

end LineshapeFacts

section HistFacts

variable {α : Type} [LinearOrderedField α] [FloorRing α]

/-- Inside the axis, `FindBin` returns the bin `1 .. nbins` whose half-open interval holds `x`. -/
theorem FindBin_inside (h : TH1F α) (x : α) (hn : 0 < h.nbins) (hlt : h.xmin < h.xmax)
    (h1 : h.xmin ≤ x) (h2 : x < h.xmax) :
    1 ≤ h.FindBin x ∧ h.FindBin x ≤ h.nbins ∧
      h.GetBinLowEdge (h.FindBin x) ≤ x ∧ x < h.GetBinLowEdge ((h.FindBin x : ℤ) + 1) := by
  have hw : 0 < h.xmax - h.xmin := sub_pos.mpr hlt
  have hnpos : (0 : α) < (h.nbins : α) := by exact_mod_cast hn
  set q : α := (h.nbins : α) * (x - h.xmin) / (h.xmax - h.xmin) with hq
  have hq0 : 0 ≤ q := by
    apply div_nonneg _ hw.le
    exact mul_nonneg hnpos.le (sub_nonneg.mpr h1)
  have hqn : q < (h.nbins : α) := by
    rw [hq, div_lt_iff₀ hw]
    exact mul_lt_mul_of_pos_left (by linarith) hnpos
  have hfl0 : 0 ≤ ⌊q⌋ := Int.floor_nonneg.mpr hq0
  have hk : ((Int.toNat ⌊q⌋ : ℕ) : ℤ) = ⌊q⌋ := Int.toNat_of_nonneg hfl0
  have hkα : ((Int.toNat ⌊q⌋ : ℕ) : α) = ((⌊q⌋ : ℤ) : α) := by
    rw [← Int.cast_natCast, hk]
  have hfb : h.FindBin x = 1 + Int.toNat ⌊q⌋ := by
    unfold TH1F.FindBin
    rw [if_neg (not_lt.mpr h1), if_neg (not_not.mpr h2)]
  have hle : ((Int.toNat ⌊q⌋ : ℕ) : α) ≤ q := by rw [hkα]; exact Int.floor_le q
  have hlt2 : q < ((Int.toNat ⌊q⌋ : ℕ) : α) + 1 := by rw [hkα]; exact Int.lt_floor_add_one q
  have hkn : Int.toNat ⌊q⌋ < h.nbins := by
    have : ((Int.toNat ⌊q⌋ : ℕ) : α) < (h.nbins : α) := lt_of_le_of_lt hle hqn
    exact_mod_cast this
  have hx : x - h.xmin = q * ((h.xmax - h.xmin) / (h.nbins : α)) := by
    rw [hq]; field_simp
  have hwpos : 0 < (h.xmax - h.xmin) / (h.nbins : α) := div_pos hw hnpos
  rw [hfb]
  refine ⟨by omega, by omega, ?_, ?_⟩
  · unfold TH1F.GetBinLowEdge
    push_cast
    have := mul_le_mul_of_nonneg_right hle hwpos.le
    linarith
  · unfold TH1F.GetBinLowEdge
    push_cast
    have := mul_lt_mul_of_pos_right hlt2 hwpos
    linarith
end HistFacts

section HistFacts2

variable {σ α : Type} [LinearOrderedField α] [FloorRing α]

theorem SetBinContent_axis (h : TH1F α) (b : ℕ) (x : α) :
    (h.SetBinContent b x).nbins = h.nbins ∧ (h.SetBinContent b x).xmin = h.xmin ∧
      (h.SetBinContent b x).xmax = h.xmax := by
  unfold TH1F.SetBinContent
  split_ifs <;> exact ⟨rfl, rfl, rfl⟩

theorem GetBinLowEdge_congr (h h' : TH1F α) (hn : h'.nbins = h.nbins) (h1 : h'.xmin = h.xmin)
    (h2 : h'.xmax = h.xmax) (b : ℤ) : h'.GetBinLowEdge b = h.GetBinLowEdge b := by
  unfold TH1F.GetBinLowEdge
  rw [hn, h1, h2]

theorem GetBinLowEdge_SetBinContent (h : TH1F α) (b : ℕ) (x : α) (i : ℤ) :
    (h.SetBinContent b x).GetBinLowEdge i = h.GetBinLowEdge i :=
  GetBinLowEdge_congr h _ (SetBinContent_axis h b x).1 (SetBinContent_axis h b x).2.1
    (SetBinContent_axis h b x).2.2 i

theorem SetBinContent_content (h : TH1F α) (b : ℕ) (x : α) (hb : b ≤ h.nbins + 1) (i : ℕ) :
    (h.SetBinContent b x).content i = if i = b then x else h.content i := by
  unfold TH1F.SetBinContent
  rw [if_pos hb]
  simp [Function.update_apply]

theorem SetBinContent_content_of_ne (h : TH1F α) (b : ℕ) (x : α) (i : ℕ) (hi : i ≠ b) :
    (h.SetBinContent b x).content i = h.content i := by
  unfold TH1F.SetBinContent
  split_ifs
  · simp [Function.update_apply, hi]
  · rfl

theorem FindBin_le (h : TH1F α) (x : α) (hn : 0 < h.nbins) (hlt : h.xmin < h.xmax) :
    h.FindBin x ≤ h.nbins + 1 := by
  by_cases h1 : x < h.xmin
  · unfold TH1F.FindBin; rw [if_pos h1]; omega
  · by_cases h2 : x < h.xmax
    · have := (FindBin_inside h x hn hlt (not_lt.mp h1) h2).2.1
      omega
    · unfold TH1F.FindBin; rw [if_neg h1, if_pos h2]

theorem rangeSpec_pos : (0 : α) < rangeSpec α := by
  simp only [rangeSpec]; norm_num

theorem start_lt_end (fl : α) (istep : ℕ) : start_freq fl istep < end_freq fl istep := by
  have := rangeSpec_pos (α := α)
  unfold end_freq
  linarith

theorem P_exp_zero (f : α) : P_exp f 0 = 0 := by
  rw [P_exp_eq]; simp

theorem P_exp_ne_zero (f f0 : α) (h : f0 ≠ 0) : P_exp f f0 ≠ 0 := by
  rw [P_exp_eq]
  have h1 := (P_exp_den_pos f f0).ne.symm
  have h2 : (1 : α) / (1 + 4 * 70000 * 70000 * (f / f0 - 1) ^ 2) ≠ 0 := by
    exact one_div_ne_zero h1
  have h3 : (3 : α) * (f0 / 750) ≠ 0 := by
    apply mul_ne_zero (by norm_num)
    exact div_ne_zero h (by norm_num)
  exact mul_ne_zero h3 h2

/-- The signal histogram of a processed window in narrow mode. -/
theorem narrow_hsig (N : Numerics α) (R : Rng σ α) (lo hi : α)
    (nTrials : ℕ) (debug : Bool) (s0 : σ) (res : Result σ α)
    (hres : search001 N R lo hi true nTrials debug s0 = Except.ok res)
    (itrial istep : ℕ) (T : Trial α) (W : Window α)
    (hT : res.trials[itrial]? = some T) (hW : T.windows[istep]? = some W)
    (h2 : ¬ T.f_axion > end_freq (freq_lo lo) istep) :
    W.hsig = ((TH1F.mk0 "htemp" (nBins α) (start_freq (freq_lo lo) istep)
        (end_freq (freq_lo lo) istep)).Clone (Form "hsig" itrial istep)).SetBinContent
      (((TH1F.mk0 "htemp" (nBins α) (start_freq (freq_lo lo) istep)
        (end_freq (freq_lo lo) istep)).Clone (Form "hsig" itrial istep)).FindBin T.f_axion)
      (P_exp T.f_axion (start_freq (freq_lo lo) istep + (5 / 10) * rangeSpec α)) := by
  obtain ⟨-, -, st, hst⟩ :=
    search001_window N R lo hi true nTrials debug s0 res hres itrial istep T W hT hW
  rcases stepBody_window N R true debug _ _ itrial st istep W hst with
    ⟨hgt, -, -, -⟩ | ⟨-, ⟨cout, hs⟩, -⟩
  · exact absurd hgt h2
  · simpa using hs

end HistFacts2

section ConcreteRuns

variable {α : Type} [LinearOrderedField α] [FloorRing α]

/-- A run on the constant random stream: the window of every trial and step exists, and the
signal frequency is `lo + (hi - lo) * u`. -/
theorem constRun_exists (N : Numerics α) (u g lo hi : α) (narrow : Bool) (nTrials : ℕ)
    (debug : Bool) (itrial istep : ℕ) (h1 : itrial < nTrials) (h2 : istep < nSteps lo hi) :
    ∃ res T W, search001 N (constRng u g) lo hi narrow nTrials debug () = Except.ok res ∧
      res.trials[itrial]? = some T ∧ T.windows[istep]? = some W ∧
      T.f_axion = lo + (hi - lo) * u := by
  obtain ⟨res, T, W, hres, hT, hW⟩ :=
    search001_exists N (constRng u g) lo hi narrow nTrials debug () itrial istep h1 h2
  obtain ⟨s, hs⟩ := search001_f_axion _ _ _ _ _ _ _ _ res hres itrial T hT
  exact ⟨res, T, W, hres, hT, hW, hs⟩

theorem nSteps_unit : nSteps (0 : α) 1 = 500 := by
  have h : ((1 : α) - 0) / step_size α = ((500 : ℤ) : α) := by
    simp only [step_size]; norm_num
  simp only [nSteps, h, Int.floor_intCast]
  rfl

theorem SetBinContent_zero_content (h : TH1F α) (b : ℕ) (hz : ∀ i, h.content i = 0) (i : ℕ) :
    (h.SetBinContent b 0).content i = 0 := by
  unfold TH1F.SetBinContent
  split_ifs
  · simp only [Function.update_apply]
    split_ifs
    · rfl
    · exact hz i
  · exact hz i

end ConcreteRuns

section FileFacts

variable {σ α : Type} [LinearOrderedField α] [FloorRing α]

@[simp] theorem debugPrint_file (e : Env σ α) (d : Bool) (m : Msg α) :
    (e.debugPrint d m).file = e.file := by
  unfold Env.debugPrint; split_ifs <;> rfl

@[simp] theorem debugPrint_rng (e : Env σ α) (d : Bool) (m : Msg α) :
    (e.debugPrint d m).rng = e.rng := by
  unfold Env.debugPrint; split_ifs <;> rfl

/-- A skipped step writes nothing and leaves the counter alone; a processed step writes three
objects and counts one spectrum. -/
theorem stepBody_file_length (N : Numerics α) (R : Rng σ α) (narrow debug : Bool) (fl fa : α)
    (itrial : ℕ) (st : ScanState σ α) (istep : ℕ) :
    (stepBody N R narrow debug fl fa itrial st istep).env.file.length =
        st.env.file.length + (if fa > end_freq fl istep then 0 else 3) ∧
      (stepBody N R narrow debug fl fa itrial st istep).nSpectra =
        st.nSpectra + (if fa > end_freq fl istep then 0 else 1) := by
  unfold stepBody
  by_cases h : fa > end_freq fl istep
  · simp only [if_pos h]
    simp
  · simp only [if_neg h]
    simp

theorem processedCount_succ (fl fa : α) (n : ℕ) :
    processedCount fl fa (n + 1) =
      processedCount fl fa n + (if fa > end_freq fl n then 0 else 1) := by
  unfold processedCount
  rw [List.range_succ, List.filter_append, List.length_append]
  by_cases h : fa > end_freq fl n
  · simp [h]
  · have h2 := not_lt.mp h
    simp [h, h2]

/-- After `n` steps the file has grown by three objects per processed step. -/
theorem stepLoop_file_length (N : Numerics α) (R : Rng σ α) (narrow debug : Bool) (fl fa : α)
    (itrial : ℕ) (st0 : ScanState σ α) (n : ℕ) :
    ((List.range n).foldl (stepBody N R narrow debug fl fa itrial) st0).env.file.length =
        st0.env.file.length + 3 * processedCount fl fa n ∧
      ((List.range n).foldl (stepBody N R narrow debug fl fa itrial) st0).nSpectra =
        st0.nSpectra + processedCount fl fa n := by
  induction n with
  | zero => simp [processedCount]
  | succ n ih =>
    rw [List.range_succ, List.foldl_append]
    simp only [List.foldl_cons, List.foldl_nil]
    obtain ⟨h1, h2⟩ := stepBody_file_length N R narrow debug fl fa itrial
      ((List.range n).foldl (stepBody N R narrow debug fl fa itrial) st0) n
    rw [h1, h2, ih.1, ih.2, processedCount_succ]
    constructor
    · split_ifs <;> ring
    · split_ifs <;> ring

/-- One trial appends its record and three file objects per processed step. -/
theorem trialBody_file_length (N : Numerics α) (R : Rng σ α) (lo hi : α) (narrow debug : Bool)
    (fl : α) (n : ℕ) (r : Result σ α) (itrial : ℕ) :
    ∃ T, (trialBody N R lo hi narrow debug fl n r itrial).trials = r.trials ++ [T] ∧
      T.nSpectra = processedCount fl T.f_axion n ∧
      (trialBody N R lo hi narrow debug fl n r itrial).env.file.length =
        r.env.file.length + 3 * processedCount fl T.f_axion n := by
  have h := stepLoop_file_length N R narrow debug fl (lo + (hi - lo) * (R.rndm r.env.rng).1)
    itrial
    { env := ({ r.env with rng := (R.rndm r.env.rng).2 } : Env σ α).debugPrint debug
        ⟨"search for a signal with frequency = ", [lo + (hi - lo) * (R.rndm r.env.rng).1]⟩
      nSpectra := 0
      startStepBin := -1
      windows := [] } n
  simp only [debugPrint_file, Nat.zero_add] at h
  exact ⟨_, rfl, h.2, h.1⟩

/-- After all trials the file holds three objects per processed window. -/
theorem trialLoop_file_length (N : Numerics α) (R : Rng σ α) (lo hi : α) (narrow debug : Bool)
    (fl : α) (n : ℕ) (r0 : Result σ α) (m : ℕ) :
    ((List.range m).foldl (trialBody N R lo hi narrow debug fl n) r0).env.file.length + 3 *
        (r0.trials.map (fun T => processedCount fl T.f_axion n)).sum =
      r0.env.file.length + 3 *
        (((List.range m).foldl (trialBody N R lo hi narrow debug fl n) r0).trials.map
          (fun T => processedCount fl T.f_axion n)).sum ∧
    ∀ T ∈ ((List.range m).foldl (trialBody N R lo hi narrow debug fl n) r0).trials,
      T ∈ r0.trials ∨ T.nSpectra = processedCount fl T.f_axion n := by
  induction m with
  | zero => exact ⟨by simp, fun T hT => Or.inl hT⟩
  | succ m ih =>
    rw [List.range_succ, List.foldl_append]
    simp only [List.foldl_cons, List.foldl_nil]
    obtain ⟨T, hT, hTn, hTf⟩ := trialBody_file_length N R lo hi narrow debug fl n
      ((List.range m).foldl (trialBody N R lo hi narrow debug fl n) r0) m
    rw [hT, hTf]
    constructor
    · simp only [List.map_append, List.sum_append, List.map_cons, List.map_nil, List.sum_cons,
        List.sum_nil]
      have := ih.1
      omega
    · intro T' hT'
      rcases List.mem_append.mp hT' with h | h
      · exact ih.2 T' h
      · rw [List.mem_singleton] at h
        subst h
        exact Or.inr hTn

/-- The output file of a run: three objects per processed window, and the processed windows
of a trial are counted by its `nSpectra`. -/
theorem search001_file_length (N : Numerics α) (R : Rng σ α) (lo hi : α) (narrow : Bool)
    (nTrials : ℕ) (debug : Bool) (s0 : σ) (res : Result σ α)
    (hres : search001 N R lo hi narrow nTrials debug s0 = Except.ok res) :
    res.env.file.length =
        3 * (res.trials.map (fun T => processedCount (freq_lo lo) T.f_axion (nSteps lo hi))).sum ∧
      ∀ T ∈ res.trials, T.nSpectra = processedCount (freq_lo lo) T.f_axion (nSteps lo hi) := by
  rw [search001_eq] at hres
  injection hres with hres
  subst hres
  obtain ⟨h1, h2⟩ := trialLoop_file_length N R lo hi narrow debug (freq_lo lo) (nSteps lo hi)
    { trials := [],
      env := { rng := s0,
               cout :=
                [⟨"Preparing a study with trials and steps of frequency changes",
                    [(nTrials : α), (nSteps lo hi : α)]⟩,
                  ⟨"sigma of noise is ", [sigma_noise N]⟩,
                  ⟨"Grand spectrum frequency range is ", [freq_lo lo, freq_hi hi]⟩],
               file := [] } } nTrials
  constructor
  · simpa using h1
  · intro T hT
    rcases h2 T hT with h | h
    · simp at h
    · exact h

end FileFacts

section CoverFacts

variable {α : Type} [LinearOrderedField α] [FloorRing α]

/-- Counting the naturals below `n` that lie in `[a, b)`. -/
theorem length_filter_range_interval (a b n : ℕ) :
    ((List.range n).filter (fun i => decide (a ≤ i ∧ i < b))).length =
      min b n - min a n := by
  induction n with
  | zero => simp
  | succ n ih =>
    rw [List.range_succ, List.filter_append, List.length_append, ih]
    by_cases h : a ≤ n ∧ n < b
    · have : (List.filter (fun i => decide (a ≤ i ∧ i < b)) [n]).length = 1 := by simp [h]
      rw [this]
      omega
    · have : (List.filter (fun i => decide (a ≤ i ∧ i < b)) [n]).length = 0 := by simp [h]
      rw [this]
      omega

/-- The window of step `i` covers `f` exactly when `i` is one of the 25 steps ending at
`floor((f - fl)/step_size)`. -/
theorem covers_iff (fl f : α) (hx : fl ≤ f) (i : ℕ) :
    (start_freq fl i ≤ f ∧ f < end_freq fl i) ↔
      (Int.toNat ⌊(f - fl) / step_size α⌋ - 24 ≤ i ∧
        i < Int.toNat ⌊(f - fl) / step_size α⌋ + 1) := by
  have hstep : (0 : α) < step_size α := by simp only [step_size]; norm_num
  have hx0 : 0 ≤ (f - fl) / step_size α := div_nonneg (sub_nonneg.mpr hx) hstep.le
  have hfl0 : 0 ≤ ⌊(f - fl) / step_size α⌋ := Int.floor_nonneg.mpr hx0
  have hM : ((Int.toNat ⌊(f - fl) / step_size α⌋ : ℕ) : ℤ) = ⌊(f - fl) / step_size α⌋ :=
    Int.toNat_of_nonneg hfl0
  have e1 : start_freq fl i ≤ f ↔ ((i : ℤ) : α) ≤ (f - fl) / step_size α := by
    rw [le_div_iff₀ hstep]
    unfold start_freq
    push_cast
    constructor <;> intro h <;> linarith
  have e2 : f < end_freq fl i ↔ (f - fl) / step_size α < (((i : ℤ) + 25 : ℤ) : α) := by
    rw [div_lt_iff₀ hstep]
    unfold end_freq start_freq
    push_cast
    simp only [step_size, rangeSpec]
    constructor <;> intro h <;> linarith
  rw [e1, e2, ← Int.le_floor, ← Int.floor_lt, ← hM]
  omega

theorem coverCount_eq (fl f : α) (hx : fl ≤ f) (n : ℕ) :
    coverCount fl f n =
      min (Int.toNat ⌊(f - fl) / step_size α⌋ + 1) n -
        min (Int.toNat ⌊(f - fl) / step_size α⌋ - 24) n := by
  unfold coverCount
  rw [← length_filter_range_interval]
  congr 1
  apply List.filter_congr
  intro i _
  rw [decide_eq_decide]
  exact covers_iff fl f hx i

/-- In the default scan the last covering step of a frequency in `[749, 751]` lies between
step `12` and step `1012`. -/
theorem default_floor_bounds (f : α) (h1 : 749 ≤ f) (h2 : f ≤ 751) :
    12 ≤ Int.toNat ⌊(f - freq_lo (749 : α)) / step_size α⌋ ∧
      Int.toNat ⌊(f - freq_lo (749 : α)) / step_size α⌋ ≤ 1012 := by
  have hstep : (0 : α) < step_size α := by simp only [step_size]; norm_num
  have ha : ((12 : ℤ) : α) ≤ (f - freq_lo (749 : α)) / step_size α := by
    rw [le_div_iff₀ hstep]
    simp only [freq_lo, rangeSpec, step_size]
    push_cast
    linarith
  have hb : (f - freq_lo (749 : α)) / step_size α < ((1013 : ℤ) : α) := by
    rw [div_lt_iff₀ hstep]
    simp only [freq_lo, rangeSpec, step_size]
    push_cast
    linarith
  have h3 := Int.le_floor.mpr ha
  have h4 := Int.floor_lt.mpr hb
  omega

end CoverFacts

section WithS11Facts

variable {σ α : Type} [LinearOrderedField α] [FloorRing α]

/-- At the value `S11 = 0` of the source the parametrised program is `search001`. -/
theorem search001With_S11 (N : Numerics α) (R : Rng σ α) (lo hi : α) (narrow : Bool)
    (nTrials : ℕ) (debug : Bool) (s0 : σ) :
    search001With (S11 α) N R lo hi narrow nTrials debug s0 =
      search001 N R lo hi narrow nTrials debug s0 := rfl

end WithS11Facts

section DebugFacts

variable {σ α : Type} [LinearOrderedField α] [FloorRing α]

@[simp] theorem debugPrint_false (e : Env σ α) (m : Msg α) : e.debugPrint false m = e := rfl

/-- The histogram filled by the Maxwell-Boltzmann bin loop depends on neither `debug` nor
the lines printed so far. -/
theorem sigLoop_hsig_debug (N : Numerics α) (d d' : Bool) (fa p : α) (l : List ℕ)
    (st st' : SigState α) (h : st.hsig = st'.hsig) :
    (l.foldl (sigBinBody N d fa p) st).hsig = (l.foldl (sigBinBody N d' fa p) st').hsig := by
  induction l generalizing st st' with
  | nil => exact h
  | cons ib l ih =>
    simp only [List.foldl_cons]
    apply ih
    simp only [sigBinBody, h]

theorem sigMaxwell_hsig_debug (N : Numerics α) (d d' : Bool) (fa p : α) (bs : ℕ) (bh : α)
    (hs : TH1F α) (c1 c2 : List (Msg α)) :
    (sigMaxwell N d fa p bs bh hs c1).hsig = (sigMaxwell N d' fa p bs bh hs c2).hsig := by
  unfold sigMaxwell
  exact sigLoop_hsig_debug N d d' fa p _ _ _ rfl

/-- One step keeps two scans, with and without `debug`, equal in everything but `cout`. -/
theorem stepBody_debug (N : Numerics α) (R : Rng σ α) (narrow : Bool) (fl fa : α)
    (itrial : ℕ) (st st' : ScanState σ α) (istep : ℕ)
    (h : st.env.rng = st'.env.rng ∧ st.env.file = st'.env.file ∧ st.nSpectra = st'.nSpectra ∧
      st.startStepBin = st'.startStepBin ∧ st.windows = st'.windows) :
    (stepBody N R narrow true fl fa itrial st istep).env.rng =
        (stepBody N R narrow false fl fa itrial st' istep).env.rng ∧
      (stepBody N R narrow true fl fa itrial st istep).env.file =
        (stepBody N R narrow false fl fa itrial st' istep).env.file ∧
      (stepBody N R narrow true fl fa itrial st istep).nSpectra =
        (stepBody N R narrow false fl fa itrial st' istep).nSpectra ∧
      (stepBody N R narrow true fl fa itrial st istep).startStepBin =
        (stepBody N R narrow false fl fa itrial st' istep).startStepBin ∧
      (stepBody N R narrow true fl fa itrial st istep).windows =
        (stepBody N R narrow false fl fa itrial st' istep).windows := by
  obtain ⟨h1, h2, h3, h4, h5⟩ := h
  unfold stepBody
  by_cases hskip : fa > end_freq fl istep
  · simp only [if_pos hskip, debugPrint_rng, debugPrint_file, debugPrint_false]
    exact ⟨h1, h2, h3, h4, by rw [h5]⟩
  · simp only [if_neg hskip, debugPrint_rng, debugPrint_file, debugPrint_false]
    cases narrow
    · have hsig := sigMaxwell_hsig_debug N true false fa
        (P_exp fa (start_freq fl istep + (5 / 10) * rangeSpec α))
      simp only [Bool.false_eq_true, if_false, h1, h2, h3, h4, h5, hsig _ _ _ _ st'.env.cout]
      simp
    · simp only [if_true, h1, h2, h3, h4, h5]
      simp

end DebugFacts

section DebugLoops

variable {σ α : Type} [LinearOrderedField α] [FloorRing α]

theorem stepLoop_debug (N : Numerics α) (R : Rng σ α) (narrow : Bool) (fl fa : α)
    (itrial : ℕ) (l : List ℕ) (st st' : ScanState σ α) (h : st.agree st') :
    (l.foldl (stepBody N R narrow true fl fa itrial) st).agree
      (l.foldl (stepBody N R narrow false fl fa itrial) st') := by
  induction l generalizing st st' with
  | nil => exact h
  | cons i l ih =>
    simp only [List.foldl_cons]
    exact ih _ _ (stepBody_debug N R narrow fl fa itrial st st' i h)

theorem trialBody_debug (N : Numerics α) (R : Rng σ α) (lo hi : α) (narrow : Bool) (fl : α)
    (n : ℕ) (r r' : Result σ α) (itrial : ℕ) (h : r.agree r') :
    (trialBody N R lo hi narrow true fl n r itrial).agree
      (trialBody N R lo hi narrow false fl n r' itrial) := by
  obtain ⟨h1, h2, h3⟩ := h
  have key := stepLoop_debug N R narrow fl (lo + (hi - lo) * (R.rndm r'.env.rng).1) itrial
    (List.range n)
    { env := ({ r.env with rng := (R.rndm r.env.rng).2 } : Env σ α).debugPrint true
        ⟨"search for a signal with frequency = ", [lo + (hi - lo) * (R.rndm r.env.rng).1]⟩
      nSpectra := 0
      startStepBin := -1
      windows := [] }
    { env := ({ r'.env with rng := (R.rndm r'.env.rng).2 } : Env σ α).debugPrint false
        ⟨"search for a signal with frequency = ", [lo + (hi - lo) * (R.rndm r'.env.rng).1]⟩
      nSpectra := 0
      startStepBin := -1
      windows := [] }
    ⟨by simp [h3], by simp [h2], rfl, rfl, rfl⟩
  obtain ⟨k1, k2, k3, k4, k5⟩ := key
  unfold trialBody
  rw [h3] at k1 k2 k3 k4 k5 ⊢
  refine ⟨?_, k2, k1⟩
  simp only [h1, k3, k4, k5]

theorem trialLoop_debug (N : Numerics α) (R : Rng σ α) (lo hi : α) (narrow : Bool) (fl : α)
    (n : ℕ) (l : List ℕ) (r r' : Result σ α) (h : r.agree r') :
    (l.foldl (trialBody N R lo hi narrow true fl n) r).agree
      (l.foldl (trialBody N R lo hi narrow false fl n) r') := by
  induction l generalizing r r' with
  | nil => exact h
  | cons i l ih =>
    simp only [List.foldl_cons]
    exact ih _ _ (trialBody_debug N R lo hi narrow fl n r r' i h)

end DebugLoops

section OrderFacts

variable {σ α : Type} [LinearOrderedField α] [FloorRing α]

/-- A step appends one window, and writes its triple unless the step is skipped. -/
theorem stepBody_file (N : Numerics α) (R : Rng σ α) (narrow debug : Bool) (fl fa : α)
    (itrial : ℕ) (st : ScanState σ α) (istep : ℕ) :
    ∃ W, (stepBody N R narrow debug fl fa itrial st istep).windows = st.windows ++ [W] ∧
      (stepBody N R narrow debug fl fa itrial st istep).env.file =
        st.env.file ++ (if fa > end_freq fl istep then [] else W.triple) := by
  unfold stepBody
  by_cases h : fa > end_freq fl istep
  · simp only [if_pos h]
    exact ⟨_, rfl, by simp⟩
  · simp only [if_neg h]
    exact ⟨_, rfl, by simp [Window.triple]⟩

/-- The objects a scan writes: the triples of some of its windows, in increasing step order. -/
theorem stepLoop_keys (N : Numerics α) (R : Rng σ α) (narrow debug : Bool) (fl fa : α)
    (itrial : ℕ) (st0 : ScanState σ α) (h0 : st0.windows = []) (n : ℕ) :
    ∃ ks : List (ℕ × Window α),
      ((List.range n).foldl (stepBody N R narrow debug fl fa itrial) st0).env.file =
        st0.env.file ++ ks.flatMap (fun k => k.2.triple) ∧
      ks.Pairwise (fun a b => a.1 < b.1) ∧
      ∀ k ∈ ks, k.1 < n ∧
        ((List.range n).foldl (stepBody N R narrow debug fl fa itrial) st0).windows[k.1]? =
          some k.2 := by
  induction n with
  | zero => exact ⟨[], by simp, List.Pairwise.nil, by simp⟩
  | succ n ih =>
    obtain ⟨ks, hfile, hpw, hks⟩ := ih
    have hlen := (stepLoop_windows N R narrow debug fl fa itrial st0 h0 n).1
    rw [List.range_succ, List.foldl_append]
    simp only [List.foldl_cons, List.foldl_nil]
    obtain ⟨W, hW, hF⟩ := stepBody_file N R narrow debug fl fa itrial
      ((List.range n).foldl (stepBody N R narrow debug fl fa itrial) st0) n
    rw [hW, hF, hfile]
    have hold : ∀ k ∈ ks, k.1 < n + 1 ∧
        (((List.range n).foldl (stepBody N R narrow debug fl fa itrial) st0).windows ++
          [W])[k.1]? = some k.2 := by
      intro k hk
      obtain ⟨h1, h2⟩ := hks k hk
      refine ⟨by omega, ?_⟩
      rw [List.getElem?_append_left (by omega)]
      exact h2
    by_cases hskip : fa > end_freq fl n
    · rw [if_pos hskip]
      exact ⟨ks, by simp, hpw, hold⟩
    · rw [if_neg hskip]
      refine ⟨ks ++ [(n, W)], by simp, ?_, ?_⟩
      · rw [List.pairwise_append]
        refine ⟨hpw, List.pairwise_singleton _ _, ?_⟩
        intro a ha b hb
        rw [List.mem_singleton] at hb
        subst hb
        exact (hks a ha).1
      · intro k hk
        rcases List.mem_append.mp hk with h | h
        · exact hold k h
        · rw [List.mem_singleton] at h
          subst h
          refine ⟨by omega, ?_⟩
          rw [List.getElem?_append_right (by omega)]
          simp [hlen]

/-- One trial appends its record and writes the triples of some of its windows, in
increasing step order. -/
theorem trialBody_keys (N : Numerics α) (R : Rng σ α) (lo hi : α) (narrow debug : Bool)
    (fl : α) (n : ℕ) (r : Result σ α) (itrial : ℕ) :
    ∃ (T : Trial α) (ks : List (ℕ × Window α)),
      (trialBody N R lo hi narrow debug fl n r itrial).trials = r.trials ++ [T] ∧
      (trialBody N R lo hi narrow debug fl n r itrial).env.file =
        r.env.file ++ ks.flatMap (fun k => k.2.triple) ∧
      ks.Pairwise (fun a b => a.1 < b.1) ∧
      ∀ k ∈ ks, k.1 < n ∧ T.windows[k.1]? = some k.2 := by
  obtain ⟨ks, kfile, kpw, kks⟩ := stepLoop_keys N R narrow debug fl
    (lo + (hi - lo) * (R.rndm r.env.rng).1) itrial
    { env := ({ r.env with rng := (R.rndm r.env.rng).2 } : Env σ α).debugPrint debug
        ⟨"search for a signal with frequency = ", [lo + (hi - lo) * (R.rndm r.env.rng).1]⟩
      nSpectra := 0
      startStepBin := -1
      windows := [] } rfl n
  simp only [debugPrint_file] at kfile
  exact ⟨_, ks, rfl, kfile, kpw, kks⟩

/-- The objects a run writes: the triples of some of its windows, in increasing order of
`(trial, step)`. -/
theorem trialLoop_keys (N : Numerics α) (R : Rng σ α) (lo hi : α) (narrow debug : Bool)
    (fl : α) (n : ℕ) (r0 : Result σ α) (h0 : r0.trials = []) (m : ℕ) :
    ∃ ks : List (ℕ × ℕ × Window α),
      ((List.range m).foldl (trialBody N R lo hi narrow debug fl n) r0).env.file =
        r0.env.file ++ ks.flatMap (fun k => k.2.2.triple) ∧
      ks.Pairwise (fun a b => a.1 < b.1 ∨ (a.1 = b.1 ∧ a.2.1 < b.2.1)) ∧
      ∀ k ∈ ks, k.1 < m ∧ ∃ T,
        ((List.range m).foldl (trialBody N R lo hi narrow debug fl n) r0).trials[k.1]? =
          some T ∧ T.windows[k.2.1]? = some k.2.2 := by
  induction m with
  | zero => exact ⟨[], by simp, List.Pairwise.nil, by simp⟩
  | succ m ih =>
    obtain ⟨KS, hfile, hpw, hKS⟩ := ih
    have hlen := (trialLoop_trials N R lo hi narrow debug fl n r0 h0 m).1
    rw [List.range_succ, List.foldl_append]
    simp only [List.foldl_cons, List.foldl_nil]
    obtain ⟨T, ks, kT, kfile, kpw, kks⟩ := trialBody_keys N R lo hi narrow debug fl n
      ((List.range m).foldl (trialBody N R lo hi narrow debug fl n) r0) m
    rw [kT, kfile, hfile]
    refine ⟨KS ++ ks.map (fun k => (m, k.1, k.2)), ?_, ?_, ?_⟩
    · simp [List.flatMap_map, Function.comp_def]
    · rw [List.pairwise_append]
      refine ⟨hpw, ?_, ?_⟩
      · rw [List.pairwise_map]
        exact kpw.imp (fun h => Or.inr ⟨rfl, h⟩)
      · intro a ha b hb
        obtain ⟨k, -, rfl⟩ := List.mem_map.mp hb
        exact Or.inl (hKS a ha).1
    · intro k hk
      rcases List.mem_append.mp hk with h | h
      · obtain ⟨h1, T', hT', hW⟩ := hKS k h
        refine ⟨by omega, T', ?_, hW⟩
        rw [List.getElem?_append_left (by omega)]
        exact hT'
      · obtain ⟨k', hk', rfl⟩ := List.mem_map.mp h
        refine ⟨by omega, T, ?_, (kks k' hk').2⟩
        rw [List.getElem?_append_right (by omega)]
        simp [hlen]

end OrderFacts

section FormFacts

theorem digitChar_val (d : ℕ) (h : d < 10) : (Nat.digitChar d).toNat - 48 = d := by
  interval_cases d <;> rfl

/-- Reading back the digits that `Nat.toDigitsCore` puts in front of `ds`. -/
theorem decVal_toDigitsCore (fuel : ℕ) : ∀ (n : ℕ) (ds : List Char), n < fuel →
    decVal (Nat.toDigitsCore 10 fuel n ds) = n * 10 ^ ds.length + decVal ds := by
  induction fuel with
  | zero => intro n ds h; omega
  | succ k ih =>
    intro n ds h
    unfold Nat.toDigitsCore
    by_cases h0 : n / 10 = 0
    · simp only [h0, if_true]
      have hn : n % 10 = n := by omega
      rw [decVal, digitChar_val _ (Nat.mod_lt _ (by norm_num)), hn]
    · simp only [h0, if_false]
      rw [ih (n / 10) _ (by omega), decVal, digitChar_val _ (Nat.mod_lt _ (by norm_num))]
      simp only [List.length_cons, pow_succ]
      have hdiv := Nat.div_add_mod n 10
      conv_rhs => rw [← hdiv]
      ring

theorem decVal_toString (n : ℕ) : decVal (toString n).data = n := by
  show decVal (Nat.toDigitsCore 10 (n + 1) n []) = n
  rw [decVal_toDigitsCore _ _ _ (by omega)]
  simp [decVal]

theorem decVal_zeros (k : ℕ) (l : List Char) : decVal (List.replicate k '0' ++ l) = decVal l := by
  induction k with
  | zero => rfl
  | succ k ih =>
    rw [List.replicate_succ, List.cons_append, decVal, ih]
    have : ('0' : Char).toNat - 48 = 0 := rfl
    rw [this]
    simp

/-- A zero-padded number can be read back, so padding is injective. -/
theorem decVal_zeroPad (w n : ℕ) : decVal (zeroPad w n).data = n := by
  unfold zeroPad
  rw [String.data_append, decVal_zeros, decVal_toString]

theorem zeroPad_length (w n : ℕ) (h : n < 10 ^ w) (hw : 0 < w) : (zeroPad w n).length = w := by
  unfold zeroPad
  rw [String.length_append]
  have h1 : (toString n).length ≤ w := Nat.repr_length n w hw h
  have h2 : (String.mk (List.replicate (w - (toString n).length) '0')).length =
      w - (toString n).length := by
    show (List.replicate (w - (toString n).length) '0').length = _
    exact List.length_replicate _ _
  rw [h2]
  omega

theorem zeroPad_length_ge (w n : ℕ) : w ≤ (zeroPad w n).length := by
  unfold zeroPad
  rw [String.length_append]
  have h2 : (String.mk (List.replicate (w - (toString n).length) '0')).length =
      w - (toString n).length := by
    show (List.replicate (w - (toString n).length) '0').length = _
    exact List.length_replicate _ _
  rw [h2]
  omega

/-- Two keys are equal only for equal pairs, unless one pair has a trial field wider than two
digits and the other a step field wider than four digits. -/
theorem Form_inj (pre : String) (t1 s1 t2 s2 : ℕ) (h1 : ¬ (100 ≤ t1 ∧ 10000 ≤ s2))
    (h2 : ¬ (100 ≤ t2 ∧ 10000 ≤ s1))
    (h : Form pre t1 s1 = Form pre t2 s2) : t1 = t2 ∧ s1 = s2 := by
  unfold Form at h
  have hd := String.ext_iff.mp h
  simp only [String.data_append, List.append_assoc] at hd
  have hd2 := List.append_cancel_left hd
  have hlen := congrArg List.length hd2
  simp only [List.length_append] at hlen
  have a1 := zeroPad_length_ge 2 t1
  have a2 := zeroPad_length_ge 2 t2
  have b1 := zeroPad_length_ge 4 s1
  have b2 := zeroPad_length_ge 4 s2
  have ea1 : t1 < 100 → (zeroPad 2 t1).length = 2 :=
    fun ht => zeroPad_length 2 t1 (by norm_num; exact ht) (by norm_num)
  have ea2 : t2 < 100 → (zeroPad 2 t2).length = 2 :=
    fun ht => zeroPad_length 2 t2 (by norm_num; exact ht) (by norm_num)
  have eb1 : s1 < 10000 → (zeroPad 4 s1).length = 4 :=
    fun hs => zeroPad_length 4 s1 (by norm_num; exact hs) (by norm_num)
  have eb2 : s2 < 10000 → (zeroPad 4 s2).length = 4 :=
    fun hs => zeroPad_length 4 s2 (by norm_num; exact hs) (by norm_num)
  simp only [String.length] at a1 a2 b1 b2 ea1 ea2 eb1 eb2
  have hl : (zeroPad 4 s1).data.length = (zeroPad 4 s2).data.length := by
    by_cases c1 : t1 < 100
    · have := ea1 c1
      by_cases c2 : t2 < 100
      · have := ea2 c2
        omega
      · have := eb1 (by omega)
        omega
    · have := eb2 (by omega)
      by_cases c2 : t2 < 100
      · have := ea2 c2
        omega
      · have := eb1 (by omega)
        omega
  obtain ⟨ha, hb⟩ := List.append_inj' hd2 hl
  have hta := congrArg decVal ha
  have hsb := congrArg decVal hb
  rw [decVal_zeroPad, decVal_zeroPad] at hta hsb
  exact ⟨hta, hsb⟩

end FormFacts

section ComputeFacts

open compute

theorem compute_ma_pos (f0 : ℝ) (hf0 : 0 < f0) : 0 < computeLimit.ma f0 := by
  unfold computeLimit.ma compute.h jouelToeV
  positivity

theorem compute_coupling_pos : 0 < alpha / pi / lambda / lambda := by
  unfold alpha compute.pi lambda
  have := Real.pi_pos
  positivity

/-- The signal power is the squared coupling `(|gGamma| alpha/pi/lambda^2 ma)^2` times
`factor_signal_power`. -/
theorem computePs_eq (f0 beta B V Cmnl QL gGamma : ℝ) (hf0 : 0 < f0) :
    computePs f0 beta B V Cmnl QL gGamma =
      (computegAgg.gAgammagamma (computeLimit.ma f0) gGamma) ^ 2 *
        computeLimit.factor_signal_power f0 beta B V Cmnl QL := by
  have hma := (compute_ma_pos f0 hf0).ne.symm
  unfold computePs computegAgg.gAgammagamma computeLimit.factor_signal_power
  have hg : (|gGamma| * alpha / pi / lambda / lambda * computeLimit.ma f0) ^ 2 =
      (gGamma * alpha / pi / lambda / lambda) ^ 2 * (computeLimit.ma f0) ^ 2 := by
    have : |gGamma| ^ 2 = gGamma ^ 2 := sq_abs gGamma
    calc (|gGamma| * alpha / pi / lambda / lambda * computeLimit.ma f0) ^ 2
        = |gGamma| ^ 2 * (alpha / pi / lambda / lambda) ^ 2 * (computeLimit.ma f0) ^ 2 := by
          ring
      _ = gGamma ^ 2 * (alpha / pi / lambda / lambda) ^ 2 * (computeLimit.ma f0) ^ 2 := by
          rw [this]
      _ = (gGamma * alpha / pi / lambda / lambda) ^ 2 * (computeLimit.ma f0) ^ 2 := by ring
  rw [hg]
  have hm : (computeLimit.ma f0) ^ 2 * (1 / (computeLimit.ma f0) ^ 2) = 1 := by
    field_simp
  linear_combination (-((gGamma * alpha / pi / lambda / lambda) ^ 2 *
    (hbarc ^ 3 * rhoDM * beta / (1 + beta) * f0 * inverse_mu0pi * B * B * V * Cmnl * QL))) * hm

theorem compute_factor_pos (f0 beta B V Cmnl QL : ℝ) (hf0 : 0 < f0) (hbeta : 0 < beta)
    (hB : 0 < B) (hV : 0 < V) (hC : 0 < Cmnl) (hQ : 0 < QL) :
    0 < computeLimit.factor_signal_power f0 beta B V Cmnl QL := by
  have hma := compute_ma_pos f0 hf0
  unfold computeLimit.factor_signal_power hbarc rhoDM inverse_mu0pi
  positivity

end ComputeFacts

section MaxwellFacts

variable {σ α : Type} [LinearOrderedField α] [FloorRing α]

theorem binProb_congr (N : Numerics α) (h h' : TH1F α) (hn : h'.nbins = h.nbins)
    (h1 : h'.xmin = h.xmin) (h2 : h'.xmax = h.xmax) (fa : α) (ib : ℕ) :
    binProb N h' fa ib = binProb N h fa ib := by
  unfold binProb
  rw [GetBinLowEdge_congr h h' hn h1 h2, GetBinLowEdge_congr h h' hn h1 h2]

/-- One pass of the bin loop stores `power_sig * prob` in bin `ib` and keeps the axis. -/
theorem sigBinBody_hsig (N : Numerics α) (d : Bool) (fa p : α) (st : SigState α) (ib : ℕ) :
    (sigBinBody N d fa p st ib).hsig = st.hsig.SetBinContent ib (p * binProb N st.hsig fa ib) := by
  unfold sigBinBody binProb vel
  simp

/-- The bin loop over a list of bins: every listed bin holds `power_sig * prob`, the other
cells are untouched. -/
theorem sigLoop_content (N : Numerics α) (d : Bool) (fa p : α) (l : List ℕ) :
    ∀ st : SigState α, (∀ ib ∈ l, ib ≤ st.hsig.nbins + 1) →
      ((l.foldl (sigBinBody N d fa p) st).hsig.nbins = st.hsig.nbins ∧
        (l.foldl (sigBinBody N d fa p) st).hsig.xmin = st.hsig.xmin ∧
        (l.foldl (sigBinBody N d fa p) st).hsig.xmax = st.hsig.xmax) ∧
      ∀ b, (l.foldl (sigBinBody N d fa p) st).hsig.content b =
        if b ∈ l then p * binProb N st.hsig fa b else st.hsig.content b := by
  induction l with
  | nil => intro st _; simp
  | cons ib l ih =>
    intro st hl
    simp only [List.foldl_cons]
    have hax := SetBinContent_axis st.hsig ib (p * binProb N st.hsig fa ib)
    have hib : ib ≤ st.hsig.nbins + 1 := hl ib (List.mem_cons_self _ _)
    have hs := sigBinBody_hsig N d fa p st ib
    obtain ⟨⟨a1, a2, a3⟩, hc⟩ := ih (sigBinBody N d fa p st ib) (by
      intro j hj
      rw [hs, hax.1]
      exact hl j (List.mem_cons_of_mem _ hj))
    rw [hs] at a1 a2 a3 hc
    refine ⟨⟨a1.trans hax.1, a2.trans hax.2.1, a3.trans hax.2.2⟩, fun b => ?_⟩
    rw [hc b]
    by_cases hb : b ∈ l
    · rw [if_pos hb, if_pos (List.mem_cons_of_mem _ hb)]
      rw [binProb_congr N st.hsig _ hax.1 hax.2.1 hax.2.2]
    · rw [if_neg hb, SetBinContent_content _ _ _ hib]
      by_cases hbi : b = ib
      · rw [if_pos hbi, if_pos (by rw [hbi]; exact List.mem_cons_self _ _)]
        rw [hbi]
      · rw [if_neg hbi, if_neg (by
          intro hmem
          rcases List.mem_cons.mp hmem with h | h
          · exact hbi h
          · exact hb h)]

/-- The signal histogram left by the Maxwell branch on a histogram with `nBins` bins: the bins
after the starting bin, up to `nBins`, hold `power_sig * prob`; the starting bin and every
other cell are as before. -/
theorem sigMaxwell_content (N : Numerics α) (d : Bool) (fa p : α) (bs : ℕ) (bh : α)
    (hs : TH1F α) (cout : List (Msg α)) (hn : hs.nbins = nBins α) (b : ℕ) :
    (sigMaxwell N d fa p bs bh hs cout).hsig.content b =
      if bs < b ∧ b ≤ nBins α then p * binProb N hs fa b else hs.content b := by
  unfold sigMaxwell
  have key := (sigLoop_content N d fa p (List.range' (bs + 1) (nBins α - bs))
    { hsig := hs, sum_prob := N.integral 0 (c α * N.sqrt (bh / fa - 1)),
      sum_signal_power := p * N.integral 0 (c α * N.sqrt (bh / fa - 1)),
      cout := if d = true then cout ++ [⟨"vlo vhi", [0, c α * N.sqrt (bh / fa - 1)]⟩]
        else cout } (by
      intro ib hib
      rw [List.mem_range'_1] at hib
      show ib ≤ hs.nbins + 1
      omega)).2 b
  simp only at key ⊢
  rw [key]
  have hiff : b ∈ List.range' (bs + 1) (nBins α - bs) ↔ (bs < b ∧ b ≤ nBins α) := by
    rw [List.mem_range'_1]
    omega
  by_cases hb : bs < b ∧ b ≤ nBins α
  · rw [if_pos hb, if_pos (hiff.mpr hb)]
  · rw [if_neg hb, if_neg (fun h => hb (hiff.mp h))]

theorem sigMaxwell_axis (N : Numerics α) (d : Bool) (fa p : α) (bs : ℕ) (bh : α)
    (hs : TH1F α) (cout : List (Msg α)) (hn : hs.nbins = nBins α) :
    (sigMaxwell N d fa p bs bh hs cout).hsig.nbins = hs.nbins ∧
      (sigMaxwell N d fa p bs bh hs cout).hsig.xmin = hs.xmin ∧
      (sigMaxwell N d fa p bs bh hs cout).hsig.xmax = hs.xmax := by
  unfold sigMaxwell
  exact (sigLoop_content N d fa p (List.range' (bs + 1) (nBins α - bs))
    { hsig := hs, sum_prob := N.integral 0 (c α * N.sqrt (bh / fa - 1)),
      sum_signal_power := p * N.integral 0 (c α * N.sqrt (bh / fa - 1)),
      cout := if d = true then cout ++ [⟨"vlo vhi", [0, c α * N.sqrt (bh / fa - 1)]⟩]
        else cout } (by
      intro ib hib
      rw [List.mem_range'_1] at hib
      show ib ≤ hs.nbins + 1
      omega)).1

end MaxwellFacts

section WindowFacts

variable {σ α : Type} [LinearOrderedField α] [FloorRing α]

/-- The signal histogram of every window of a run has the axis of its step. -/
theorem window_axis (N : Numerics α) (R : Rng σ α) (lo hi : α) (narrow : Bool)
    (nTrials : ℕ) (debug : Bool) (s0 : σ) (res : Result σ α)
    (hres : search001 N R lo hi narrow nTrials debug s0 = Except.ok res)
    (itrial istep : ℕ) (T : Trial α) (W : Window α)
    (hT : res.trials[itrial]? = some T) (hW : T.windows[istep]? = some W) :
    W.hsig.nbins = nBins α ∧ W.hsig.xmin = start_freq (freq_lo lo) istep ∧
      W.hsig.xmax = end_freq (freq_lo lo) istep := by
  obtain ⟨-, -, st, hst⟩ :=
    search001_window N R lo hi narrow nTrials debug s0 res hres itrial istep T W hT hW
  rcases stepBody_window N R narrow debug _ _ itrial st istep W hst with
    ⟨-, h1, -, -⟩ | ⟨-, ⟨cout, hs⟩, -⟩
  · rw [h1]; exact ⟨rfl, rfl, rfl⟩
  · cases narrow
    · simp only [Bool.false_eq_true, if_false] at hs
      rw [hs]
      exact sigMaxwell_axis N debug _ _ _ _ _ _ rfl
    · simp only [if_true] at hs
      rw [hs]
      exact SetBinContent_axis _ _ _

/-- The bin edges of a window: `start_freq + (i - 1) * rangeSpec / nBins`. -/
theorem window_edge (h : TH1F α) (fl : α) (istep : ℕ) (hn : h.nbins = nBins α)
    (h1 : h.xmin = start_freq fl istep) (h2 : h.xmax = end_freq fl istep) (i : ℤ) :
    h.GetBinLowEdge i = start_freq fl istep + ((i : α) - 1) * (rangeSpec α / 400) := by
  unfold TH1F.GetBinLowEdge
  rw [hn, h1, h2, nBins_eq]
  unfold end_freq
  norm_num

/-- The signal histogram of a processed window in broadened mode. -/
theorem broad_hsig (N : Numerics α) (R : Rng σ α) (lo hi : α)
    (nTrials : ℕ) (debug : Bool) (s0 : σ) (res : Result σ α)
    (hres : search001 N R lo hi false nTrials debug s0 = Except.ok res)
    (itrial istep : ℕ) (T : Trial α) (W : Window α)
    (hT : res.trials[itrial]? = some T) (hW : T.windows[istep]? = some W)
    (h2 : ¬ T.f_axion > end_freq (freq_lo lo) istep) (b : ℕ) :
    W.hsig.content b =
      if W.hsig.FindBin T.f_axion < b ∧ b ≤ nBins α then
        P_exp T.f_axion (start_freq (freq_lo lo) istep + (5 / 10) * rangeSpec α) *
          binProb N W.hsig T.f_axion b
      else 0 := by
  obtain ⟨hn, hx1, hx2⟩ := window_axis N R lo hi false nTrials debug s0 res hres itrial istep
    T W hT hW
  obtain ⟨-, -, st, hst⟩ :=
    search001_window N R lo hi false nTrials debug s0 res hres itrial istep T W hT hW
  rcases stepBody_window N R false debug _ _ itrial st istep W hst with
    ⟨hgt, -, -, -⟩ | ⟨-, ⟨cout, hs⟩, -⟩
  · exact absurd hgt h2
  · simp only [Bool.false_eq_true, if_false] at hs
    have hfb : W.hsig.FindBin T.f_axion =
        ((TH1F.mk0 "htemp" (nBins α) (start_freq (freq_lo lo) istep)
          (end_freq (freq_lo lo) istep)).Clone (Form "hsig" itrial istep)).FindBin T.f_axion := by
      unfold TH1F.FindBin
      rw [hn, hx1, hx2]
      rfl
    have hbp : binProb N W.hsig T.f_axion b =
        binProb N ((TH1F.mk0 "htemp" (nBins α) (start_freq (freq_lo lo) istep)
          (end_freq (freq_lo lo) istep)).Clone (Form "hsig" itrial istep)) T.f_axion b :=
      binProb_congr N _ _ hn hx1 hx2 _ _
    rw [hfb, hbp]
    conv_lhs => rw [hs]
    rw [sigMaxwell_content N debug _ _ _ _ _ _ rfl b]
    rfl

end WindowFacts

section SpeedDensity

open MeasureTheory Set

theorem MB_continuous : Continuous maxwell_boltzmann := by
  unfold maxwell_boltzmann
  fun_prop

theorem MB_const_pos : (0 : ℝ) < (226 * 226 * Real.pi) ^ (1.5 : ℝ) :=
  Real.rpow_pos_of_pos (by positivity) _

theorem MB_nonneg (x : ℝ) : 0 ≤ maxwell_boltzmann x := by
  unfold maxwell_boltzmann
  have h1 := MB_const_pos
  have h2 : 0 ≤ 4 * Real.pi * x * x := by
    have := mul_self_nonneg x
    have := Real.pi_pos
    nlinarith
  positivity

theorem MB_pos (x : ℝ) (hx : x ≠ 0) : 0 < maxwell_boltzmann x := by
  unfold maxwell_boltzmann
  have h1 := MB_const_pos
  have h2 : 0 < 4 * Real.pi * x * x := by
    have := mul_self_pos.mpr hx
    have := Real.pi_pos
    nlinarith
  positivity

theorem MB_intervalIntegrable (a b : ℝ) : IntervalIntegrable maxwell_boltzmann volume a b :=
  MB_continuous.intervalIntegrable a b

theorem MB_integral_pos (a b : ℝ) (ha : 0 ≤ a) (hab : a < b) :
    0 < ∫ x in a..b, maxwell_boltzmann x := by
  apply intervalIntegral.intervalIntegral_pos_of_pos_on (MB_intervalIntegrable a b) _ hab
  intro x hx
  exact MB_pos x (by have := hx.1; linarith)

end SpeedDensity

section SpeedDensityMass

open MeasureTheory Set

theorem MB_const_eq : (226 * 226 * Real.pi : ℝ) ^ (1.5 : ℝ) = 226 ^ 3 * (Real.pi * √Real.pi) := by
  have hpi := Real.pi_pos
  rw [Real.mul_rpow (by norm_num) hpi.le]
  have h1 : ((226 : ℝ) * 226) ^ (1.5 : ℝ) = 226 ^ 3 := by
    have : ((226 : ℝ) * 226) = (226 : ℝ) ^ (2 : ℝ) := by
      rw [Real.rpow_two]; ring
    rw [this, ← Real.rpow_mul (by norm_num)]
    have : (2 : ℝ) * 1.5 = ((3 : ℕ) : ℝ) := by norm_num
    rw [this, Real.rpow_natCast]
  have h2 : Real.pi ^ (1.5 : ℝ) = Real.pi * √Real.pi := by
    have : (1.5 : ℝ) = 1 + 1 / 2 := by norm_num
    rw [this, Real.rpow_add hpi, Real.rpow_one, Real.sqrt_eq_rpow]
  rw [h1, h2]

/-- The density is a constant times `x^2 exp(-x^2/226^2)`. -/
theorem MB_eq_on (x : ℝ) :
    maxwell_boltzmann x =
      4 * Real.pi / (226 ^ 3 * (Real.pi * √Real.pi)) *
        (x ^ (2 : ℝ) * Real.exp (-(1 / 226 ^ 2) * x ^ (2 : ℝ))) := by
  unfold maxwell_boltzmann
  rw [MB_const_eq, Real.rpow_two]
  have : -x * x / 226 / 226 = -(1 / 226 ^ 2) * x ^ 2 := by ring
  rw [this]
  ring

theorem MB_gamma : Real.Gamma (3 / 2) = √Real.pi / 2 := by
  have : (3 / 2 : ℝ) = 1 / 2 + 1 := by norm_num
  rw [this, Real.Gamma_add_one (by norm_num), Real.Gamma_one_half_eq]
  ring

theorem MB_scale : ((1 : ℝ) / 226 ^ 2) ^ (-(2 + 1) / 2 : ℝ) = 226 ^ 3 := by
  have h : ((1 : ℝ) / 226 ^ 2) = (226 : ℝ) ^ (-2 : ℝ) := by
    rw [Real.rpow_neg (by norm_num), Real.rpow_two, one_div]
  rw [h, ← Real.rpow_mul (by norm_num)]
  have : (-2 : ℝ) * (-(2 + 1) / 2) = ((3 : ℕ) : ℝ) := by norm_num
  rw [this, Real.rpow_natCast]

/-- The speed density integrates to `1` over `(0, ∞)`. -/
theorem MB_integral_Ioi : ∫ x in Ioi (0 : ℝ), maxwell_boltzmann x = 1 := by
  have hcongr : ∫ x in Ioi (0 : ℝ), maxwell_boltzmann x =
      ∫ x in Ioi (0 : ℝ), 4 * Real.pi / (226 ^ 3 * (Real.pi * √Real.pi)) *
        (x ^ (2 : ℝ) * Real.exp (-(1 / 226 ^ 2) * x ^ (2 : ℝ))) :=
    setIntegral_congr_fun measurableSet_Ioi (fun x _ => MB_eq_on x)
  rw [hcongr, integral_mul_left,
    integral_rpow_mul_exp_neg_mul_rpow (by norm_num) (by norm_num) (by norm_num),
    MB_scale]
  have h2 : ((2 : ℝ) + 1) / 2 = 3 / 2 := by norm_num
  rw [h2, MB_gamma]
  have hpi := Real.pi_pos
  have hs : 0 < √Real.pi := Real.sqrt_pos.mpr hpi
  field_simp
  ring

theorem MB_integrableOn_Ioi : IntegrableOn maxwell_boltzmann (Ioi (0 : ℝ)) := by
  have h0 : IntegrableOn (fun x : ℝ => x ^ (2 : ℝ) * Real.exp (-(1 / 226 ^ 2) * x ^ (2 : ℝ)))
      (Ioi (0 : ℝ)) :=
    integrableOn_rpow_mul_exp_neg_mul_rpow (by norm_num) (by norm_num) (by norm_num)
  have h : IntegrableOn (fun x : ℝ => 4 * Real.pi / (226 ^ 3 * (Real.pi * √Real.pi)) *
      (x ^ (2 : ℝ) * Real.exp (-(1 / 226 ^ 2) * x ^ (2 : ℝ)))) (Ioi (0 : ℝ)) :=
    Integrable.const_mul h0 _
  exact h.congr_fun (fun x _ => (MB_eq_on x).symm) measurableSet_Ioi

/-- No velocity interval carries more than the whole mass `1`. -/
theorem MB_integral_le_one (a b : ℝ) (ha : 0 ≤ a) (hab : a ≤ b) :
    ∫ x in a..b, maxwell_boltzmann x ≤ 1 := by
  rw [intervalIntegral.integral_of_le hab, ← MB_integral_Ioi]
  apply setIntegral_mono_set MB_integrableOn_Ioi
  · exact Filter.Eventually.of_forall (fun x => MB_nonneg x)
  · apply Filter.Eventually.of_forall
    intro x hx
    exact lt_of_le_of_lt ha hx.1

end SpeedDensityMass

section RealModel

variable {α : Type} [LinearOrderedField α] [FloorRing α]

/-- Bin edges grow with the bin index. -/
theorem edge_mono (h : TH1F α) (hn : 0 < h.nbins) (hlt : h.xmin < h.xmax) (i j : ℤ)
    (hij : i ≤ j) : h.GetBinLowEdge i ≤ h.GetBinLowEdge j := by
  unfold TH1F.GetBinLowEdge
  have hw : 0 < (h.xmax - h.xmin) / (h.nbins : α) :=
    div_pos (sub_pos.mpr hlt) (by exact_mod_cast hn)
  have hc : (i : α) ≤ (j : α) := by exact_mod_cast hij
  have := mul_le_mul_of_nonneg_right (sub_le_sub_right hc 1) hw.le
  linarith

theorem edge_strictMono (h : TH1F α) (hn : 0 < h.nbins) (hlt : h.xmin < h.xmax) (i j : ℤ)
    (hij : i < j) : h.GetBinLowEdge i < h.GetBinLowEdge j := by
  unfold TH1F.GetBinLowEdge
  have hw : 0 < (h.xmax - h.xmin) / (h.nbins : α) :=
    div_pos (sub_pos.mpr hlt) (by exact_mod_cast hn)
  have hc : (i : α) < (j : α) := by exact_mod_cast hij
  have := mul_lt_mul_of_pos_right (sub_lt_sub_right hc 1) hw
  linarith

theorem edge_first (h : TH1F α) : h.GetBinLowEdge 1 = h.xmin := by
  unfold TH1F.GetBinLowEdge
  simp

theorem edge_last (h : TH1F α) (hn : 0 < h.nbins) :
    h.GetBinLowEdge ((h.nbins : ℤ) + 1) = h.xmax := by
  unfold TH1F.GetBinLowEdge
  have : (h.nbins : α) ≠ 0 := by exact_mod_cast hn.ne.symm
  push_cast
  field_simp

/-- The bin whose half-open interval holds `x` is the one `FindBin` returns. -/
theorem FindBin_unique (h : TH1F α) (x : α) (hn : 0 < h.nbins) (hlt : h.xmin < h.xmax)
    (b : ℕ) (hb1 : 1 ≤ b) (hbn : b ≤ h.nbins) (h1 : h.GetBinLowEdge b ≤ x)
    (h2 : x < h.GetBinLowEdge ((b : ℤ) + 1)) : h.FindBin x = b := by
  have hmin : h.xmin ≤ x := by
    rw [← edge_first h]
    exact le_trans (edge_mono h hn hlt 1 b (by omega)) h1
  have hmax : x < h.xmax := by
    rw [← edge_last h hn]
    exact lt_of_lt_of_le h2 (edge_mono h hn hlt _ _ (by omega))
  obtain ⟨-, -, e1, e2⟩ := FindBin_inside h x hn hlt hmin hmax
  by_contra hne
  rcases Nat.lt_or_gt_of_ne hne with hlt' | hgt'
  · have := edge_mono h hn hlt ((h.FindBin x : ℤ) + 1) b (by omega)
    linarith
  · have := edge_mono h hn hlt ((b : ℤ) + 1) (h.FindBin x) (by omega)
    linarith

theorem vel_real (fa f : ℝ) : vel realNumerics fa f = 300000 * √(f / fa - 1) := rfl

theorem vel_nonneg (fa f : ℝ) : 0 ≤ vel realNumerics fa f := by
  rw [vel_real]
  positivity

theorem vel_self (fa : ℝ) (hfa : fa ≠ 0) : vel realNumerics fa fa = 0 := by
  rw [vel_real, div_self hfa]
  simp

theorem vel_mono (fa f f' : ℝ) (hfa : 0 < fa) (hff : f ≤ f') :
    vel realNumerics fa f ≤ vel realNumerics fa f' := by
  rw [vel_real, vel_real]
  have h1 : f / fa - 1 ≤ f' / fa - 1 := by
    have := div_le_div_of_nonneg_right hff hfa.le
    linarith
  have := Real.sqrt_le_sqrt h1
  linarith

theorem vel_strictMono (fa f f' : ℝ) (hfa : 0 < fa) (hf : fa ≤ f) (hff : f < f') :
    vel realNumerics fa f < vel realNumerics fa f' := by
  rw [vel_real, vel_real]
  have h0 : 0 ≤ f / fa - 1 := by
    have := (one_le_div hfa).mpr hf
    linarith
  have h1 : f / fa - 1 < f' / fa - 1 := by
    have := div_lt_div_of_pos_right hff hfa
    linarith
  have := Real.sqrt_lt_sqrt h0 h1
  linarith

theorem binProb_real (h : TH1F ℝ) (fa : ℝ) (b : ℕ) :
    binProb realNumerics h fa b =
      ∫ x in (vel realNumerics fa (h.GetBinLowEdge b))..(vel realNumerics fa
        (h.GetBinLowEdge ((b : ℤ) + 1))), maxwell_boltzmann x := rfl

theorem binProb_real_pos (h : TH1F ℝ) (fa : ℝ) (b : ℕ) (hfa : 0 < fa) (hn : 0 < h.nbins)
    (hlt : h.xmin < h.xmax) (hb : fa ≤ h.GetBinLowEdge b) :
    0 < binProb realNumerics h fa b := by
  rw [binProb_real]
  exact MB_integral_pos _ _ (vel_nonneg _ _)
    (vel_strictMono fa _ _ hfa hb (edge_strictMono h hn hlt _ _ (by omega)))

end RealModel

section FindBinEnds

variable {α : Type} [LinearOrderedField α] [FloorRing α]

theorem FindBin_below (h : TH1F α) (x : α) (hx : x < h.xmin) : h.FindBin x = 0 := by
  unfold TH1F.FindBin
  rw [if_pos hx]

theorem FindBin_above (h : TH1F α) (x : α) (hlt : h.xmin < h.xmax) (hx : h.xmax ≤ x) :
    h.FindBin x = h.nbins + 1 := by
  unfold TH1F.FindBin
  rw [if_neg (not_lt.mpr (le_trans hlt.le hx)), if_pos (not_lt.mpr hx)]

theorem nBins_pos : 0 < nBins α := by
  rw [nBins_eq]; norm_num

end FindBinEnds

section VelocityArgs

variable {α : Type} [LinearOrderedField α] [FloorRing α]

theorem P_exp_neg (f f0 : α) (h : f0 < 0) : P_exp f f0 < 0 := by
  rw [P_exp_eq]
  have h1 := (P_exp_factor f f0).1
  have h2 : (3 : α) * (f0 / 750) < 0 := by
    have : f0 / 750 < 0 := div_neg_of_neg_of_pos h (by norm_num)
    linarith
  exact mul_neg_of_neg_of_pos h2 h1

end VelocityArgs

section NegativeScan

variable {α : Type} [LinearOrderedField α] [FloorRing α]

theorem nSteps_low_scan : nSteps (-(1 / 100) : α) (99 / 100) = 500 := by
  have h : ((99 / 100 : α) - -(1 / 100)) / step_size α = ((500 : ℤ) : α) := by
    simp only [step_size]; norm_num
  simp only [nSteps, h, Int.floor_intCast]
  rfl

theorem nSteps_high_scan : nSteps (4999 : α) 5001 = 1000 := by
  have h : ((5001 : α) - 4999) / step_size α = ((1000 : ℤ) : α) := by
    simp only [step_size]; norm_num
  simp only [nSteps, h, Int.floor_intCast]
  rfl

end NegativeScan

section RecordedSum

open MeasureTheory

/-- Adding up `power_sig * prob` over the bins after the starting bin: the velocity intervals
of consecutive bins are adjacent, so the probabilities add up to one integral. -/
theorem broad_sum (h : TH1F ℝ) (fa p : ℝ) (bs n : ℕ) (content : ℕ → ℝ)
    (hc : ∀ b, content b =
      if bs < b ∧ b ≤ n then p * binProb realNumerics h fa b else 0) :
    ∑ b ∈ Finset.Icc 1 n, content b =
      if bs < n then
        p * ∫ x in (vel realNumerics fa (h.GetBinLowEdge ((bs : ℤ) + 1)))..(vel realNumerics fa
          (h.GetBinLowEdge ((n : ℤ) + 1))), maxwell_boltzmann x
      else 0 := by
  have h1 : ∑ b ∈ Finset.Icc 1 n, content b =
      ∑ b ∈ Finset.Ico (bs + 1) (n + 1), p * binProb realNumerics h fa b := by
    rw [Finset.sum_congr rfl (fun b _ => hc b), Finset.sum_ite, Finset.sum_const_zero, add_zero]
    apply Finset.sum_congr _ (fun _ _ => rfl)
    ext b
    simp only [Finset.mem_filter, Finset.mem_Icc, Finset.mem_Ico]
    omega
  rw [h1, ← Finset.mul_sum]
  by_cases hbn : bs < n
  · rw [if_pos hbn]
    congr 1
    have key : ∑ k ∈ Finset.Ico (bs + 1) (n + 1),
        ∫ x in ((fun k : ℕ => vel realNumerics fa (h.GetBinLowEdge (k : ℤ))) k)..((fun k : ℕ =>
          vel realNumerics fa (h.GetBinLowEdge (k : ℤ))) (k + 1)), maxwell_boltzmann x =
        ∫ x in ((fun k : ℕ => vel realNumerics fa (h.GetBinLowEdge (k : ℤ))) (bs + 1))..((fun
          k : ℕ => vel realNumerics fa (h.GetBinLowEdge (k : ℤ))) (n + 1)), maxwell_boltzmann x :=
      intervalIntegral.sum_integral_adjacent_intervals_Ico (by omega)
        (fun k _ => MB_intervalIntegrable _ _)
    simp only [Nat.cast_add, Nat.cast_one] at key
    rw [← key]
    apply Finset.sum_congr rfl
    intro b _
    rw [binProb_real]
  · rw [if_neg hbn, Finset.Ico_eq_empty (by omega), Finset.sum_empty, mul_zero]

end RecordedSum

section SpectralPeak

open MeasureTheory Set

/-- Shifting the squared velocity by `Δ`: the substitution `y = sqrt(v^2 + Δ)`. -/
theorem MB_shift (Δ v0 v1 : ℝ) (hΔ : 0 < Δ) :
    ∫ y in (√(v0 ^ 2 + Δ))..(√(v1 ^ 2 + Δ)), maxwell_boltzmann y =
      ∫ v in v0..v1, maxwell_boltzmann (√(v ^ 2 + Δ)) * (v / √(v ^ 2 + Δ)) := by
  have hpos : ∀ x : ℝ, 0 < x ^ 2 + Δ := fun x => by positivity
  have hder : ∀ x ∈ uIcc v0 v1,
      HasDerivAt (fun v : ℝ => √(v ^ 2 + Δ)) ((fun v : ℝ => v / √(v ^ 2 + Δ)) x) x := by
    intro x _
    have h1 : HasDerivAt (fun v : ℝ => v ^ 2 + Δ) (2 * x) x := by
      simpa using (hasDerivAt_pow 2 x).add_const Δ
    have h2 := h1.sqrt (hpos x).ne.symm
    convert h2 using 1
    have : √(x ^ 2 + Δ) ≠ 0 := (Real.sqrt_pos.mpr (hpos x)).ne.symm
    field_simp
    ring
  have hcont : ContinuousOn (fun v : ℝ => v / √(v ^ 2 + Δ)) (uIcc v0 v1) := by
    apply Continuous.continuousOn
    apply Continuous.div continuous_id
    · exact Real.continuous_sqrt.comp ((continuous_pow 2).add continuous_const)
    · intro x
      exact (Real.sqrt_pos.mpr (hpos x)).ne.symm
  have key := intervalIntegral.integral_comp_mul_deriv hder hcont MB_continuous
  rw [← key]
  rfl

/-- The density at the shifted velocity, times the derivative of the shift. -/
theorem MB_mul_shift (r v : ℝ) (hr : r ≠ 0) :
    maxwell_boltzmann r * (v / r) =
      4 * Real.pi / (226 * 226 * Real.pi) ^ (1.5 : ℝ) * v *
        (r * Real.exp (-r * r / 226 / 226)) := by
  unfold maxwell_boltzmann
  field_simp
  ring

theorem MB_as_spectral (v : ℝ) :
    maxwell_boltzmann v =
      4 * Real.pi / (226 * 226 * Real.pi) ^ (1.5 : ℝ) * v *
        (v * Real.exp (-v * v / 226 / 226)) := by
  unfold maxwell_boltzmann
  ring

/-- The spectral density `y * exp(-y^2/226^2)` falls beyond its peak `226/sqrt 2`. -/
theorem spectral_antitone (v r : ℝ) (hv : 0 < v) (hvr : v ≤ r) (hpk : 226 ^ 2 ≤ 2 * v ^ 2) :
    r * Real.exp (-r * r / 226 / 226) ≤ v * Real.exp (-v * v / 226 / 226) := by
  have hsplit : Real.exp (-r * r / 226 / 226) =
      Real.exp (-v * v / 226 / 226) * Real.exp (-((r * r - v * v) / 226 ^ 2)) := by
    rw [← Real.exp_add]
    congr 1
    ring
  have h1 : (r * r - v * v) / 226 ^ 2 + 1 ≤ Real.exp ((r * r - v * v) / 226 ^ 2) :=
    Real.add_one_le_exp _
  have h2 : r ≤ v * ((r * r - v * v) / 226 ^ 2 + 1) := by
    rw [div_add_one (by norm_num), mul_div_assoc', le_div_iff₀ (by norm_num)]
    nlinarith [mul_nonneg (sub_nonneg.mpr hvr) hv.le, mul_nonneg (sub_nonneg.mpr hvr)
      (sub_nonneg.mpr hvr)]
  have h3 : r ≤ v * Real.exp ((r * r - v * v) / 226 ^ 2) :=
    le_trans h2 (mul_le_mul_of_nonneg_left h1 hv.le)
  have h4 : Real.exp ((r * r - v * v) / 226 ^ 2) * Real.exp (-((r * r - v * v) / 226 ^ 2)) = 1 := by
    rw [← Real.exp_add, add_neg_cancel, Real.exp_zero]
  have h5 : r * Real.exp (-((r * r - v * v) / 226 ^ 2)) ≤ v := by
    calc r * Real.exp (-((r * r - v * v) / 226 ^ 2))
        ≤ v * Real.exp ((r * r - v * v) / 226 ^ 2) * Real.exp (-((r * r - v * v) / 226 ^ 2)) :=
          mul_le_mul_of_nonneg_right h3 (Real.exp_pos _).le
      _ = v := by rw [mul_assoc, h4, mul_one]
  rw [hsplit]
  calc r * (Real.exp (-v * v / 226 / 226) * Real.exp (-((r * r - v * v) / 226 ^ 2)))
      = r * Real.exp (-((r * r - v * v) / 226 ^ 2)) * Real.exp (-v * v / 226 / 226) := by ring
    _ ≤ v * Real.exp (-v * v / 226 / 226) :=
        mul_le_mul_of_nonneg_right h5 (Real.exp_pos _).le

/-- The spectral density `y * exp(-y^2/226^2)` rises strictly up to its peak `226/sqrt 2`. -/
theorem spectral_strictMono (v r : ℝ) (hv : 0 < v) (hvr : v < r) (hpk : 2 * r ^ 2 ≤ 226 ^ 2) :
    v * Real.exp (-v * v / 226 / 226) < r * Real.exp (-r * r / 226 / 226) := by
  have hsplit : Real.exp (-r * r / 226 / 226) =
      Real.exp (-v * v / 226 / 226) * Real.exp (-((r * r - v * v) / 226 ^ 2)) := by
    rw [← Real.exp_add]
    congr 1
    ring
  have h1 : -((r * r - v * v) / 226 ^ 2) + 1 ≤ Real.exp (-((r * r - v * v) / 226 ^ 2)) :=
    Real.add_one_le_exp _
  have hr : 0 < r := lt_trans hv hvr
  have h2 : v < r * (-((r * r - v * v) / 226 ^ 2) + 1) := by
    have e : r * (-((r * r - v * v) / 226 ^ 2) + 1) =
        (r * (226 ^ 2 - (r * r - v * v))) / 226 ^ 2 := by
      rw [eq_div_iff (by norm_num)]
      have h226 : (226 : ℝ) ^ 2 ≠ 0 := by norm_num
      have : (r * r - v * v) / 226 ^ 2 * 226 ^ 2 = r * r - v * v := div_mul_cancel₀ _ h226
      linear_combination (-r) * this
    rw [e, lt_div_iff₀ (by norm_num)]
    nlinarith [mul_pos (sub_pos.mpr hvr) hv, mul_pos (sub_pos.mpr hvr) hr,
      mul_pos (sub_pos.mpr hvr) (sub_pos.mpr hvr)]
  have h3 : v < r * Real.exp (-((r * r - v * v) / 226 ^ 2)) :=
    lt_of_lt_of_le h2 (mul_le_mul_of_nonneg_left h1 hr.le)
  rw [hsplit]
  calc v * Real.exp (-v * v / 226 / 226)
      < r * Real.exp (-((r * r - v * v) / 226 ^ 2)) * Real.exp (-v * v / 226 / 226) :=
        mul_lt_mul_of_pos_right h3 (Real.exp_pos _)
    _ = r * (Real.exp (-v * v / 226 / 226) * Real.exp (-((r * r - v * v) / 226 ^ 2))) := by ring

end SpectralPeak

section ShiftedMass

open MeasureTheory Set

theorem sqrt_shift_pos (Δ v : ℝ) (hΔ : 0 < Δ) : 0 < √(v ^ 2 + Δ) :=
  Real.sqrt_pos.mpr (by positivity)

theorem lt_sqrt_shift (Δ v : ℝ) (hΔ : 0 < Δ) : v < √(v ^ 2 + Δ) := by
  apply Real.lt_sqrt_of_sq_lt
  linarith

theorem MB_shift_continuous (Δ : ℝ) (hΔ : 0 < Δ) :
    Continuous (fun v : ℝ => maxwell_boltzmann (√(v ^ 2 + Δ)) * (v / √(v ^ 2 + Δ))) := by
  have hs : Continuous (fun v : ℝ => √(v ^ 2 + Δ)) :=
    Real.continuous_sqrt.comp ((continuous_pow 2).add continuous_const)
  apply Continuous.mul (MB_continuous.comp hs)
  apply Continuous.div continuous_id hs
  intro x
  exact (sqrt_shift_pos Δ x hΔ).ne.symm

/-- Below the peak `226/sqrt 2` of the spectral density, shifting a velocity interval up by
`Δ` in squared velocity adds mass. -/
theorem MB_mass_shift_gt (Δ v0 v1 : ℝ) (hΔ : 0 < Δ) (h0 : 0 ≤ v0) (h01 : v0 < v1)
    (hpk : 2 * (v1 ^ 2 + Δ) ≤ 226 ^ 2) :
    ∫ v in v0..v1, maxwell_boltzmann v <
      ∫ y in (√(v0 ^ 2 + Δ))..(√(v1 ^ 2 + Δ)), maxwell_boltzmann y := by
  rw [MB_shift Δ v0 v1 hΔ]
  have hK : 0 < 4 * Real.pi / (226 * 226 * Real.pi) ^ (1.5 : ℝ) := by
    have := MB_const_pos
    have := Real.pi_pos
    positivity
  have hlt : ∀ v ∈ Ioc v0 v1,
      maxwell_boltzmann v < maxwell_boltzmann (√(v ^ 2 + Δ)) * (v / √(v ^ 2 + Δ)) := by
    intro v hv
    have hvpos : 0 < v := lt_of_le_of_lt h0 hv.1
    rw [MB_mul_shift _ _ (sqrt_shift_pos Δ v hΔ).ne.symm, MB_as_spectral v]
    apply mul_lt_mul_of_pos_left _ (mul_pos hK hvpos)
    apply spectral_strictMono v _ hvpos (lt_sqrt_shift Δ v hΔ)
    rw [Real.sq_sqrt (by positivity)]
    nlinarith [hv.2, hvpos]
  apply intervalIntegral.integral_lt_integral_of_continuousOn_of_le_of_exists_lt h01
    MB_continuous.continuousOn (MB_shift_continuous Δ hΔ).continuousOn
    (fun v hv => (hlt v hv).le)
  exact ⟨v1, ⟨h01.le, le_refl _⟩, hlt v1 ⟨h01, le_refl _⟩⟩

/-- The velocity of the next bin edge: the squared velocity grows by
`c^2 * binwidth / f_axion` from edge to edge. -/
theorem vel_succ (h : TH1F ℝ) (fa : ℝ) (i : ℤ) (hfa : 0 < fa) (hi : fa ≤ h.GetBinLowEdge i) :
    vel realNumerics fa (h.GetBinLowEdge (i + 1)) =
      √((vel realNumerics fa (h.GetBinLowEdge i)) ^ 2 +
        300000 ^ 2 * ((h.xmax - h.xmin) / (h.nbins : ℝ) / fa)) := by
  have e1 : h.GetBinLowEdge (i + 1) = h.GetBinLowEdge i + (h.xmax - h.xmin) / (h.nbins : ℝ) := by
    unfold TH1F.GetBinLowEdge; push_cast; ring
  have hx0 : 0 ≤ h.GetBinLowEdge i / fa - 1 := by
    have := (one_le_div hfa).mpr hi
    linarith
  rw [vel_real, vel_real, mul_pow, Real.sq_sqrt hx0, e1]
  have e2 : (300000 : ℝ) ^ 2 * (h.GetBinLowEdge i / fa - 1) +
      300000 ^ 2 * ((h.xmax - h.xmin) / (h.nbins : ℝ) / fa) =
      300000 ^ 2 * ((h.GetBinLowEdge i + (h.xmax - h.xmin) / (h.nbins : ℝ)) / fa - 1) := by
    ring
  rw [e2, Real.sqrt_mul (by norm_num), Real.sqrt_sq (by norm_num)]

theorem vel_shift_pos (h : TH1F ℝ) (fa : ℝ) (hfa : 0 < fa) (hn : 0 < h.nbins)
    (hlt : h.xmin < h.xmax) :
    (0 : ℝ) < 300000 ^ 2 * ((h.xmax - h.xmin) / (h.nbins : ℝ) / fa) := by
  have hw : 0 < (h.xmax - h.xmin) / (h.nbins : ℝ) :=
    div_pos (sub_pos.mpr hlt) (by exact_mod_cast hn)
  positivity

/-- Below the peak of the spectral density the bin probabilities rise with the bin index: if
the upper edge of bin `b + 1` has a velocity of at most `226/sqrt 2`, bin `b + 1` gets more
than bin `b`. -/
theorem binProb_lt_succ (h : TH1F ℝ) (fa : ℝ) (b : ℕ) (hfa : 0 < fa) (hn : 0 < h.nbins)
    (hlt : h.xmin < h.xmax) (hb : fa ≤ h.GetBinLowEdge b)
    (hpk : 2 * (vel realNumerics fa (h.GetBinLowEdge ((b : ℤ) + 1 + 1))) ^ 2 ≤ 226 ^ 2) :
    binProb realNumerics h fa b < binProb realNumerics h fa (b + 1) := by
  rw [binProb_real, binProb_real]
  push_cast
  have hΔ := vel_shift_pos h fa hfa hn hlt
  have hb1 : fa ≤ h.GetBinLowEdge ((b : ℤ) + 1) :=
    le_trans hb (edge_mono h hn hlt _ _ (by omega))
  have hpk2 : 2 * ((vel realNumerics fa (h.GetBinLowEdge ((b : ℤ) + 1))) ^ 2 +
      300000 ^ 2 * ((h.xmax - h.xmin) / (h.nbins : ℝ) / fa)) ≤ 226 ^ 2 := by
    rw [vel_succ h fa ((b : ℤ) + 1) hfa hb1, Real.sq_sqrt (by positivity)] at hpk
    exact hpk
  have key := MB_mass_shift_gt _ (vel realNumerics fa (h.GetBinLowEdge b))
    (vel realNumerics fa (h.GetBinLowEdge ((b : ℤ) + 1))) hΔ (vel_nonneg _ _)
    (vel_strictMono fa _ _ hfa hb (edge_strictMono h hn hlt _ _ (by omega))) hpk2
  rw [← vel_succ h fa (b : ℤ) hfa hb, ← vel_succ h fa ((b : ℤ) + 1) hfa hb1] at key
  exact key

end ShiftedMass

section ReflectedMass

open MeasureTheory Set

/-- The logarithm of the ratio of the spectral density at `m - t` and at `m + t`, doubled, is
concave in `t`. -/
theorem logRatio_concave (m a D : ℝ) (hD : D < m) :
    ConcaveOn ℝ (Icc 0 D) (fun t : ℝ => a * t + Real.log (m - t) - Real.log (m + t)) := by
  have hder : ∀ t ∈ Ioo (0 : ℝ) D,
      HasDerivAt (fun t : ℝ => a * t + Real.log (m - t) - Real.log (m + t))
        (a - 2 * m / (m ^ 2 - t ^ 2)) t := by
    intro t ht
    have h1 : m - t ≠ 0 := by linarith [ht.2]
    have h2 : m + t ≠ 0 := by linarith [ht.1, ht.2]
    have d1 : HasDerivAt (fun t : ℝ => a * t) a t := by
      simpa using (hasDerivAt_id t).const_mul a
    have d2 : HasDerivAt (fun t : ℝ => m - t) (-1) t := by
      simpa using (hasDerivAt_id t).const_sub m
    have d3 : HasDerivAt (fun t : ℝ => m + t) 1 t := by
      simpa using (hasDerivAt_id t).const_add m
    have d := (d1.add (d2.log h1)).sub (d3.log h2)
    convert d using 1
    have h3 : m ^ 2 - t ^ 2 ≠ 0 := by
      have : m ^ 2 - t ^ 2 = (m - t) * (m + t) := by ring
      rw [this]
      exact mul_ne_zero h1 h2
    field_simp
    ring
  apply AntitoneOn.concaveOn_of_deriv (convex_Icc 0 D)
  · apply ContinuousOn.sub
    · apply ContinuousOn.add (by fun_prop)
      apply ContinuousOn.log (by fun_prop)
      intro t ht
      linarith [ht.2]
    · apply ContinuousOn.log (by fun_prop)
      intro t ht
      linarith [ht.1, ht.2]
  · rw [interior_Icc]
    intro t ht
    exact (hder t ht).differentiableAt.differentiableWithinAt
  · rw [interior_Icc]
    intro x hx y hy hxy
    rw [(hder x hx).deriv, (hder y hy).deriv]
    have hm : 0 < m := by linarith [hx.1, hx.2]
    have hy2 : 0 < m ^ 2 - y ^ 2 := by nlinarith [hy.1, hy.2]
    have hxy2 : m ^ 2 - y ^ 2 ≤ m ^ 2 - x ^ 2 := by nlinarith [hx.1]
    have := div_le_div_of_nonneg_left (by linarith : 0 ≤ 2 * m) hy2 hxy2
    linarith

/-- The spectral density `x * exp(-x^2/226^2)` as one exponential. -/
theorem spectral_as_exp (x : ℝ) (hx : 0 < x) :
    x * Real.exp (-x * x / 226 / 226) =
      Real.exp (Real.log (x ^ 2) / 2 - (4 / 226 ^ 2) * (x ^ 2) / 4) := by
  rw [sub_eq_add_neg, Real.exp_add, Real.log_pow, Nat.cast_ofNat, mul_div_cancel_left₀ _
    (by norm_num : (2 : ℝ) ≠ 0), Real.exp_log hx]
  congr 2
  ring

/-- Reflection about a point beyond the peak: if the spectral density at `m + D` does not
exceed the one at `m - D`, the same holds at `m + t` and `m - t` for every `0 ≤ t ≤ D`; here in
velocities, with `m = v1^2`, `m - D = v0^2` and `m - t = v^2`. -/
theorem spectral_reflect (v0 v v1 : ℝ) (h0 : 0 < v0) (h0v : v0 ≤ v) (hv1 : v ≤ v1)
    (hends : √(2 * v1 ^ 2 - v0 ^ 2) * Real.exp (-√(2 * v1 ^ 2 - v0 ^ 2) *
      √(2 * v1 ^ 2 - v0 ^ 2) / 226 / 226) ≤ v0 * Real.exp (-v0 * v0 / 226 / 226)) :
    √(2 * v1 ^ 2 - v ^ 2) * Real.exp (-√(2 * v1 ^ 2 - v ^ 2) *
      √(2 * v1 ^ 2 - v ^ 2) / 226 / 226) ≤ v * Real.exp (-v * v / 226 / 226) := by
  have hv : 0 < v := lt_of_lt_of_le h0 h0v
  have hv1p : 0 < v1 := lt_of_lt_of_le hv hv1
  have hsq0 : v0 ^ 2 ≤ v ^ 2 := by nlinarith
  have hsq1 : v ^ 2 ≤ v1 ^ 2 := by nlinarith
  have hp0 : 0 < 2 * v1 ^ 2 - v0 ^ 2 := by nlinarith
  have hp : 0 < 2 * v1 ^ 2 - v ^ 2 := by nlinarith
  have hD : v1 ^ 2 - v0 ^ 2 < v1 ^ 2 := by nlinarith
  have hconc := logRatio_concave (v1 ^ 2) (4 / 226 ^ 2) (v1 ^ 2 - v0 ^ 2) hD
  have hmem0 : (0 : ℝ) ∈ Icc 0 (v1 ^ 2 - v0 ^ 2) := ⟨le_refl _, by linarith⟩
  have hmemD : (v1 ^ 2 - v0 ^ 2) ∈ Icc 0 (v1 ^ 2 - v0 ^ 2) := ⟨by linarith, le_refl _⟩
  have hmemt : (v1 ^ 2 - v ^ 2) ∈ Icc 0 (v1 ^ 2 - v0 ^ 2) := ⟨by linarith, by linarith⟩
  have hmin := hconc.min_le_of_mem_Icc hmem0 hmemD hmemt
  rw [spectral_as_exp _ (Real.sqrt_pos.mpr hp0), spectral_as_exp v0 h0, Real.sq_sqrt hp0.le,
    Real.exp_le_exp] at hends
  rw [spectral_as_exp _ (Real.sqrt_pos.mpr hp), spectral_as_exp v hv, Real.sq_sqrt hp.le,
    Real.exp_le_exp]
  simp only [sub_zero, add_zero, mul_zero, sub_self, zero_add] at hmin
  have e1 : v1 ^ 2 - (v1 ^ 2 - v0 ^ 2) = v0 ^ 2 := by ring
  have e2 : v1 ^ 2 + (v1 ^ 2 - v0 ^ 2) = 2 * v1 ^ 2 - v0 ^ 2 := by ring
  have e3 : v1 ^ 2 - (v1 ^ 2 - v ^ 2) = v ^ 2 := by ring
  have e4 : v1 ^ 2 + (v1 ^ 2 - v ^ 2) = 2 * v1 ^ 2 - v ^ 2 := by ring
  rw [e1, e2, e3, e4] at hmin
  have hD0 : 0 ≤ 4 / 226 ^ 2 * (v1 ^ 2 - v0 ^ 2) + Real.log (v0 ^ 2) -
      Real.log (2 * v1 ^ 2 - v0 ^ 2) := by linarith
  have := le_trans (le_min (le_refl _) hD0) hmin
  linarith

/-- The substitution `y = sqrt(M - v^2)`. -/
theorem MB_reflect (M v0 v1 : ℝ) (h0 : 0 ≤ v0) (h01 : v0 ≤ v1) (hM : v1 ^ 2 < M) :
    ∫ y in (√(M - v1 ^ 2))..(√(M - v0 ^ 2)), maxwell_boltzmann y =
      ∫ v in v0..v1, maxwell_boltzmann (√(M - v ^ 2)) * (v / √(M - v ^ 2)) := by
  have hpos : ∀ x ∈ uIcc v0 v1, 0 < M - x ^ 2 := by
    intro x hx
    rw [uIcc_of_le h01] at hx
    nlinarith [hx.1, hx.2]
  have hder : ∀ x ∈ uIcc v0 v1,
      HasDerivAt (fun v : ℝ => √(M - v ^ 2)) ((fun v : ℝ => -(v / √(M - v ^ 2))) x) x := by
    intro x hx
    have h1 : HasDerivAt (fun v : ℝ => M - v ^ 2) (-(2 * x)) x := by
      simpa using (hasDerivAt_pow 2 x).const_sub M
    have h2 := h1.sqrt (hpos x hx).ne.symm
    convert h2 using 1
    have : √(M - x ^ 2) ≠ 0 := (Real.sqrt_pos.mpr (hpos x hx)).ne.symm
    field_simp
    ring
  have hcont : ContinuousOn (fun v : ℝ => -(v / √(M - v ^ 2))) (uIcc v0 v1) := by
    apply ContinuousOn.neg
    apply ContinuousOn.div continuousOn_id
    · exact (Real.continuous_sqrt.comp (continuous_const.sub (continuous_pow 2))).continuousOn
    · intro x hx
      exact (Real.sqrt_pos.mpr (hpos x hx)).ne.symm
  have key := intervalIntegral.integral_comp_mul_deriv hder hcont MB_continuous
  rw [intervalIntegral.integral_symm, ← key, ← intervalIntegral.integral_neg]
  apply intervalIntegral.integral_congr
  intro x _
  simp only [Function.comp]
  ring

/-- The speed density divided by the speed is the spectral density, up to a constant. -/
theorem MB_div_self (x : ℝ) (hx : x ≠ 0) :
    maxwell_boltzmann x / x =
      4 * Real.pi / (226 * 226 * Real.pi) ^ (1.5 : ℝ) * (x * Real.exp (-x * x / 226 / 226)) := by
  unfold maxwell_boltzmann
  field_simp
  ring

theorem MB_div_le_iff (x y : ℝ) (hx : x ≠ 0) (hy : y ≠ 0) :
    maxwell_boltzmann y / y ≤ maxwell_boltzmann x / x ↔
      y * Real.exp (-y * y / 226 / 226) ≤ x * Real.exp (-x * x / 226 / 226) := by
  have hK : 0 < 4 * Real.pi / (226 * 226 * Real.pi) ^ (1.5 : ℝ) := by
    have := MB_const_pos
    have := Real.pi_pos
    positivity
  rw [MB_div_self x hx, MB_div_self y hy]
  exact mul_le_mul_left hK

/-- A rational test for the order of two values of the spectral density. -/
theorem spectral_le_of_sq (v r : ℝ) (hv : 0 < v) (hvr : v ≤ r)
    (h : r ^ 2 ≤ v ^ 2 * (1 + (r ^ 2 - v ^ 2) / 226 ^ 2 +
      ((r ^ 2 - v ^ 2) / 226 ^ 2) ^ 2 / 2) ^ 2) :
    r * Real.exp (-r * r / 226 / 226) ≤ v * Real.exp (-v * v / 226 / 226) := by
  have hx : 0 ≤ (r ^ 2 - v ^ 2) / 226 ^ 2 := by
    apply div_nonneg _ (by norm_num)
    nlinarith
  have hq := Real.quadratic_le_exp_of_nonneg hx
  have hq0 : 0 < 1 + (r ^ 2 - v ^ 2) / 226 ^ 2 + ((r ^ 2 - v ^ 2) / 226 ^ 2) ^ 2 / 2 := by
    positivity
  have h2 : r ≤ v * (1 + (r ^ 2 - v ^ 2) / 226 ^ 2 + ((r ^ 2 - v ^ 2) / 226 ^ 2) ^ 2 / 2) := by
    rw [← mul_pow] at h
    exact (pow_le_pow_iff_left₀ (le_trans hv.le hvr) (mul_pos hv hq0).le (by norm_num)).mp h
  have h3 : r ≤ v * Real.exp ((r ^ 2 - v ^ 2) / 226 ^ 2) :=
    le_trans h2 (mul_le_mul_of_nonneg_left hq hv.le)
  have hsplit : Real.exp (-r * r / 226 / 226) =
      Real.exp (-v * v / 226 / 226) * Real.exp (-((r ^ 2 - v ^ 2) / 226 ^ 2)) := by
    rw [← Real.exp_add]
    congr 1
    ring
  have h4 : Real.exp ((r ^ 2 - v ^ 2) / 226 ^ 2) * Real.exp (-((r ^ 2 - v ^ 2) / 226 ^ 2)) = 1 := by
    rw [← Real.exp_add, add_neg_cancel, Real.exp_zero]
  have h5 : r * Real.exp (-((r ^ 2 - v ^ 2) / 226 ^ 2)) ≤ v := by
    calc r * Real.exp (-((r ^ 2 - v ^ 2) / 226 ^ 2))
        ≤ v * Real.exp ((r ^ 2 - v ^ 2) / 226 ^ 2) * Real.exp (-((r ^ 2 - v ^ 2) / 226 ^ 2)) :=
          mul_le_mul_of_nonneg_right h3 (Real.exp_pos _).le
      _ = v := by rw [mul_assoc, h4, mul_one]
  rw [hsplit]
  calc r * (Real.exp (-v * v / 226 / 226) * Real.exp (-((r ^ 2 - v ^ 2) / 226 ^ 2)))
      = r * Real.exp (-((r ^ 2 - v ^ 2) / 226 ^ 2)) * Real.exp (-v * v / 226 / 226) := by ring
    _ ≤ v * Real.exp (-v * v / 226 / 226) :=
        mul_le_mul_of_nonneg_right h5 (Real.exp_pos _).le

/-- Two neighbouring velocity intervals of equal width in squared velocity: if the spectral
density at the far end of the second does not exceed the one at the near end of the first,
the second interval holds no more mass than the first. -/
theorem MB_mass_reflect_le (v0 v1 : ℝ) (h0 : 0 < v0) (h01 : v0 ≤ v1)
    (hends : √(2 * v1 ^ 2 - v0 ^ 2) * Real.exp (-√(2 * v1 ^ 2 - v0 ^ 2) *
      √(2 * v1 ^ 2 - v0 ^ 2) / 226 / 226) ≤ v0 * Real.exp (-v0 * v0 / 226 / 226)) :
    ∫ y in v1..(√(2 * v1 ^ 2 - v0 ^ 2)), maxwell_boltzmann y ≤
      ∫ v in v0..v1, maxwell_boltzmann v := by
  have hv1 : 0 < v1 := lt_of_lt_of_le h0 h01
  have hM : v1 ^ 2 < 2 * v1 ^ 2 := by nlinarith
  have key := MB_reflect (2 * v1 ^ 2) v0 v1 h0.le h01 hM
  have e : √(2 * v1 ^ 2 - v1 ^ 2) = v1 := by
    rw [show 2 * v1 ^ 2 - v1 ^ 2 = v1 ^ 2 by ring, Real.sqrt_sq hv1.le]
  rw [e] at key
  rw [key]
  have hpos : ∀ x ∈ uIcc v0 v1, 0 < 2 * v1 ^ 2 - x ^ 2 := by
    intro x hx
    rw [uIcc_of_le h01] at hx
    nlinarith [hx.1, hx.2]
  have hcont : ContinuousOn (fun v : ℝ => maxwell_boltzmann (√(2 * v1 ^ 2 - v ^ 2)) *
      (v / √(2 * v1 ^ 2 - v ^ 2))) (uIcc v0 v1) := by
    have hs : Continuous (fun v : ℝ => √(2 * v1 ^ 2 - v ^ 2)) :=
      Real.continuous_sqrt.comp (continuous_const.sub (continuous_pow 2))
    apply ContinuousOn.mul (MB_continuous.comp hs).continuousOn
    apply ContinuousOn.div continuousOn_id hs.continuousOn
    intro x hx
    exact (Real.sqrt_pos.mpr (hpos x hx)).ne.symm
  apply intervalIntegral.integral_mono_on h01 hcont.intervalIntegrable
    (MB_intervalIntegrable _ _)
  intro v hv
  have hvpos : 0 < v := lt_of_lt_of_le h0 hv.1
  have hsp : 0 < √(2 * v1 ^ 2 - v ^ 2) :=
    Real.sqrt_pos.mpr (hpos v (by rw [uIcc_of_le h01]; exact hv))
  rw [MB_mul_shift _ _ hsp.ne.symm, MB_as_spectral v]
  apply mul_le_mul_of_nonneg_left (spectral_reflect v0 v v1 h0 hv.1 hv.2 hends)
  have := MB_const_pos
  have := Real.pi_pos
  positivity

/-- The bin probabilities fall from bin `b` to bin `b + 1` when the speed density divided by
the speed, the density of the signal per unit of frequency, is at the upper edge of bin
`b + 1` no larger than at the lower edge of bin `b`. -/
theorem binProb_antitone_of_density (h : TH1F ℝ) (fa : ℝ) (b : ℕ) (hfa : 0 < fa)
    (hn : 0 < h.nbins) (hlt : h.xmin < h.xmax) (hb : fa ≤ h.GetBinLowEdge b)
    (hdens : maxwell_boltzmann (vel realNumerics fa (h.GetBinLowEdge ((b : ℤ) + 2))) /
        vel realNumerics fa (h.GetBinLowEdge ((b : ℤ) + 2)) ≤
      maxwell_boltzmann (vel realNumerics fa (h.GetBinLowEdge b)) /
        vel realNumerics fa (h.GetBinLowEdge b)) :
    binProb realNumerics h fa (b + 1) ≤ binProb realNumerics h fa b := by
  have hΔ := vel_shift_pos h fa hfa hn hlt
  have hb1 : fa ≤ h.GetBinLowEdge ((b : ℤ) + 1) :=
    le_trans hb (edge_mono h hn hlt _ _ (by omega))
  have h2 : vel realNumerics fa (h.GetBinLowEdge b) <
      vel realNumerics fa (h.GetBinLowEdge ((b : ℤ) + 2)) :=
    vel_strictMono fa _ _ hfa hb (edge_strictMono h hn hlt _ _ (by omega))
  have hv2 : 0 < vel realNumerics fa (h.GetBinLowEdge ((b : ℤ) + 2)) :=
    lt_of_le_of_lt (vel_nonneg _ _) h2
  have hv0 : 0 < vel realNumerics fa (h.GetBinLowEdge b) := by
    rcases (vel_nonneg fa (h.GetBinLowEdge b)).lt_or_eq with h1 | h1
    · exact h1
    · exfalso
      rw [← h1, div_zero] at hdens
      exact absurd hdens (not_le.mpr (div_pos (MB_pos _ hv2.ne.symm) hv2))
  rw [MB_div_le_iff _ _ hv0.ne.symm hv2.ne.symm] at hdens
  have e1 := vel_succ h fa (b : ℤ) hfa hb
  have e2 := vel_succ h fa ((b : ℤ) + 1) hfa hb1
  have e3 : vel realNumerics fa (h.GetBinLowEdge ((b : ℤ) + 2)) =
      √(2 * (vel realNumerics fa (h.GetBinLowEdge ((b : ℤ) + 1))) ^ 2 -
        (vel realNumerics fa (h.GetBinLowEdge b)) ^ 2) := by
    rw [show (b : ℤ) + 2 = (b : ℤ) + 1 + 1 by ring, e2]
    congr 1
    rw [e1, Real.sq_sqrt (by positivity)]
    ring
  rw [e3] at hdens
  have key := MB_mass_reflect_le (vel realNumerics fa (h.GetBinLowEdge b))
    (vel realNumerics fa (h.GetBinLowEdge ((b : ℤ) + 1))) hv0
    (vel_mono fa _ _ hfa (edge_mono h hn hlt _ _ (by omega))) hdens
  rw [← e3] at key
  rw [binProb_real, binProb_real]
  push_cast
  rw [show (b : ℤ) + 1 + 1 = (b : ℤ) + 2 by ring]
  exact key

end ReflectedMass

/-! ## The claims -/

section Claims

variable {σ α : Type} [LinearOrderedField α] [FloorRing α]

/-- C1: for every trial and every step of `search001`, narrow or broadened, skipped or
processed, the finished window has `measured[b] = signal[b] + background[b]` in every cell
`b`, in particular in every bin `1 .. nBins`. -/
theorem C1_measured_is_signal_plus_background (N : Numerics α) (R : Rng σ α) (lo hi : α)
    (narrow : Bool) (nTrials : ℕ) (debug : Bool) (s0 : σ) (res : Result σ α)
    (hres : search001 N R lo hi narrow nTrials debug s0 = Except.ok res)
    (itrial istep : ℕ) (T : Trial α) (W : Window α)
    (hT : res.trials[itrial]? = some T) (hW : T.windows[istep]? = some W) (b : ℕ) :
    W.hmea.content b = W.hsig.content b + W.hbkg.content b := by
  obtain ⟨-, -, st, hst⟩ :=
    search001_window N R lo hi narrow nTrials debug s0 res hres itrial istep T W hT hW
  rcases stepBody_window N R narrow debug _ _ itrial st istep W hst with
    ⟨-, h1, h2, h3⟩ | ⟨-, -, h3⟩
  · rw [h1, h2, h3]
    simp [TH1F.Clone, TH1F.mk0]
  · rw [h3]
    simp [TH1F.Add]

theorem C1_measured_is_signal_plus_background_witness :
    ∃ (res : Result Unit ℝ) (T : Trial ℝ) (W : Window ℝ),
      search001 realNumerics (constRng (1 / 2) 0) 749 751 false 1 false () = Except.ok res ∧
      res.trials[0]? = some T ∧ T.windows[500]? = some W ∧
      ∀ b, W.hmea.content b = W.hsig.content b + W.hbkg.content b := by
  obtain ⟨res, T, W, hres, hT, hW⟩ := search001_exists realNumerics (constRng (1 / 2) 0)
    749 751 false 1 false () 0 500 (by norm_num) (by rw [nSteps_default]; norm_num)
  exact ⟨res, T, W, hres, hT, hW, fun b =>
    C1_measured_is_signal_plus_background realNumerics (constRng (1 / 2) 0) 749 751 false 1
      false () res hres 0 500 T W hT hW b⟩

/-- C2: a window whose upper edge `end_freq` lies strictly below the trial's signal frequency
has an all-zero signal array, in narrow and in broadened mode. -/
theorem C2_signal_zero_above_window (N : Numerics α) (R : Rng σ α) (lo hi : α)
    (narrow : Bool) (nTrials : ℕ) (debug : Bool) (s0 : σ) (res : Result σ α)
    (hres : search001 N R lo hi narrow nTrials debug s0 = Except.ok res)
    (itrial istep : ℕ) (T : Trial α) (W : Window α)
    (hT : res.trials[itrial]? = some T) (hW : T.windows[istep]? = some W)
    (hmiss : T.f_axion > end_freq (freq_lo lo) istep) (b : ℕ) :
    W.hsig.content b = 0 := by
  obtain ⟨-, -, st, hst⟩ :=
    search001_window N R lo hi narrow nTrials debug s0 res hres itrial istep T W hT hW
  rcases stepBody_window N R narrow debug _ _ itrial st istep W hst with
    ⟨-, h1, -, -⟩ | ⟨hno, -, -⟩
  · rw [h1]
    simp [TH1F.Clone, TH1F.mk0]
  · exact absurd hmiss hno

theorem C2_signal_zero_above_window_witness :
    ∃ (res : Result Unit ℝ) (T : Trial ℝ) (W : Window ℝ),
      search001 realNumerics (constRng (1 / 2) 0) 749 751 false 1 false () = Except.ok res ∧
      res.trials[0]? = some T ∧ T.windows[0]? = some W ∧
      T.f_axion > end_freq (freq_lo 749) 0 ∧
      ∀ b, W.hsig.content b = 0 := by
  obtain ⟨res, T, W, hres, hT, hW⟩ := search001_exists realNumerics (constRng (1 / 2) 0)
    749 751 false 1 false () 0 0 (by norm_num) (by rw [nSteps_default]; norm_num)
  obtain ⟨s, hs⟩ := search001_f_axion _ _ _ _ _ _ _ _ res hres 0 T hT
  have hmiss : T.f_axion > end_freq (freq_lo (749 : ℝ)) 0 := by
    rw [hs]
    simp only [constRng, end_freq, start_freq, freq_lo, rangeSpec, step_size]
    norm_num
  exact ⟨res, T, W, hres, hT, hW, hmiss, fun b =>
    C2_signal_zero_above_window realNumerics (constRng (1 / 2) 0) 749 751 false 1
      false () res hres 0 0 T W hT hW hmiss b⟩

/-- C9 (amended): for a resonance frequency `f0 > 0` and every probe frequency `f`, the
lineshape lies in `[0, baseline * f0 / 750]`, hence in `[0, baseline]` whenever `f0 ≤ 750`. -/
theorem C9_lineshape_bounds {β : Type} [LinearOrderedField β] (f f0 : β) (hf0 : 0 < f0) :
    0 ≤ P_exp f f0 ∧ P_exp f f0 ≤ baseline β * (f0 / 750) ∧
      (f0 ≤ 750 → P_exp f f0 ≤ baseline β) := by
  have hle := P_exp_le f f0 hf0.le
  refine ⟨P_exp_nonneg f f0 hf0.le, by simpa [baseline] using hle, fun h750 => ?_⟩
  have h1 : f0 / 750 ≤ 1 := by rw [div_le_one (by norm_num)]; exact h750
  simp only [baseline]
  linarith

theorem C9_lineshape_bounds_witness :
    (0 : ℝ) < 750 ∧ 0 ≤ P_exp (749 : ℝ) 750 ∧ P_exp (749 : ℝ) 750 ≤ baseline ℝ * (750 / 750) ∧
      ((750 : ℝ) ≤ 750 → P_exp (749 : ℝ) 750 ≤ baseline ℝ) :=
  ⟨by norm_num, C9_lineshape_bounds 749 750 (by norm_num)⟩

/-- C9, as stated, fails: at resonance `f = f0 = 751 > 0` the lineshape exceeds `baseline`. -/
theorem C9_lineshape_above_baseline :
    (0 : ℝ) < 751 ∧ ¬ (0 ≤ P_exp (751 : ℝ) 751 ∧ P_exp (751 : ℝ) 751 ≤ baseline ℝ) := by
  refine ⟨by norm_num, fun h => ?_⟩
  have h2 := h.2
  rw [P_exp_self _ (by norm_num)] at h2
  simp only [baseline] at h2
  norm_num at h2

/-- C10: for a resonance frequency `f0 > 0` and every probe frequency `f`, the lineshape is
strictly positive, and it is largest at `f = f0`. -/
theorem C10_lineshape_positive_peak {β : Type} [LinearOrderedField β] (f f0 : β)
    (hf0 : 0 < f0) :
    0 < P_exp f f0 ∧ P_exp f f0 ≤ P_exp f0 f0 := by
  refine ⟨P_exp_pos f f0 hf0, ?_⟩
  rw [P_exp_self f0 hf0.ne.symm]
  exact P_exp_le f f0 hf0.le

theorem C10_lineshape_positive_peak_witness :
    (0 : ℝ) < 750 ∧ 0 < P_exp (1000000 : ℝ) 750 ∧ P_exp (1000000 : ℝ) 750 ≤ P_exp 750 750 :=
  ⟨by norm_num, C10_lineshape_positive_peak 1000000 750 (by norm_num)⟩

/-- C3 (amended): in narrow mode, for every window that contains the signal frequency
(`start_freq ≤ f_axion < end_freq`) and whose centre `start_freq + 0.5 * rangeSpec` is not `0`,
exactly one bin among `1 .. nBins` of the signal array is nonzero: the bin whose half-open
interval `[edge_b, edge_(b+1))` holds `f_axion`, with content `P_exp(f_axion; centre)`. -/
theorem C3_narrow_single_bin (N : Numerics α) (R : Rng σ α) (lo hi : α)
    (nTrials : ℕ) (debug : Bool) (s0 : σ) (res : Result σ α)
    (hres : search001 N R lo hi true nTrials debug s0 = Except.ok res)
    (itrial istep : ℕ) (T : Trial α) (W : Window α)
    (hT : res.trials[itrial]? = some T) (hW : T.windows[istep]? = some W)
    (h1 : start_freq (freq_lo lo) istep ≤ T.f_axion)
    (h2 : T.f_axion < end_freq (freq_lo lo) istep)
    (hc : start_freq (freq_lo lo) istep + (5 / 10) * rangeSpec α ≠ 0) :
    ∃ b : ℕ, 1 ≤ b ∧ b ≤ nBins α ∧
      W.hsig.GetBinLowEdge b ≤ T.f_axion ∧ T.f_axion < W.hsig.GetBinLowEdge ((b : ℤ) + 1) ∧
      W.hsig.content b =
        P_exp T.f_axion (start_freq (freq_lo lo) istep + (5 / 10) * rangeSpec α) ∧
      W.hsig.content b ≠ 0 ∧
      ∀ b' : ℕ, 1 ≤ b' → b' ≤ nBins α → b' ≠ b → W.hsig.content b' = 0 := by
  have hs := narrow_hsig N R lo hi nTrials debug s0 res hres itrial istep T W hT hW
    (not_lt.mpr h2.le)
  set H : TH1F α := (TH1F.mk0 "htemp" (nBins α) (start_freq (freq_lo lo) istep)
    (end_freq (freq_lo lo) istep)).Clone (Form "hsig" itrial istep) with hH
  have hn : 0 < H.nbins := by
    show 0 < nBins α
    rw [nBins_eq]; norm_num
  have hlt : H.xmin < H.xmax := start_lt_end _ _
  obtain ⟨hb1, hb2, he1, he2⟩ := FindBin_inside H T.f_axion hn hlt h1 h2
  have hb3 : H.FindBin T.f_axion ≤ H.nbins + 1 := by omega
  refine ⟨H.FindBin T.f_axion, hb1, hb2, ?_, ?_, ?_, ?_, ?_⟩
  · rw [hs, GetBinLowEdge_SetBinContent]; exact he1
  · rw [hs, GetBinLowEdge_SetBinContent]; exact he2
  · rw [hs, SetBinContent_content _ _ _ hb3, if_pos rfl]
  · rw [hs, SetBinContent_content _ _ _ hb3, if_pos rfl]
    exact P_exp_ne_zero _ _ hc
  · intro b' _ _ hne
    rw [hs, SetBinContent_content_of_ne _ _ _ _ hne]
    rfl

theorem C3_narrow_single_bin_witness :
    ∃ (res : Result Unit ℝ) (T : Trial ℝ) (W : Window ℝ),
      search001 realNumerics (constRng (1 / 2) 0) 749 751 true 1 false () = Except.ok res ∧
      res.trials[0]? = some T ∧ T.windows[500]? = some W ∧
      start_freq (freq_lo (749 : ℝ)) 500 ≤ T.f_axion ∧
      T.f_axion < end_freq (freq_lo (749 : ℝ)) 500 ∧
      start_freq (freq_lo (749 : ℝ)) 500 + (5 / 10) * rangeSpec ℝ ≠ 0 ∧
      ∃ b : ℕ, 1 ≤ b ∧ b ≤ nBins ℝ ∧
        W.hsig.GetBinLowEdge b ≤ T.f_axion ∧ T.f_axion < W.hsig.GetBinLowEdge ((b : ℤ) + 1) ∧
        W.hsig.content b =
          P_exp T.f_axion (start_freq (freq_lo (749 : ℝ)) 500 + (5 / 10) * rangeSpec ℝ) ∧
        W.hsig.content b ≠ 0 ∧
        ∀ b' : ℕ, 1 ≤ b' → b' ≤ nBins ℝ → b' ≠ b → W.hsig.content b' = 0 := by
  obtain ⟨res, T, W, hres, hT, hW, hf⟩ := constRun_exists realNumerics (1 / 2) 0 749 751 true 1
    false 0 500 (by norm_num) (by rw [nSteps_default]; norm_num)
  have h1 : start_freq (freq_lo (749 : ℝ)) 500 ≤ T.f_axion := by
    rw [hf]; simp only [start_freq, freq_lo, rangeSpec, step_size]; norm_num
  have h2 : T.f_axion < end_freq (freq_lo (749 : ℝ)) 500 := by
    rw [hf]; simp only [end_freq, start_freq, freq_lo, rangeSpec, step_size]; norm_num
  have hc : start_freq (freq_lo (749 : ℝ)) 500 + (5 / 10) * rangeSpec ℝ ≠ 0 := by
    simp only [start_freq, freq_lo, rangeSpec, step_size]; norm_num
  exact ⟨res, T, W, hres, hT, hW, h1, h2, hc,
    C3_narrow_single_bin realNumerics (constRng (1 / 2) 0) 749 751 1 false () res hres 0 500
      T W hT hW h1 h2 hc⟩

/-- C3, as stated, fails: scanning `[0, 1]` with the signal at `0.01`, step `0` has the window
`[-0.025, 0.025)` around the signal and the centre `0`; the lineshape is `0` there and no bin
of the signal array is nonzero. -/
theorem C3_narrow_no_bin_at_zero_centre :
    ∃ (res : Result Unit ℝ) (T : Trial ℝ) (W : Window ℝ),
      search001 realNumerics (constRng (1 / 100) 0) 0 1 true 1 false () = Except.ok res ∧
      res.trials[0]? = some T ∧ T.windows[0]? = some W ∧
      start_freq (freq_lo (0 : ℝ)) 0 ≤ T.f_axion ∧ T.f_axion < end_freq (freq_lo (0 : ℝ)) 0 ∧
      ∀ b : ℕ, W.hsig.content b = 0 := by
  obtain ⟨res, T, W, hres, hT, hW, hf⟩ := constRun_exists realNumerics (1 / 100) 0 0 1 true 1
    false 0 0 (by norm_num) (by rw [nSteps_unit]; norm_num)
  have h1 : start_freq (freq_lo (0 : ℝ)) 0 ≤ T.f_axion := by
    rw [hf]; simp only [start_freq, freq_lo, rangeSpec, step_size]; norm_num
  have h2 : T.f_axion < end_freq (freq_lo (0 : ℝ)) 0 := by
    rw [hf]; simp only [end_freq, start_freq, freq_lo, rangeSpec, step_size]; norm_num
  have hc : start_freq (freq_lo (0 : ℝ)) 0 + (5 / 10) * rangeSpec ℝ = 0 := by
    simp only [start_freq, freq_lo, rangeSpec, step_size]; norm_num
  have hs := narrow_hsig realNumerics (constRng (1 / 100) 0) 0 1 1 false () res hres 0 0
    T W hT hW (not_lt.mpr h2.le)
  rw [hc, P_exp_zero] at hs
  refine ⟨res, T, W, hres, hT, hW, h1, h2, fun b => ?_⟩
  rw [hs]
  exact SetBinContent_zero_content _ _ (fun _ => rfl) b

/-- C8 (amended): for `lo = 749`, `hi = 751` the scan has `nSteps = 1000` steps and, for every
signal frequency `f` in `[749, 751]`, the number of steps whose window `[start_freq, end_freq)`
covers `f` is at least `12` and at most `25`; it is exactly `25 = rangeSpec/step_size` for
`749.023 ≤ f < 750.975`, away from the two ends of the scan. -/
theorem C8_cover_count (f : α) (h1 : 749 ≤ f) (h2 : f ≤ 751) :
    nSteps (749 : α) 751 = 1000 ∧
      12 ≤ coverCount (freq_lo (749 : α)) f (nSteps (749 : α) 751) ∧
      coverCount (freq_lo (749 : α)) f (nSteps (749 : α) 751) ≤ 25 ∧
      (749 + 23 / 1000 ≤ f → f < 750 + 975 / 1000 →
        coverCount (freq_lo (749 : α)) f (nSteps (749 : α) 751) = 25) := by
  have hfl : freq_lo (749 : α) ≤ f := by
    simp only [freq_lo, rangeSpec]; linarith
  have hstep : (0 : α) < step_size α := by simp only [step_size]; norm_num
  obtain ⟨hM1, hM2⟩ := default_floor_bounds f h1 h2
  rw [nSteps_default, coverCount_eq _ _ hfl]
  refine ⟨rfl, by omega, by omega, fun h3 h4 => ?_⟩
  have ha : ((24 : ℤ) : α) ≤ (f - freq_lo (749 : α)) / step_size α := by
    rw [le_div_iff₀ hstep]
    simp only [freq_lo, rangeSpec, step_size]
    push_cast
    linarith
  have hb : (f - freq_lo (749 : α)) / step_size α < ((1000 : ℤ) : α) := by
    rw [div_lt_iff₀ hstep]
    simp only [freq_lo, rangeSpec, step_size]
    push_cast
    linarith
  have h5 := Int.le_floor.mpr ha
  have h6 := Int.floor_lt.mpr hb
  omega

theorem C8_cover_count_witness :
    (749 : ℝ) ≤ 750 ∧ (750 : ℝ) ≤ 751 ∧ nSteps (749 : ℝ) 751 = 1000 ∧
      12 ≤ coverCount (freq_lo (749 : ℝ)) 750 (nSteps (749 : ℝ) 751) ∧
      coverCount (freq_lo (749 : ℝ)) 750 (nSteps (749 : ℝ) 751) ≤ 25 ∧
      ((749 : ℝ) + 23 / 1000 ≤ 750 → (750 : ℝ) < 750 + 975 / 1000 →
        coverCount (freq_lo (749 : ℝ)) 750 (nSteps (749 : ℝ) 751) = 25) :=
  ⟨by norm_num, by norm_num, C8_cover_count 750 (by norm_num) (by norm_num)⟩

/-- C8, as stated, fails: the signal frequency `749`, the lower end of the scan, is covered by
the `13` steps `0 .. 12` only, fewer than `24`. -/
theorem C8_cover_count_at_scan_start :
    (749 : ℝ) ≤ 749 ∧ (749 : ℝ) ≤ 751 ∧
      coverCount (freq_lo (749 : ℝ)) 749 (nSteps (749 : ℝ) 751) = 13 ∧
      ¬ (24 ≤ coverCount (freq_lo (749 : ℝ)) 749 (nSteps (749 : ℝ) 751) ∧
        coverCount (freq_lo (749 : ℝ)) 749 (nSteps (749 : ℝ) 751) ≤ 26) := by
  have hfl : freq_lo (749 : ℝ) ≤ 749 := by
    simp only [freq_lo, rangeSpec]; norm_num
  have hfloor : ⌊((749 : ℝ) - freq_lo (749 : ℝ)) / step_size ℝ⌋ = 12 := by
    rw [Int.floor_eq_iff]
    simp only [freq_lo, rangeSpec, step_size]
    norm_num
  have hc : coverCount (freq_lo (749 : ℝ)) 749 (nSteps (749 : ℝ) 751) = 13 := by
    rw [nSteps_default, coverCount_eq _ _ hfl, hfloor]
    rfl
  refine ⟨le_refl _, by norm_num, hc, ?_⟩
  rw [hc]
  omega

/-- C17: scan coverage. For `lo < hi` with `hi - lo ≥ step_size` the scan has at least one
step, and every signal frequency `f_axion = lo + (hi - lo) * u` with `u` in `[0, 1]` lies in
the window `[start_freq, end_freq)` of some step `istep < nSteps`. -/
theorem C17_scan_covers_signal (lo hi u : α) (hlt : lo < hi) (hstep : step_size α ≤ hi - lo)
    (hu0 : 0 ≤ u) (hu1 : u ≤ 1) :
    1 ≤ nSteps lo hi ∧
      ∃ istep, istep < nSteps lo hi ∧
        start_freq (freq_lo lo) istep ≤ lo + (hi - lo) * u ∧
        lo + (hi - lo) * u < end_freq (freq_lo lo) istep := by
  have hs : (0 : α) < step_size α := by simp only [step_size]; norm_num
  have hd : 0 < hi - lo := sub_pos.mpr hlt
  have hQ1 : ((1 : ℤ) : α) ≤ (hi - lo) / step_size α := by
    rw [le_div_iff₀ hs]; push_cast; linarith
  have hn1 : 1 ≤ ⌊(hi - lo) / step_size α⌋ := Int.le_floor.mpr hQ1
  have hn : ((nSteps lo hi : ℕ) : ℤ) = ⌊(hi - lo) / step_size α⌋ :=
    Int.toNat_of_nonneg (by omega)
  have hnpos : 1 ≤ nSteps lo hi := by omega
  have hf0 : lo ≤ lo + (hi - lo) * u := by
    have := mul_nonneg hd.le hu0
    linarith
  have hf1 : lo + (hi - lo) * u ≤ hi := by
    have := mul_le_mul_of_nonneg_left hu1 hd.le
    linarith
  have hfl : freq_lo lo ≤ lo + (hi - lo) * u := by
    simp only [freq_lo, rangeSpec]; linarith
  have hQlt : (hi - lo) / step_size α < ((nSteps lo hi : ℕ) : α) + 1 := by
    have := Int.lt_floor_add_one ((hi - lo) / step_size α)
    rw [← hn] at this
    simpa using this
  have hM : Int.toNat ⌊(lo + (hi - lo) * u - freq_lo lo) / step_size α⌋ < nSteps lo hi + 24 := by
    have hx0 : 0 ≤ (lo + (hi - lo) * u - freq_lo lo) / step_size α :=
      div_nonneg (sub_nonneg.mpr hfl) hs.le
    have hMz : ((Int.toNat ⌊(lo + (hi - lo) * u - freq_lo lo) / step_size α⌋ : ℕ) : ℤ) =
        ⌊(lo + (hi - lo) * u - freq_lo lo) / step_size α⌋ :=
      Int.toNat_of_nonneg (Int.floor_nonneg.mpr hx0)
    have hlt2 : (lo + (hi - lo) * u - freq_lo lo) / step_size α <
        (((nSteps lo hi : ℤ) + 24 : ℤ) : α) := by
      rw [div_lt_iff₀ hs]
      rw [div_lt_iff₀ hs] at hQlt
      push_cast
      simp only [freq_lo, rangeSpec, step_size] at hQlt ⊢
      linarith
    have := Int.floor_lt.mpr hlt2
    omega
  refine ⟨hnpos, min (Int.toNat ⌊(lo + (hi - lo) * u - freq_lo lo) / step_size α⌋)
    (nSteps lo hi - 1), by omega, ?_⟩
  apply (covers_iff (freq_lo lo) (lo + (hi - lo) * u) hfl _).mpr
  omega

theorem C17_scan_covers_signal_witness :
    (749 : ℝ) < 751 ∧ step_size ℝ ≤ 751 - 749 ∧ (0 : ℝ) ≤ 1 ∧ (1 : ℝ) ≤ 1 ∧
      1 ≤ nSteps (749 : ℝ) 751 ∧
      ∃ istep, istep < nSteps (749 : ℝ) 751 ∧
        start_freq (freq_lo (749 : ℝ)) istep ≤ 749 + (751 - 749) * 1 ∧
        749 + (751 - 749) * 1 < end_freq (freq_lo (749 : ℝ)) istep :=
  ⟨by norm_num, by simp only [step_size]; norm_num, by norm_num, le_refl _,
    C17_scan_covers_signal 749 751 1 (by norm_num) (by simp only [step_size]; norm_num)
      (by norm_num) (le_refl _)⟩

/-- C11 (amended): `search001` does not check its scan bounds. For `hi ≤ lo` (with
`lo - hi < step_size`, where the conversion of `(hi-lo)/step_size` to `unsigned` is defined)
it ends without an error: `nSteps = 0`, all `nTrials` trials are run, no window is built and
no histogram is written. -/
theorem C11_invalid_bounds_run (N : Numerics α) (R : Rng σ α) (lo hi : α) (narrow : Bool)
    (nTrials : ℕ) (debug : Bool) (s0 : σ) (hle : hi ≤ lo) (_hgt : lo - hi < step_size α) :
    nSteps lo hi = 0 ∧
      ∃ res, search001 N R lo hi narrow nTrials debug s0 = Except.ok res ∧
        res.trials.length = nTrials ∧ (∀ T ∈ res.trials, T.windows = []) ∧
        res.env.file = [] := by
  have hs : (0 : α) < step_size α := by simp only [step_size]; norm_num
  have hn : nSteps lo hi = 0 := by
    unfold nSteps
    have hq : (hi - lo) / step_size α ≤ 0 :=
      div_nonpos_of_nonpos_of_nonneg (sub_nonpos.mpr hle) hs.le
    have : ⌊(hi - lo) / step_size α⌋ ≤ 0 := by
      have h := Int.floor_le ((hi - lo) / step_size α)
      have h2 : ((⌊(hi - lo) / step_size α⌋ : ℤ) : α) ≤ ((0 : ℤ) : α) := by
        push_cast; linarith
      exact_mod_cast h2
    omega
  have hres := search001_eq N R lo hi narrow nTrials debug s0
  obtain ⟨hlen, hw⟩ := search001_shape N R lo hi narrow nTrials debug s0 _ hres
  obtain ⟨hfile, -⟩ := search001_file_length N R lo hi narrow nTrials debug s0 _ hres
  refine ⟨hn, _, hres, hlen, fun T hT => ?_, ?_⟩
  · have := hw T hT
    rw [hn] at this
    exact List.length_eq_zero.mp this
  · apply List.length_eq_zero.mp
    rw [hfile, hn]
    simp [processedCount]

theorem C11_invalid_bounds_run_witness :
    (750 : ℝ) ≤ 750 ∧ (750 : ℝ) - 750 < step_size ℝ ∧ nSteps (750 : ℝ) 750 = 0 ∧
      ∃ res, search001 realNumerics (constRng (1 / 2) 0) 750 750 false 3 false () =
          Except.ok res ∧
        res.trials.length = 3 ∧ (∀ T ∈ res.trials, T.windows = []) ∧ res.env.file = [] :=
  ⟨le_refl _, by simp only [step_size]; norm_num,
    C11_invalid_bounds_run realNumerics (constRng (1 / 2) 0) 750 750 false 3 false ()
      (le_refl _) (by simp only [step_size]; norm_num)⟩

/-- C11, as stated, fails: with the invalid bounds `lo = hi = 750` the run ends normally, not
with a fatal error, and its one trial has been run. -/
theorem C11_equal_bounds_no_error :
    (750 : ℝ) ≥ 750 ∧
      ∃ res, search001 realNumerics (constRng (1 / 2) 0) 750 750 false 1 false () =
          Except.ok res ∧ res.trials.length = 1 :=
  ⟨le_refl _, _, search001_eq realNumerics (constRng (1 / 2) 0) 750 750 false 1 false (),
    (search001_shape realNumerics (constRng (1 / 2) 0) 750 750 false 1 false () _
      (search001_eq realNumerics (constRng (1 / 2) 0) 750 750 false 1 false ())).1⟩

/-- C12: for every value `s11` of the reflection parameter outside `[0, 1)` (`s11 < 0` or
`s11 ≥ 1`), `search001` ends at its first statement with the fatal error
"S11 should be between 0 and 1": the run has no result, so no output file, no trial, no
random draw and no window. -/
theorem C12_S11_outside_range_fatal (s11 : α) (N : Numerics α) (R : Rng σ α) (lo hi : α)
    (narrow : Bool) (nTrials : ℕ) (debug : Bool) (s0 : σ) (h : s11 < 0 ∨ 1 ≤ s11) :
    search001With s11 N R lo hi narrow nTrials debug s0 =
      Except.error "S11 should be between 0 and 1" := by
  unfold search001With
  rw [if_pos]
  rcases h with h | h
  · exact Or.inr (Or.inr h)
  · rcases h.lt_or_eq with h1 | h1
    · exact Or.inl h1
    · refine Or.inr (Or.inl ?_)
      rw [← h1]
      norm_num

theorem C12_S11_outside_range_fatal_witness :
    ((1 : ℝ) < 0 ∨ (1 : ℝ) ≤ 1) ∧
      search001With (1 : ℝ) realNumerics (constRng (1 / 2) 0) 749 751 false 1 false () =
        Except.error "S11 should be between 0 and 1" :=
  ⟨Or.inr (le_refl _),
    C12_S11_outside_range_fatal 1 realNumerics (constRng (1 / 2) 0) 749 751 false 1 false ()
      (Or.inr (le_refl _))⟩

/-- C13: the `debug` flag has no effect on results. For all bounds, modes, trial counts and
random streams the runs with `debug = true` and `debug = false` both end normally and agree
in everything but `cout`: the same trials (signal frequency and the signal, background and
measured histograms of every window), the same objects written to the file in the same order,
and the same generator state at the end, hence the same random draws consumed. -/
theorem C13_debug_no_effect (N : Numerics α) (R : Rng σ α) (lo hi : α) (narrow : Bool)
    (nTrials : ℕ) (s0 : σ) :
    ∃ r1 r2, search001 N R lo hi narrow nTrials true s0 = Except.ok r1 ∧
      search001 N R lo hi narrow nTrials false s0 = Except.ok r2 ∧
      r1.trials = r2.trials ∧ r1.env.file = r2.env.file ∧ r1.env.rng = r2.env.rng :=
  ⟨_, _, search001_eq N R lo hi narrow nTrials true s0,
    search001_eq N R lo hi narrow nTrials false s0,
    trialLoop_debug N R lo hi narrow (freq_lo lo) (nSteps lo hi) (List.range nTrials) _ _
      ⟨rfl, rfl, rfl⟩⟩

/-- C14: the objects in the output file are the triples `[hsig, hbkg, hmea]`, in this order,
of windows `(trial, step)` of the run, listed in strictly increasing lexicographic order of
`(trial, step)`: a triple written earlier has the smaller trial index, or the same trial index
and the smaller step index. -/
theorem C14_write_order (N : Numerics α) (R : Rng σ α) (lo hi : α) (narrow : Bool)
    (nTrials : ℕ) (debug : Bool) (s0 : σ) :
    ∃ (res : Result σ α) (keys : List (ℕ × ℕ × Window α)),
      search001 N R lo hi narrow nTrials debug s0 = Except.ok res ∧
      res.env.file = keys.flatMap (fun k => [k.2.2.hsig, k.2.2.hbkg, k.2.2.hmea]) ∧
      keys.Pairwise (fun a b => a.1 < b.1 ∨ (a.1 = b.1 ∧ a.2.1 < b.2.1)) ∧
      ∀ k ∈ keys, ∃ T, res.trials[k.1]? = some T ∧ T.windows[k.2.1]? = some k.2.2 := by
  obtain ⟨ks, hfile, hpw, hks⟩ := trialLoop_keys N R lo hi narrow debug (freq_lo lo)
    (nSteps lo hi)
    { trials := [],
      env := { rng := s0,
               cout :=
                [⟨"Preparing a study with trials and steps of frequency changes",
                    [(nTrials : α), (nSteps lo hi : α)]⟩,
                  ⟨"sigma of noise is ", [sigma_noise N]⟩,
                  ⟨"Grand spectrum frequency range is ", [freq_lo lo, freq_hi hi]⟩],
               file := [] } } rfl nTrials
  refine ⟨_, ks, search001_eq N R lo hi narrow nTrials debug s0, ?_, hpw,
    fun k hk => (hks k hk).2⟩
  rw [hfile]
  simp [Window.triple]

/-- C16 (amended): the key `Form("<pre>%02d%04d", itrial, istep)`, for `hsig`, `hbkg`, `hmea`
and every other prefix, tells two different pairs `(t1, s1) ≠ (t2, s2)` apart unless one pair
has a trial index of at least `100` and the other a step index of at least `10000`; the key
is therefore injective over every run with `nTrials ≤ 100` or `nSteps ≤ 10000`. -/
theorem C16_key_injective (pre : String) (t1 s1 t2 s2 : ℕ)
    (h1 : ¬ (100 ≤ t1 ∧ 10000 ≤ s2)) (h2 : ¬ (100 ≤ t2 ∧ 10000 ≤ s1))
    (hne : (t1, s1) ≠ (t2, s2)) : Form pre t1 s1 ≠ Form pre t2 s2 := by
  intro h
  obtain ⟨ht, hs⟩ := Form_inj pre t1 s1 t2 s2 h1 h2 h
  exact hne (by rw [ht, hs])

theorem C16_key_injective_witness :
    ¬ (100 ≤ 101 ∧ 10000 ≤ 0) ∧ ¬ (100 ≤ 110 ∧ 10000 ≤ 0) ∧
      ((101, 0) : ℕ × ℕ) ≠ (110, 0) ∧ Form "hsig" 101 0 ≠ Form "hsig" 110 0 :=
  ⟨by decide, by decide, by decide,
    C16_key_injective "hsig" 101 0 110 0 (by decide) (by decide) (by decide)⟩

/-- C16, as stated, fails: the pairs `(10, 10000)` and `(101, 0)` are different and get the
same key `hsig1010000`. -/
theorem C16_key_collision :
    ((10, 10000) : ℕ × ℕ) ≠ (101, 0) ∧ Form "hsig" 10 10000 = Form "hsig" 101 0 ∧
      Form "hsig" 10 10000 = "hsig1010000" :=
  ⟨by decide, by decide, by decide⟩

/-- C19: the limit of `computeLimit` inverts the signal-power formula of `computePs`. For
positive `f0`, `beta`, `B`, `V`, `Cmnl`, `QL`, `sigmaN` and `significance ≥ 0`, every `gGamma`
whose coupling `|gGamma| * alpha/pi/lambda^2 * ma` (the formula of `computegAgg` before the
unit scaling, with `ma = h*f0*jouelToeV`) equals the coupling limit
`sqrt(upperLimit_power/factor_signal_power)` has `computePs(f0, beta, B, V, Cmnl, QL, gGamma)`
equal to the limit power `significance * sigmaN`; and `computePs` is even in `gGamma`. -/
theorem C19_limit_inverts_signal_power (significance f0 Tsys beta B V Cmnl QL bandwidth
    intT : ℝ) (nspec : ℤ) (gGamma : ℝ) (hf0 : 0 < f0) (hbeta : 0 < beta) (hB : 0 < B)
    (hV : 0 < V) (hC : 0 < Cmnl) (hQ : 0 < QL)
    (hsigmaN : 0 < compute.computeLimit.sigmaN f0 Tsys bandwidth intT nspec)
    (hsig : 0 ≤ significance)
    (hg : compute.computegAgg.gAgammagamma (compute.computeLimit.ma f0) gGamma =
      compute.computeLimit.gAgammagamma significance f0 Tsys beta B V Cmnl QL bandwidth intT
        nspec) :
    compute.computePs f0 beta B V Cmnl QL gGamma =
        significance * compute.computeLimit.sigmaN f0 Tsys bandwidth intT nspec ∧
      ∀ g : ℝ, compute.computePs f0 beta B V Cmnl QL (-g) =
        compute.computePs f0 beta B V Cmnl QL g := by
  constructor
  · have hF := compute_factor_pos f0 beta B V Cmnl QL hf0 hbeta hB hV hC hQ
    have hU : 0 ≤ compute.computeLimit.upperLimit_power significance f0 Tsys bandwidth intT
        nspec := by
      unfold compute.computeLimit.upperLimit_power
      exact mul_nonneg hsigmaN.le hsig
    rw [computePs_eq _ _ _ _ _ _ _ hf0, hg]
    unfold compute.computeLimit.gAgammagamma
    rw [Real.sq_sqrt (div_nonneg hU hF.le), div_mul_cancel₀ _ hF.ne.symm]
    unfold compute.computeLimit.upperLimit_power
    ring
  · intro g
    unfold compute.computePs
    ring

theorem C19_limit_inverts_signal_power_witness :
    ∃ gGamma : ℝ, 0 < gGamma ∧
      (0 : ℝ) < 5000000000 ∧ (0 : ℝ) < 1 ∧ (0 : ℝ) < 9 ∧ (0 : ℝ) < 1 / 1000 ∧ (0 : ℝ) < 1 / 2 ∧
      (0 : ℝ) < 50000 ∧
      0 < compute.computeLimit.sigmaN 5000000000 (-1) 50000 3600 0 ∧
      (0 : ℝ) ≤ 1645 / 1000 ∧
      compute.computegAgg.gAgammagamma (compute.computeLimit.ma 5000000000) gGamma =
        compute.computeLimit.gAgammagamma (1645 / 1000) 5000000000 (-1) 1 9 (1 / 1000) (1 / 2)
          50000 50000 3600 0 ∧
      compute.computePs 5000000000 1 9 (1 / 1000) (1 / 2) 50000 gGamma =
        1645 / 1000 * compute.computeLimit.sigmaN 5000000000 (-1) 50000 3600 0 ∧
      ∀ g : ℝ, compute.computePs 5000000000 1 9 (1 / 1000) (1 / 2) 50000 (-g) =
        compute.computePs 5000000000 1 9 (1 / 1000) (1 / 2) 50000 g := by
  have hma := compute_ma_pos 5000000000 (by norm_num)
  have hc := compute_coupling_pos
  have hsigmaN : 0 < compute.computeLimit.sigmaN 5000000000 (-1) 50000 3600 0 := by
    unfold compute.computeLimit.sigmaN compute.computeLimit.noise_power compute.h
    rw [if_neg (by norm_num), if_neg (by norm_num)]
    have : 0 < Real.sqrt ((50000 : ℝ) / 3600) := Real.sqrt_pos.mpr (by norm_num)
    positivity
  have hF := compute_factor_pos 5000000000 1 9 (1 / 1000) (1 / 2) 50000 (by norm_num)
    (by norm_num) (by norm_num) (by norm_num) (by norm_num) (by norm_num)
  have hlim : 0 < compute.computeLimit.gAgammagamma (1645 / 1000) 5000000000 (-1) 1 9
      (1 / 1000) (1 / 2) 50000 50000 3600 0 := by
    unfold compute.computeLimit.gAgammagamma compute.computeLimit.upperLimit_power
    apply Real.sqrt_pos.mpr
    apply div_pos _ hF
    apply mul_pos hsigmaN
    norm_num
  have hg0 : 0 < compute.computeLimit.gAgammagamma (1645 / 1000) 5000000000 (-1) 1 9
      (1 / 1000) (1 / 2) 50000 50000 3600 0 /
      (compute.alpha / compute.pi / compute.lambda / compute.lambda *
        compute.computeLimit.ma 5000000000) := div_pos hlim (mul_pos hc hma)
  have hg : compute.computegAgg.gAgammagamma (compute.computeLimit.ma 5000000000)
      (compute.computeLimit.gAgammagamma (1645 / 1000) 5000000000 (-1) 1 9
        (1 / 1000) (1 / 2) 50000 50000 3600 0 /
        (compute.alpha / compute.pi / compute.lambda / compute.lambda *
          compute.computeLimit.ma 5000000000)) =
      compute.computeLimit.gAgammagamma (1645 / 1000) 5000000000 (-1) 1 9 (1 / 1000) (1 / 2)
        50000 50000 3600 0 := by
    unfold compute.computegAgg.gAgammagamma
    rw [abs_of_pos hg0]
    have h1 := hc.ne.symm
    have h2 := hma.ne.symm
    calc _ = compute.computeLimit.gAgammagamma (1645 / 1000) 5000000000 (-1) 1 9
          (1 / 1000) (1 / 2) 50000 50000 3600 0 /
          (compute.alpha / compute.pi / compute.lambda / compute.lambda *
            compute.computeLimit.ma 5000000000) *
          (compute.alpha / compute.pi / compute.lambda / compute.lambda *
            compute.computeLimit.ma 5000000000) := by ring
      _ = _ := div_mul_cancel₀ _ (mul_ne_zero h1 h2)
  exact ⟨_, hg0, by norm_num, by norm_num, by norm_num, by norm_num, by norm_num, by norm_num,
    hsigmaN, by norm_num, hg,
    C19_limit_inverts_signal_power (1645 / 1000) 5000000000 (-1) 1 9 (1 / 1000) (1 / 2) 50000
      50000 3600 0 _ (by norm_num) (by norm_num) (by norm_num) (by norm_num) (by norm_num)
      (by norm_num) hsigmaN (by norm_num) hg⟩

/-- C4, the code at the failing input: in the default scan `[749, 751]` with the signal at
`750`, broadened mode, step `500` has the window `[749.975, 750.025)` and the starting bin
`201 = FindBin(750)`. The signal array holds `0` in the starting bin, not the positive value
`power_sig * ∫ MB over [0, v(upper edge of bin 201)]` of the claim; the later bins
`202 .. nBins` hold `power_sig * ∫ MB over [v(lower edge), v(upper edge)]`. -/
theorem C4_starting_bin_left_empty :
    ∃ (res : Result Unit ℝ) (T : Trial ℝ) (W : Window ℝ),
      search001 realNumerics (constRng (1 / 2) 0) 749 751 false 1 false () = Except.ok res ∧
      res.trials[0]? = some T ∧ T.windows[500]? = some W ∧ T.f_axion = 750 ∧
      W.hsig.GetBinLowEdge 201 ≤ T.f_axion ∧ T.f_axion < W.hsig.GetBinLowEdge 202 ∧
      W.hsig.FindBin T.f_axion = 201 ∧
      W.hsig.content 201 = 0 ∧
      0 < P_exp T.f_axion (start_freq (freq_lo (749 : ℝ)) 500 + (5 / 10) * rangeSpec ℝ) *
        realNumerics.integral 0 (vel realNumerics T.f_axion (W.hsig.GetBinLowEdge 202)) ∧
      ∀ b : ℕ, 201 < b → b ≤ nBins ℝ →
        W.hsig.content b =
          P_exp T.f_axion (start_freq (freq_lo (749 : ℝ)) 500 + (5 / 10) * rangeSpec ℝ) *
            binProb realNumerics W.hsig T.f_axion b := by
  obtain ⟨res, T, W, hres, hT, hW, hf⟩ := constRun_exists realNumerics (1 / 2) 0 749 751 false 1
    false 0 500 (by norm_num) (by rw [nSteps_default]; norm_num)
  have hf750 : T.f_axion = 750 := by rw [hf]; norm_num
  obtain ⟨hn, hx1, hx2⟩ := window_axis _ _ _ _ _ _ _ _ res hres 0 500 T W hT hW
  have hnpos : 0 < W.hsig.nbins := by rw [hn]; exact nBins_pos
  have hlt : W.hsig.xmin < W.hsig.xmax := by rw [hx1, hx2]; exact start_lt_end _ _
  have he1 : W.hsig.GetBinLowEdge 201 ≤ T.f_axion := by
    rw [window_edge W.hsig _ 500 hn hx1 hx2, hf750]
    simp only [start_freq, freq_lo, rangeSpec, step_size]
    norm_num
  have he2 : T.f_axion < W.hsig.GetBinLowEdge 202 := by
    rw [window_edge W.hsig _ 500 hn hx1 hx2, hf750]
    simp only [start_freq, freq_lo, rangeSpec, step_size]
    norm_num
  have hfb : W.hsig.FindBin T.f_axion = 201 :=
    FindBin_unique W.hsig T.f_axion hnpos hlt 201 (by norm_num)
      (by rw [hn, nBins_eq]; norm_num) (by exact_mod_cast he1) (by exact_mod_cast he2)
  have hproc : ¬ T.f_axion > end_freq (freq_lo (749 : ℝ)) 500 := by
    rw [hf750]
    simp only [end_freq, start_freq, freq_lo, rangeSpec, step_size]
    norm_num
  have hcontent := broad_hsig _ _ _ _ _ _ _ res hres 0 500 T W hT hW hproc
  refine ⟨res, T, W, hres, hT, hW, hf750, he1, he2, hfb, ?_, ?_, ?_⟩
  · rw [hcontent 201, hfb, if_neg (by omega)]
  · apply mul_pos
    · apply P_exp_pos
      simp only [start_freq, freq_lo, rangeSpec, step_size]
      norm_num
    · show 0 < ∫ x in (0 : ℝ)..(vel realNumerics T.f_axion (W.hsig.GetBinLowEdge 202)),
        maxwell_boltzmann x
      apply MB_integral_pos _ _ (le_refl _)
      have h0 : vel realNumerics T.f_axion T.f_axion = 0 :=
        vel_self _ (by rw [hf750]; norm_num)
      rw [← h0]
      exact vel_strictMono _ _ _ (by rw [hf750]; norm_num) (le_refl _) he2
  · intro b hb1 hb2
    rw [hcontent b, hfb, if_pos ⟨hb1, hb2⟩]

/-- C6 (amended): a window whose range `[start_freq, end_freq)` does not contain `f_axion` has
`0` in every bin `1 .. nBins` of its signal array in narrow mode (for `f_axion < start_freq`
as well as `f_axion ≥ end_freq`) and, in broadened mode, when `f_axion ≥ end_freq`. -/
theorem C6_zero_signal_outside (N : Numerics α) (R : Rng σ α) (lo hi : α) (narrow : Bool)
    (nTrials : ℕ) (debug : Bool) (s0 : σ) (res : Result σ α)
    (hres : search001 N R lo hi narrow nTrials debug s0 = Except.ok res)
    (itrial istep : ℕ) (T : Trial α) (W : Window α)
    (hT : res.trials[itrial]? = some T) (hW : T.windows[istep]? = some W)
    (hout : ¬ (start_freq (freq_lo lo) istep ≤ T.f_axion ∧
      T.f_axion < end_freq (freq_lo lo) istep))
    (hmode : narrow = true ∨ end_freq (freq_lo lo) istep ≤ T.f_axion)
    (b : ℕ) (hb1 : 1 ≤ b) (hbn : b ≤ nBins α) : W.hsig.content b = 0 := by
  by_cases hskip : T.f_axion > end_freq (freq_lo lo) istep
  · obtain ⟨-, -, st, hst⟩ :=
      search001_window N R lo hi narrow nTrials debug s0 res hres itrial istep T W hT hW
    rcases stepBody_window N R narrow debug _ _ itrial st istep W hst with
      ⟨-, h1, -, -⟩ | ⟨hno, -, -⟩
    · rw [h1]; rfl
    · exact absurd hskip hno
  · obtain ⟨hn, hx1, hx2⟩ := window_axis N R lo hi narrow nTrials debug s0 res hres itrial
      istep T W hT hW
    have hlt : W.hsig.xmin < W.hsig.xmax := by rw [hx1, hx2]; exact start_lt_end _ _
    have hfb : W.hsig.FindBin T.f_axion = 0 ∨ W.hsig.FindBin T.f_axion = nBins α + 1 := by
      by_cases hlow : T.f_axion < start_freq (freq_lo lo) istep
      · exact Or.inl (FindBin_below _ _ (by rw [hx1]; exact hlow))
      · have hge : end_freq (freq_lo lo) istep ≤ T.f_axion := by
          by_contra hcon
          exact hout ⟨not_lt.mp hlow, not_le.mp hcon⟩
        right
        rw [← hn]
        exact FindBin_above _ _ hlt (by rw [hx2]; exact hge)
    cases narrow
    · rcases hmode with hm | hm
      · exact absurd hm (by decide)
      · rw [broad_hsig N R lo hi nTrials debug s0 res hres itrial istep T W hT hW hskip b]
        have hfb2 : W.hsig.FindBin T.f_axion = nBins α + 1 := by
          rw [← hn]
          exact FindBin_above _ _ hlt (by rw [hx2]; exact hm)
        rw [hfb2, if_neg (by omega)]
    · have hs := narrow_hsig N R lo hi nTrials debug s0 res hres itrial istep T W hT hW hskip
      have hfb3 : W.hsig.FindBin T.f_axion =
          ((TH1F.mk0 "htemp" (nBins α) (start_freq (freq_lo lo) istep)
            (end_freq (freq_lo lo) istep)).Clone (Form "hsig" itrial istep)).FindBin
              T.f_axion := by
        unfold TH1F.FindBin
        rw [hn, hx1, hx2]
        rfl
      rw [hs, SetBinContent_content_of_ne]
      · rfl
      · rw [← hfb3]
        rcases hfb with h | h <;> omega

theorem C6_zero_signal_outside_witness :
    ∃ (res : Result Unit ℝ) (T : Trial ℝ) (W : Window ℝ),
      search001 realNumerics (constRng (1 / 2) 0) 749 751 true 1 false () = Except.ok res ∧
      res.trials[0]? = some T ∧ T.windows[513]? = some W ∧
      ¬ (start_freq (freq_lo (749 : ℝ)) 513 ≤ T.f_axion ∧
        T.f_axion < end_freq (freq_lo (749 : ℝ)) 513) ∧
      (true = true ∨ end_freq (freq_lo (749 : ℝ)) 513 ≤ T.f_axion) ∧
      (1 ≤ 1 ∧ 1 ≤ nBins ℝ) ∧ W.hsig.content 1 = 0 := by
  obtain ⟨res, T, W, hres, hT, hW, hf⟩ := constRun_exists realNumerics (1 / 2) 0 749 751 true 1
    false 0 513 (by norm_num) (by rw [nSteps_default]; norm_num)
  have hout : ¬ (start_freq (freq_lo (749 : ℝ)) 513 ≤ T.f_axion ∧
      T.f_axion < end_freq (freq_lo (749 : ℝ)) 513) := by
    rw [hf]
    simp only [end_freq, start_freq, freq_lo, rangeSpec, step_size]
    norm_num
  exact ⟨res, T, W, hres, hT, hW, hout, Or.inl rfl, ⟨le_refl _, nBins_pos⟩,
    C6_zero_signal_outside realNumerics (constRng (1 / 2) 0) 749 751 true 1 false () res hres
      0 513 T W hT hW hout (Or.inl rfl) 1 (le_refl _) nBins_pos⟩

/-- C6, as stated, fails: in broadened mode, the default scan `[749, 751]` with the signal at
`750`, step `513` has the window `[750.001, 750.051)` above the signal frequency, and its
signal array is not zero: bin `1` holds a positive power. -/
theorem C6_broadened_window_above_signal :
    ∃ (res : Result Unit ℝ) (T : Trial ℝ) (W : Window ℝ),
      search001 realNumerics (constRng (1 / 2) 0) 749 751 false 1 false () = Except.ok res ∧
      res.trials[0]? = some T ∧ T.windows[513]? = some W ∧
      T.f_axion < start_freq (freq_lo (749 : ℝ)) 513 ∧ 0 < W.hsig.content 1 := by
  obtain ⟨res, T, W, hres, hT, hW, hf⟩ := constRun_exists realNumerics (1 / 2) 0 749 751 false 1
    false 0 513 (by norm_num) (by rw [nSteps_default]; norm_num)
  have hf750 : T.f_axion = 750 := by rw [hf]; norm_num
  obtain ⟨hn, hx1, hx2⟩ := window_axis _ _ _ _ _ _ _ _ res hres 0 513 T W hT hW
  have hnpos : 0 < W.hsig.nbins := by rw [hn]; exact nBins_pos
  have hlt : W.hsig.xmin < W.hsig.xmax := by rw [hx1, hx2]; exact start_lt_end _ _
  have hlow : T.f_axion < start_freq (freq_lo (749 : ℝ)) 513 := by
    rw [hf750]
    simp only [start_freq, freq_lo, rangeSpec, step_size]
    norm_num
  have hproc : ¬ T.f_axion > end_freq (freq_lo (749 : ℝ)) 513 := by
    have := start_lt_end (freq_lo (749 : ℝ)) 513
    intro h
    linarith
  have hfb : W.hsig.FindBin T.f_axion = 0 := FindBin_below _ _ (by rw [hx1]; exact hlow)
  refine ⟨res, T, W, hres, hT, hW, hlow, ?_⟩
  rw [broad_hsig _ _ _ _ _ _ _ res hres 0 513 T W hT hW hproc 1, hfb,
    if_pos ⟨by norm_num, nBins_pos⟩]
  apply mul_pos
  · apply P_exp_pos
    simp only [start_freq, freq_lo, rangeSpec, step_size]
    norm_num
  · apply binProb_real_pos W.hsig T.f_axion 1 (by rw [hf750]; norm_num) hnpos hlt
    have : W.hsig.GetBinLowEdge ((1 : ℕ) : ℤ) = W.hsig.xmin := by
      rw [Nat.cast_one]; exact edge_first _
    rw [this, hx1]
    exact hlow.le

/-- C18 (amended): in broadened mode the recorded signal never exceeds the lineshape power.
For every processed window with `f_axion > 0` and a non-negative centre, the sum of the
recorded signal over the bins `1 .. nBins` is at most
`power_sig = P_exp(f_axion; window centre)`: the per-bin probabilities are integrals of the
speed density over adjacent velocity intervals, and the density is non-negative with total
mass `1`. -/
theorem C18_recorded_signal_sum_le (R : Rng σ ℝ) (lo hi : ℝ) (nTrials : ℕ) (debug : Bool)
    (s0 : σ) (res : Result σ ℝ)
    (hres : search001 realNumerics R lo hi false nTrials debug s0 = Except.ok res)
    (itrial istep : ℕ) (T : Trial ℝ) (W : Window ℝ)
    (hT : res.trials[itrial]? = some T) (hW : T.windows[istep]? = some W)
    (hpos : 0 < T.f_axion) (hproc : ¬ T.f_axion > end_freq (freq_lo lo) istep)
    (hc : 0 ≤ start_freq (freq_lo lo) istep + (5 / 10) * rangeSpec ℝ) :
    ∑ b ∈ Finset.Icc 1 (nBins ℝ), W.hsig.content b ≤
      P_exp T.f_axion (start_freq (freq_lo lo) istep + (5 / 10) * rangeSpec ℝ) := by
  obtain ⟨hn, hx1, hx2⟩ := window_axis _ _ _ _ _ _ _ _ res hres itrial istep T W hT hW
  have hnpos : 0 < W.hsig.nbins := by rw [hn]; exact nBins_pos
  have hlt : W.hsig.xmin < W.hsig.xmax := by rw [hx1, hx2]; exact start_lt_end _ _
  have hP := P_exp_nonneg T.f_axion _ hc
  rw [broad_sum W.hsig T.f_axion _ (W.hsig.FindBin T.f_axion) (nBins ℝ) W.hsig.content
    (broad_hsig _ _ _ _ _ _ _ res hres itrial istep T W hT hW hproc)]
  split_ifs with hbn
  · have hle := MB_integral_le_one _ _ (vel_nonneg T.f_axion _)
      (vel_mono T.f_axion _ _ hpos (edge_mono W.hsig hnpos hlt
        ((W.hsig.FindBin T.f_axion : ℤ) + 1) ((nBins ℝ : ℤ) + 1) (by omega)))
    calc _ ≤ P_exp T.f_axion (start_freq (freq_lo lo) istep + (5 / 10) * rangeSpec ℝ) * 1 :=
          mul_le_mul_of_nonneg_left hle hP
      _ = _ := mul_one _
  · exact hP

theorem C18_recorded_signal_sum_le_witness :
    ∃ (res : Result Unit ℝ) (T : Trial ℝ) (W : Window ℝ),
      search001 realNumerics (constRng (1 / 2) 0) 749 751 false 1 false () = Except.ok res ∧
      res.trials[0]? = some T ∧ T.windows[500]? = some W ∧
      0 < T.f_axion ∧ ¬ T.f_axion > end_freq (freq_lo (749 : ℝ)) 500 ∧
      0 ≤ start_freq (freq_lo (749 : ℝ)) 500 + (5 / 10) * rangeSpec ℝ ∧
      ∑ b ∈ Finset.Icc 1 (nBins ℝ), W.hsig.content b ≤
        P_exp T.f_axion (start_freq (freq_lo (749 : ℝ)) 500 + (5 / 10) * rangeSpec ℝ) := by
  obtain ⟨res, T, W, hres, hT, hW, hf⟩ := constRun_exists realNumerics (1 / 2) 0 749 751 false 1
    false 0 500 (by norm_num) (by rw [nSteps_default]; norm_num)
  have hpos : 0 < T.f_axion := by rw [hf]; norm_num
  have hproc : ¬ T.f_axion > end_freq (freq_lo (749 : ℝ)) 500 := by
    rw [hf]
    simp only [end_freq, start_freq, freq_lo, rangeSpec, step_size]
    norm_num
  have hc : 0 ≤ start_freq (freq_lo (749 : ℝ)) 500 + (5 / 10) * rangeSpec ℝ := by
    simp only [start_freq, freq_lo, rangeSpec, step_size]
    norm_num
  exact ⟨res, T, W, hres, hT, hW, hpos, hproc, hc,
    C18_recorded_signal_sum_le (constRng (1 / 2) 0) 749 751 1 false () res hres 0 500 T W
      hT hW hpos hproc hc⟩

/-- C18, as stated, fails: scanning `[-0.01, 0.99]` in broadened mode with the signal at
`0.009999999`, step `0` is a processed window with the negative centre `-0.01`; its lineshape
power is negative, the bins after the starting bin `360` carry less than the whole mass of
the speed density, and the recorded signal adds up to more than `power_sig`. -/
theorem C18_sum_above_negative_power :
    ∃ (res : Result Unit ℝ) (T : Trial ℝ) (W : Window ℝ),
      search001 realNumerics (constRng (19999999 / 1000000000) 0) (-(1 / 100)) (99 / 100)
        false 1 false () = Except.ok res ∧
      res.trials[0]? = some T ∧ T.windows[0]? = some W ∧
      ¬ T.f_axion > end_freq (freq_lo (-(1 / 100) : ℝ)) 0 ∧
      P_exp T.f_axion (start_freq (freq_lo (-(1 / 100) : ℝ)) 0 + (5 / 10) * rangeSpec ℝ) <
        ∑ b ∈ Finset.Icc 1 (nBins ℝ), W.hsig.content b := by
  obtain ⟨res, T, W, hres, hT, hW, hf⟩ := constRun_exists realNumerics
    (19999999 / 1000000000) 0 (-(1 / 100)) (99 / 100) false 1
    false 0 0 (by norm_num) (by rw [nSteps_low_scan]; norm_num)
  have hfv : T.f_axion = 9999999 / 1000000000 := by rw [hf]; norm_num
  have hpos : 0 < T.f_axion := by rw [hfv]; norm_num
  have hproc : ¬ T.f_axion > end_freq (freq_lo (-(1 / 100) : ℝ)) 0 := by
    rw [hfv]
    simp only [end_freq, start_freq, freq_lo, rangeSpec, step_size]
    norm_num
  obtain ⟨hn, hx1, hx2⟩ := window_axis _ _ _ _ _ _ _ _ res hres 0 0 T W hT hW
  have hnpos : 0 < W.hsig.nbins := by rw [hn]; exact nBins_pos
  have hlt : W.hsig.xmin < W.hsig.xmax := by rw [hx1, hx2]; exact start_lt_end _ _
  have he1 : W.hsig.GetBinLowEdge 360 ≤ T.f_axion := by
    rw [window_edge W.hsig _ 0 hn hx1 hx2, hfv]
    simp only [start_freq, freq_lo, rangeSpec, step_size]
    norm_num
  have he2 : T.f_axion < W.hsig.GetBinLowEdge 361 := by
    rw [window_edge W.hsig _ 0 hn hx1 hx2, hfv]
    simp only [start_freq, freq_lo, rangeSpec, step_size]
    norm_num
  have hfb : W.hsig.FindBin T.f_axion = 360 :=
    FindBin_unique W.hsig T.f_axion hnpos hlt 360 (by norm_num)
      (by rw [hn, nBins_eq]; norm_num) (by exact_mod_cast he1) (by exact_mod_cast he2)
  have hP : P_exp T.f_axion
      (start_freq (freq_lo (-(1 / 100) : ℝ)) 0 + (5 / 10) * rangeSpec ℝ) < 0 := by
    apply P_exp_neg
    simp only [start_freq, freq_lo, rangeSpec, step_size]
    norm_num
  refine ⟨res, T, W, hres, hT, hW, hproc, ?_⟩
  rw [broad_sum W.hsig T.f_axion _ (W.hsig.FindBin T.f_axion) (nBins ℝ) W.hsig.content
    (broad_hsig _ _ _ _ _ _ _ res hres 0 0 T W hT hW hproc), hfb,
    if_pos (by rw [nBins_eq]; norm_num)]
  have hv0 : 0 < vel realNumerics T.f_axion (W.hsig.GetBinLowEdge (((360 : ℕ) : ℤ) + 1)) := by
    have h0 : vel realNumerics T.f_axion T.f_axion = 0 := vel_self _ hpos.ne.symm
    rw [← h0]
    exact vel_strictMono _ _ _ hpos (le_refl _) (by exact_mod_cast he2)
  have hv1 : vel realNumerics T.f_axion (W.hsig.GetBinLowEdge (((360 : ℕ) : ℤ) + 1)) ≤
      vel realNumerics T.f_axion (W.hsig.GetBinLowEdge ((nBins ℝ : ℤ) + 1)) :=
    vel_mono _ _ _ hpos (edge_mono W.hsig hnpos hlt _ _ (by rw [nBins_eq]; norm_num))
  have hhead := MB_integral_pos 0 _ (le_refl _) hv0
  have hall := MB_integral_le_one 0 _ (le_refl _) (le_trans hv0.le hv1)
  have hadd := intervalIntegral.integral_add_adjacent_intervals
    (MB_intervalIntegrable 0
      (vel realNumerics T.f_axion (W.hsig.GetBinLowEdge (((360 : ℕ) : ℤ) + 1))))
    (MB_intervalIntegrable
      (vel realNumerics T.f_axion (W.hsig.GetBinLowEdge (((360 : ℕ) : ℤ) + 1)))
      (vel realNumerics T.f_axion (W.hsig.GetBinLowEdge ((nBins ℝ : ℤ) + 1))))
  have hM : ∫ x in (vel realNumerics T.f_axion
      (W.hsig.GetBinLowEdge (((360 : ℕ) : ℤ) + 1)))..(vel realNumerics T.f_axion
      (W.hsig.GetBinLowEdge ((nBins ℝ : ℤ) + 1))), maxwell_boltzmann x < 1 := by
    linarith
  have := mul_lt_mul_of_neg_left hM hP
  linarith

/-- C5 (amended): in broadened mode, when `f_axion > 0` equals a window's `start_freq`, the
recorded signal power falls from bin `b` to bin `b + 1`, `signal[b] ≥ signal[b+1]`, for every
`b` in `2 .. nBins - 1` at which the density of the signal per unit of frequency,
`maxwell_boltzmann(v) / v` at `v = c * sqrt(f / f_axion - 1)`, is at the upper edge of bin
`b + 1` no larger than at the lower edge of bin `b`; and it is so for every bin whose lower
edge lies at or beyond the peak of that density, `v ≥ 226/sqrt 2` km/s, that is
`2 * v^2 ≥ 226^2`. -/
theorem C5_signal_falls_with_density (R : Rng σ ℝ) (lo hi : ℝ) (nTrials : ℕ) (debug : Bool)
    (s0 : σ) (res : Result σ ℝ)
    (hres : search001 realNumerics R lo hi false nTrials debug s0 = Except.ok res)
    (itrial istep : ℕ) (T : Trial ℝ) (W : Window ℝ)
    (hT : res.trials[itrial]? = some T) (hW : T.windows[istep]? = some W)
    (hstart : T.f_axion = start_freq (freq_lo lo) istep) (hpos : 0 < T.f_axion)
    (b : ℕ) (hb1 : 2 ≤ b) (hb2 : b + 1 ≤ nBins ℝ) :
    (maxwell_boltzmann (vel realNumerics T.f_axion (W.hsig.GetBinLowEdge ((b : ℤ) + 2))) /
          vel realNumerics T.f_axion (W.hsig.GetBinLowEdge ((b : ℤ) + 2)) ≤
        maxwell_boltzmann (vel realNumerics T.f_axion (W.hsig.GetBinLowEdge b)) /
          vel realNumerics T.f_axion (W.hsig.GetBinLowEdge b) →
      W.hsig.content (b + 1) ≤ W.hsig.content b) ∧
    (226 ^ 2 ≤ 2 * (vel realNumerics T.f_axion (W.hsig.GetBinLowEdge b)) ^ 2 →
      maxwell_boltzmann (vel realNumerics T.f_axion (W.hsig.GetBinLowEdge ((b : ℤ) + 2))) /
          vel realNumerics T.f_axion (W.hsig.GetBinLowEdge ((b : ℤ) + 2)) ≤
        maxwell_boltzmann (vel realNumerics T.f_axion (W.hsig.GetBinLowEdge b)) /
          vel realNumerics T.f_axion (W.hsig.GetBinLowEdge b)) := by
  obtain ⟨hn, hx1, hx2⟩ := window_axis _ _ _ _ _ _ _ _ res hres itrial istep T W hT hW
  have hnpos : 0 < W.hsig.nbins := by rw [hn]; exact nBins_pos
  have hlt : W.hsig.xmin < W.hsig.xmax := by rw [hx1, hx2]; exact start_lt_end _ _
  have hproc : ¬ T.f_axion > end_freq (freq_lo lo) istep := by
    rw [hstart]
    exact not_lt.mpr (start_lt_end _ _).le
  have hedge1 : W.hsig.GetBinLowEdge ((1 : ℕ) : ℤ) = T.f_axion := by
    rw [Nat.cast_one, edge_first, hx1, hstart]
  have hfb : W.hsig.FindBin T.f_axion = 1 :=
    FindBin_unique W.hsig T.f_axion hnpos hlt 1 (le_refl _) (by omega) hedge1.le (by
      rw [← hedge1]
      exact edge_strictMono W.hsig hnpos hlt _ _ (by omega))
  have hge : T.f_axion ≤ W.hsig.GetBinLowEdge b := by
    rw [← hedge1]
    exact edge_mono W.hsig hnpos hlt _ _ (by omega)
  have hP : 0 ≤ P_exp T.f_axion (start_freq (freq_lo lo) istep + (5 / 10) * rangeSpec ℝ) := by
    apply P_exp_nonneg
    have := rangeSpec_pos (α := ℝ)
    rw [← hstart]
    linarith
  constructor
  · intro hdens
    rw [broad_hsig _ _ _ _ _ _ _ res hres itrial istep T W hT hW hproc b,
      broad_hsig _ _ _ _ _ _ _ res hres itrial istep T W hT hW hproc (b + 1), hfb,
      if_pos ⟨by omega, hb2⟩, if_pos ⟨by omega, by omega⟩]
    exact mul_le_mul_of_nonneg_left
      (binProb_antitone_of_density W.hsig T.f_axion b hpos hnpos hlt hge hdens) hP
  · intro hpeak
    have hv0 : 0 < vel realNumerics T.f_axion (W.hsig.GetBinLowEdge b) := by
      rcases (vel_nonneg T.f_axion (W.hsig.GetBinLowEdge b)).lt_or_eq with h1 | h1
      · exact h1
      · rw [← h1] at hpeak
        norm_num at hpeak
    have h2 : vel realNumerics T.f_axion (W.hsig.GetBinLowEdge b) ≤
        vel realNumerics T.f_axion (W.hsig.GetBinLowEdge ((b : ℤ) + 2)) :=
      vel_mono T.f_axion _ _ hpos (edge_mono W.hsig hnpos hlt _ _ (by omega))
    rw [MB_div_le_iff _ _ hv0.ne.symm (lt_of_lt_of_le hv0 h2).ne.symm]
    exact spectral_antitone _ _ hv0 h2 hpeak

theorem C5_signal_falls_with_density_witness :
    ∃ (res : Result Unit ℝ) (T : Trial ℝ) (W : Window ℝ),
      search001 realNumerics (constRng (39 / 80) 0) 749 751 false 1 false () = Except.ok res ∧
      res.trials[0]? = some T ∧ T.windows[500]? = some W ∧
      T.f_axion = start_freq (freq_lo (749 : ℝ)) 500 ∧ 0 < T.f_axion ∧
      (2 ≤ 2 ∧ 2 + 1 ≤ nBins ℝ) ∧
      maxwell_boltzmann (vel realNumerics T.f_axion (W.hsig.GetBinLowEdge (((2 : ℕ) : ℤ) + 2))) /
          vel realNumerics T.f_axion (W.hsig.GetBinLowEdge (((2 : ℕ) : ℤ) + 2)) ≤
        maxwell_boltzmann (vel realNumerics T.f_axion (W.hsig.GetBinLowEdge ((2 : ℕ) : ℤ))) /
          vel realNumerics T.f_axion (W.hsig.GetBinLowEdge ((2 : ℕ) : ℤ)) ∧
      W.hsig.content (2 + 1) ≤ W.hsig.content 2 ∧
      (226 ^ 2 ≤ 2 * (vel realNumerics T.f_axion (W.hsig.GetBinLowEdge ((2 : ℕ) : ℤ))) ^ 2 →
        maxwell_boltzmann
            (vel realNumerics T.f_axion (W.hsig.GetBinLowEdge (((2 : ℕ) : ℤ) + 2))) /
            vel realNumerics T.f_axion (W.hsig.GetBinLowEdge (((2 : ℕ) : ℤ) + 2)) ≤
          maxwell_boltzmann (vel realNumerics T.f_axion (W.hsig.GetBinLowEdge ((2 : ℕ) : ℤ))) /
            vel realNumerics T.f_axion (W.hsig.GetBinLowEdge ((2 : ℕ) : ℤ))) := by
  obtain ⟨res, T, W, hres, hT, hW, hf⟩ := constRun_exists realNumerics (39 / 80) 0 749 751 false
    1 false 0 500 (by norm_num) (by rw [nSteps_default]; norm_num)
  have hstart : T.f_axion = start_freq (freq_lo (749 : ℝ)) 500 := by
    rw [hf]
    simp only [start_freq, freq_lo, rangeSpec, step_size]
    norm_num
  have hfv : T.f_axion = 749975 / 1000 := by rw [hf]; norm_num
  have hpos : 0 < T.f_axion := by rw [hfv]; norm_num
  obtain ⟨hn, hx1, hx2⟩ := window_axis _ _ _ _ _ _ _ _ res hres 0 500 T W hT hW
  have hb2 : 2 + 1 ≤ nBins ℝ := by rw [nBins_eq]; norm_num
  have hsq2 : (vel realNumerics T.f_axion (W.hsig.GetBinLowEdge ((2 : ℕ) : ℤ))) ^ 2 =
      450000000 / 29999 := by
    rw [vel_real, window_edge W.hsig _ 500 hn hx1 hx2, hfv, mul_pow, Real.sq_sqrt]
    · simp only [start_freq, freq_lo, rangeSpec, step_size]
      norm_num
    · simp only [start_freq, freq_lo, rangeSpec, step_size]
      norm_num
  have hsq4 : (vel realNumerics T.f_axion (W.hsig.GetBinLowEdge (((2 : ℕ) : ℤ) + 2))) ^ 2 =
      1350000000 / 29999 := by
    rw [vel_real, window_edge W.hsig _ 500 hn hx1 hx2, hfv, mul_pow, Real.sq_sqrt]
    · simp only [start_freq, freq_lo, rangeSpec, step_size]
      norm_num
    · simp only [start_freq, freq_lo, rangeSpec, step_size]
      norm_num
  have hv2 : 0 < vel realNumerics T.f_axion (W.hsig.GetBinLowEdge ((2 : ℕ) : ℤ)) := by
    rcases (vel_nonneg T.f_axion (W.hsig.GetBinLowEdge ((2 : ℕ) : ℤ))).lt_or_eq with h1 | h1
    · exact h1
    · rw [← h1] at hsq2
      norm_num at hsq2
  have hle : vel realNumerics T.f_axion (W.hsig.GetBinLowEdge ((2 : ℕ) : ℤ)) ≤
      vel realNumerics T.f_axion (W.hsig.GetBinLowEdge (((2 : ℕ) : ℤ) + 2)) := by
    have hnpos : 0 < W.hsig.nbins := by rw [hn]; exact nBins_pos
    have hlt : W.hsig.xmin < W.hsig.xmax := by rw [hx1, hx2]; exact start_lt_end _ _
    exact vel_mono T.f_axion _ _ hpos (edge_mono W.hsig hnpos hlt _ _ (by omega))
  have hdens : maxwell_boltzmann
        (vel realNumerics T.f_axion (W.hsig.GetBinLowEdge (((2 : ℕ) : ℤ) + 2))) /
        vel realNumerics T.f_axion (W.hsig.GetBinLowEdge (((2 : ℕ) : ℤ) + 2)) ≤
      maxwell_boltzmann (vel realNumerics T.f_axion (W.hsig.GetBinLowEdge ((2 : ℕ) : ℤ))) /
        vel realNumerics T.f_axion (W.hsig.GetBinLowEdge ((2 : ℕ) : ℤ)) := by
    rw [MB_div_le_iff _ _ hv2.ne.symm (lt_of_lt_of_le hv2 hle).ne.symm]
    apply spectral_le_of_sq _ _ hv2 hle
    rw [hsq2, hsq4]
    norm_num
  have key := C5_signal_falls_with_density (constRng (39 / 80) 0) 749 751 1 false () res hres
    0 500 T W hT hW hstart hpos 2 (by norm_num) hb2
  exact ⟨res, T, W, hres, hT, hW, hstart, hpos, ⟨by norm_num, hb2⟩, hdens, key.1 hdens, key.2⟩

/-- C5, as stated, fails, at the starting bin and after it: scanning `[4999, 5001]` with the
signal at `4999.975`, the `start_freq` of step `500`, the starting bin `1` of that window
holds `0` and bin `2` a positive power, so that `signal[1] < signal[2]`; and the velocities
of the edges of bins `2` and `3` lie below the peak of the spectral density, where the bin
probabilities rise, so that `signal[2] < signal[3]`. -/
theorem C5_first_bins_rise :
    ∃ (res : Result Unit ℝ) (T : Trial ℝ) (W : Window ℝ),
      search001 realNumerics (constRng (39 / 80) 0) 4999 5001 false 1 false () =
        Except.ok res ∧
      res.trials[0]? = some T ∧ T.windows[500]? = some W ∧
      T.f_axion = start_freq (freq_lo (4999 : ℝ)) 500 ∧
      W.hsig.content 1 < W.hsig.content 2 ∧ W.hsig.content 2 < W.hsig.content 3 := by
  obtain ⟨res, T, W, hres, hT, hW, hf⟩ := constRun_exists realNumerics (39 / 80) 0 4999 5001
    false 1 false 0 500 (by norm_num) (by rw [nSteps_high_scan]; norm_num)
  have hstart : T.f_axion = start_freq (freq_lo (4999 : ℝ)) 500 := by
    rw [hf]
    simp only [start_freq, freq_lo, rangeSpec, step_size]
    norm_num
  have hfv : T.f_axion = 4999975 / 1000 := by rw [hf]; norm_num
  have hpos : 0 < T.f_axion := by rw [hfv]; norm_num
  obtain ⟨hn, hx1, hx2⟩ := window_axis _ _ _ _ _ _ _ _ res hres 0 500 T W hT hW
  have hnpos : 0 < W.hsig.nbins := by rw [hn]; exact nBins_pos
  have hlt : W.hsig.xmin < W.hsig.xmax := by rw [hx1, hx2]; exact start_lt_end _ _
  have hproc : ¬ T.f_axion > end_freq (freq_lo (4999 : ℝ)) 500 := by
    rw [hstart]
    exact not_lt.mpr (start_lt_end _ _).le
  have hedge1 : W.hsig.GetBinLowEdge ((1 : ℕ) : ℤ) = T.f_axion := by
    rw [Nat.cast_one, edge_first, hx1, hstart]
  have hfb : W.hsig.FindBin T.f_axion = 1 :=
    FindBin_unique W.hsig T.f_axion hnpos hlt 1 (le_refl _) (by omega) hedge1.le (by
      rw [← hedge1]
      exact edge_strictMono W.hsig hnpos hlt _ _ (by omega))
  have hge2 : T.f_axion ≤ W.hsig.GetBinLowEdge ((2 : ℕ) : ℤ) := by
    rw [← hedge1]
    exact edge_mono W.hsig hnpos hlt _ _ (by omega)
  have hP : 0 < P_exp T.f_axion
      (start_freq (freq_lo (4999 : ℝ)) 500 + (5 / 10) * rangeSpec ℝ) := by
    apply P_exp_pos
    simp only [start_freq, freq_lo, rangeSpec, step_size]
    norm_num
  have hbelow : 2 * (vel realNumerics T.f_axion
      (W.hsig.GetBinLowEdge (((2 : ℕ) : ℤ) + 1 + 1))) ^ 2 ≤ 226 ^ 2 := by
    rw [vel_real, window_edge W.hsig _ 500 hn hx1 hx2, hfv, mul_pow, Real.sq_sqrt]
    · simp only [start_freq, freq_lo, rangeSpec, step_size]
      norm_num
    · simp only [start_freq, freq_lo, rangeSpec, step_size]
      norm_num
  refine ⟨res, T, W, hres, hT, hW, hstart, ?_, ?_⟩
  · rw [broad_hsig _ _ _ _ _ _ _ res hres 0 500 T W hT hW hproc 1,
      broad_hsig _ _ _ _ _ _ _ res hres 0 500 T W hT hW hproc 2, hfb,
      if_neg (by omega), if_pos ⟨by omega, by rw [nBins_eq]; norm_num⟩]
    exact mul_pos hP (binProb_real_pos W.hsig T.f_axion 2 hpos hnpos hlt hge2)
  · rw [broad_hsig _ _ _ _ _ _ _ res hres 0 500 T W hT hW hproc 2,
      broad_hsig _ _ _ _ _ _ _ res hres 0 500 T W hT hW hproc 3, hfb,
      if_pos ⟨by omega, by rw [nBins_eq]; norm_num⟩,
      if_pos ⟨by omega, by rw [nBins_eq]; norm_num⟩]
    exact mul_lt_mul_of_pos_left
      (binProb_lt_succ W.hsig T.f_axion 2 hpos hnpos hlt hge2 hbelow) hP

end Claims

end TAXI
